import Mathlib

/-!
Verification development for the Commerce-Minorista benchmark repository.

The repository has three Python scripts:
* `src/ingest_benchmark.py` — loads a generated SQL script into PostgreSQL,
  loads generated JSON documents into MongoDB, and renormalizes the same JSON
  documents into a second PostgreSQL database (`load_postgres_from_json`);
* `src/sql/generator.py` and `src/json/generator.py` — generate the synthetic
  base data (categories, products, stores, employees, customers, inventory,
  sales with sale lines) and serialize it as SQL respectively JSON documents.

The embedding below models:
* database cursors as a record of typed per-table row lists plus a trace of
  cursor-level events (statement execution, COPY commands, commits);
* Python `dict`s as association lists with first-match lookup and
  overwrite-or-append assignment;
* an uncaught `KeyError` as `Option.none` propagating through the run;
* Python `float` money values as exact rationals, with `round(x, 2)`
  modelled as exact rounding to a multiple of 1/100;
* the random choices of the generators (``random.choice``, ``random.sample``,
  ``random.randint``, the zipf customer index, faker values) as explicit
  oracle inputs constrained by validity predicates that state exactly the
  guarantees of the corresponding library calls.
-/

set_option maxHeartbeats 1000000

/-- A scalar value handed to the PostgreSQL driver: a string, an integer, or a
numeric (Python `float`, modelled as an exact rational). -/
inductive Value where
  | s : String → Value
  | n : Nat → Value
  | q : Rat → Value
deriving DecidableEq, Repr

/-- One row passed to `copy_rows` (one line of the COPY buffer). -/
abbrev Row := List Value

/-- Cursor-level events, recorded in order: executing a SQL script/DDL file,
issuing one COPY command, and committing the transaction. -/
inductive Ev where
  | exec : String → Ev
  | copy : String → Ev
  | commit : Ev
deriving DecidableEq, Repr

/-- The state of one PostgreSQL database: the rows of each table of the
`commerce` schema (in insertion order) and the trace of cursor events. -/
structure DB where
  store : List Row := []
  employee : List Row := []
  category : List Row := []
  product : List Row := []
  inventory : List Row := []
  customer : List Row := []
  sale : List Row := []
  saleline : List Row := []
  events : List Ev := []
deriving DecidableEq, Repr

/-- Append rows to the table named `table` (already lower-cased). -/
def DB.insertRows (db : DB) (table : String) (rows : List Row) : DB :=
  if table = "store" then { db with store := db.store ++ rows }
  else if table = "employee" then { db with employee := db.employee ++ rows }
  else if table = "category" then { db with category := db.category ++ rows }
  else if table = "product" then { db with product := db.product ++ rows }
  else if table = "inventory" then { db with inventory := db.inventory ++ rows }
  else if table = "customer" then { db with customer := db.customer ++ rows }
  else if table = "sale" then { db with sale := db.sale ++ rows }
  else if table = "saleline" then { db with saleline := db.saleline ++ rows }
  else db

/-- `copy_rows` (ingest_benchmark.py lines 79-90): on an empty rows list it
returns immediately; otherwise it serializes the rows into a buffer and issues
one COPY command on the lower-cased table name.  The embedding records the
typed rows in the table and one `Ev.copy` event for the COPY command.
`table.lower()` is modelled as the identity: every call site in the script
passes the table name already in lower case. -/
def copy_rows (db : DB) (table : String) (columns : List String) (rows : List Row) : DB :=
  if rows = [] then db
  else { db.insertRows table rows with events := db.events ++ [Ev.copy table] }

/-- Python dict lookup `m[k]` / `m.get(k)`: first matching binding. -/
def mget {K V : Type} [DecidableEq K] (m : List (K × V)) (k : K) : Option V :=
  match m with
  | [] => none
  | (a, b) :: t => if a = k then some b else mget t k

/-- Python dict assignment `m[k] = v`: overwrite the existing binding in place,
or append a new binding at the end (dicts preserve insertion order). -/
def mset {K V : Type} [DecidableEq K] (m : List (K × V)) (k : K) (v : V) : List (K × V) :=
  match m with
  | [] => [(k, v)]
  | (a, b) :: t => if a = k then (k, v) :: t else (a, b) :: mset t k v

/-! ## JSON document shapes

The JSON documents as produced by `src/json/generator.py` and consumed by
`load_postgres_from_json`.  The optional keys read with `.get(…, default)`
(`address`, `position`, `employees`, `inventory`) are modelled as always
present, which is how the generator writes them. -/

/-- An embedded product object `{"name": …, "category": …, "price": …}`. -/
structure ProdDoc where
  name : String
  category : String
  price : Rat
deriving DecidableEq, Repr

/-- An embedded inventory entry `{"product": …, "quantity": …}`. -/
structure InvDoc where
  product : ProdDoc
  quantity : Nat
deriving DecidableEq, Repr

/-- An embedded employee object of a store document. -/
structure EmpDoc where
  first_name : String
  last_name : String
  position : String
deriving DecidableEq, Repr

/-- One store document of `stores_catalog.json`. -/
structure StoreDoc where
  store_name : String
  address : String
  employees : List EmpDoc
  inventory : List InvDoc
deriving DecidableEq, Repr

/-- The embedded customer object of a sale document. -/
structure CustDoc where
  first_name : String
  last_name : String
  email : String
deriving DecidableEq, Repr

/-- A JSON timestamp: either extended JSON `{"$date": s}` or a plain string. -/
inductive TsVal where
  | date : String → TsVal
  | str : String → TsVal
deriving DecidableEq, Repr

/-- An embedded sale line `{"product": …, "quantity": …, "line_total": …}`. -/
structure LineDoc where
  product : ProdDoc
  quantity : Nat
  line_total : Rat
deriving DecidableEq, Repr

/-- One sale document of `sales_docs.json` (`sale["store"]["name"]` is
flattened to `store_name`, `sale["employee"]` to its two name fields). -/
structure SaleDoc where
  timestamp : TsVal
  store_name : String
  emp_first : String
  emp_last : String
  customer : CustDoc
  lines : List LineDoc
  total_amount : Rat
deriving DecidableEq, Repr

/-! ## `load_postgres_from_json` (ingest_benchmark.py lines 107-189) -/

/-- The in-memory state of `load_postgres_from_json`: the database plus the
lookup dicts and id counters (lines 117-118 and 150-151). -/
structure IngestSt where
  db : DB
  category_map : List (String × Nat) := []
  product_map : List (String × Nat) := []
  store_map : List (String × Nat) := []
  employee_map : List ((String × String × Nat) × Nat) := []
  next_cat : Nat := 1
  next_prod : Nat := 1
  next_emp : Nat := 1
  customers_map : List (String × Nat) := []
  next_cust : Nat := 1
  next_sale : Nat := 1
deriving DecidableEq, Repr

/-- One employee document of a store document (lines 126-130). -/
def ingestEmp (s_id : Nat) (st : IngestSt) (emp : EmpDoc) : IngestSt :=
  let eid := st.next_emp
  { st with
    next_emp := st.next_emp + 1,
    employee_map := mset st.employee_map (emp.first_name, emp.last_name, s_id) eid,
    db := copy_rows st.db "employee"
      ["employee_id", "first_name", "last_name", "position", "store_id"]
      [[Value.n eid, Value.s emp.first_name, Value.s emp.last_name,
        Value.s emp.position, Value.n s_id]] }

/-- The employees loop of a store document (line 126). -/
def ingestEmps (s_id : Nat) (st : IngestSt) : List EmpDoc → IngestSt
  | [] => st
  | e :: rest => ingestEmps s_id (ingestEmp s_id st e) rest

/-- Lines 134-138: if the current product's category name is not yet in
`category_map`, assign it the id `next_cat`, advance the counter and copy the
category row.  The value just assigned is written directly in the copied row
(a dict assignment immediately followed by a lookup of the same key). -/
def ensureCat (st : IngestSt) (cat_name : String) : IngestSt :=
  if (mget st.category_map cat_name).isSome then st
  else
    { st with
      category_map := mset st.category_map cat_name st.next_cat,
      next_cat := st.next_cat + 1,
      db := copy_rows st.db "category" ["category_id", "name"]
        [[Value.n st.next_cat, Value.s cat_name]] }

/-- Lines 140-144: if the product name is not yet in `product_map`, assign it
the id `next_prod`, advance the counter and copy the product row; the row's
`category_id` is the lookup `category_map[cat_name]` (a `KeyError` when
missing, hence `Option`). -/
def ensureProd (st1 : IngestSt) (prod : ProdDoc) : Option IngestSt :=
  if (mget st1.product_map prod.name).isSome then some st1
  else
    match mget st1.category_map prod.category with
    | none => none
    | some cat_id =>
      let pid := st1.next_prod
      some { st1 with
        product_map := mset st1.product_map prod.name pid,
        next_prod := st1.next_prod + 1,
        db := copy_rows st1.db "product" ["product_id", "name", "price", "category_id"]
          [[Value.n pid, Value.s prod.name, Value.q prod.price, Value.n cat_id]] }

/-- Lines 140-147 of one inventory entry, starting from the state `st1` in
which the category has been registered: ensure the product, then copy the
inventory row with the looked-up product id `product_map[prod["name"]]`. -/
def ingestInvProd (s_id : Nat) (st1 : IngestSt) (inv : InvDoc) : Option IngestSt :=
  match ensureProd st1 inv.product with
  | none => none
  | some st2 =>
    match mget st2.product_map inv.product.name with
    | none => none
    | some pid2 =>
      some { st2 with
        db := copy_rows st2.db "inventory" ["store_id", "product_id", "quantity"]
          [[Value.n s_id, Value.n pid2, Value.n inv.quantity]] }

/-- One inventory entry of a store document (lines 132-147). -/
def ingestInv (s_id : Nat) (st : IngestSt) (inv : InvDoc) : Option IngestSt :=
  ingestInvProd s_id (ensureCat st inv.product.category) inv

/-- The inventory loop of a store document (line 132). -/
def ingestInvs (s_id : Nat) (st : IngestSt) : List InvDoc → Option IngestSt
  | [] => some st
  | inv :: rest =>
    match ingestInv s_id st inv with
    | none => none
    | some st' => ingestInvs s_id st' rest

/-- One store document of the catalog (lines 120-147): `s_id` is
`len(store_map) + 1`, computed before the assignment into `store_map`. -/
def ingestStoreDoc (st : IngestSt) (doc : StoreDoc) : Option IngestSt :=
  let s_id := st.store_map.length + 1
  let st1 :=
    { st with
      store_map := mset st.store_map doc.store_name s_id,
      db := copy_rows st.db "store" ["store_id", "name", "address"]
        [[Value.n s_id, Value.s doc.store_name, Value.s doc.address]] }
  let st2 := ingestEmps s_id st1 doc.employees
  ingestInvs s_id st2 doc.inventory

/-- The catalog loop (line 120). -/
def ingestCatalog (st : IngestSt) : List StoreDoc → Option IngestSt
  | [] => some st
  | d :: rest =>
    match ingestStoreDoc st d with
    | none => none
    | some st' => ingestCatalog st' rest

/-- `extract_ts` (lines 155-159): unwrap `{"$date": …}` and drop the `Z`. -/
def extract_ts : TsVal → String
  | TsVal.date s => s.replace "Z" ""
  | TsVal.str s => s

/-- The sale-lines loop (lines 179-187): `product_map.get` returns an
`Option`; an unknown product name skips the line without incrementing
`line_no`. -/
def ingestLines (sale_id : Nat) (st : IngestSt) (line_no : Nat) :
    List LineDoc → IngestSt
  | [] => st
  | ln :: rest =>
    match mget st.product_map ln.product.name with
    | none => ingestLines sale_id st line_no rest
    | some prod_id =>
      let db' := copy_rows st.db "saleline"
        ["sale_id", "line_number", "product_id", "quantity", "unit_price", "line_total"]
        [[Value.n sale_id, Value.n line_no, Value.n prod_id, Value.n ln.quantity,
          Value.q ln.product.price, Value.q ln.line_total]]
      ingestLines sale_id { st with db := db' } (line_no + 1) rest

/-- Lines 162-168: if the customer email is not yet in `customers_map`,
assign it the id `next_cust`, advance the counter and copy the customer row. -/
def ensureCust (st : IngestSt) (c : CustDoc) : IngestSt :=
  if (mget st.customers_map c.email).isSome then st
  else
    let cid := st.next_cust
    { st with
      customers_map := mset st.customers_map c.email cid,
      next_cust := st.next_cust + 1,
      db := copy_rows st.db "customer" ["customer_id", "first_name", "last_name", "email"]
        [[Value.n cid, Value.s c.first_name, Value.s c.last_name, Value.s c.email]] }

/-- Lines 170-187 of one sale document, starting from the state `st1` in
which the customer has been registered: look up the store id, the employee id
and the customer id (any missing key is a `KeyError`), copy the sale row and
run the sale-lines loop. -/
def ingestSaleFrom (st1 : IngestSt) (sale : SaleDoc) : Option IngestSt :=
  match mget st1.store_map sale.store_name with
  | none => none
  | some store_id =>
    match mget st1.employee_map (sale.emp_first, sale.emp_last, store_id) with
    | none => none
    | some employee_id =>
      match mget st1.customers_map sale.customer.email with
      | none => none
      | some cid =>
        some (ingestLines st1.next_sale
          { st1 with
            next_sale := st1.next_sale + 1,
            db := copy_rows st1.db "sale"
              ["sale_id", "sale_timestamp", "customer_id", "store_id", "employee_id", "total_amount"]
              [[Value.n st1.next_sale, Value.s (extract_ts sale.timestamp), Value.n cid,
                Value.n store_id, Value.n employee_id, Value.q sale.total_amount]] }
          1 sale.lines)

/-- One sale document (lines 161-187). -/
def ingestSale (st : IngestSt) (sale : SaleDoc) : Option IngestSt :=
  ingestSaleFrom (ensureCust st sale.customer) sale

/-- The sales loop (line 161). -/
def ingestSales (st : IngestSt) : List SaleDoc → Option IngestSt
  | [] => some st
  | s :: rest =>
    match ingestSale st s with
    | none => none
    | some st' => ingestSales st' rest

/-- The state right after executing the schema DDL (line 112). -/
def initSt : IngestSt := { db := { events := [Ev.exec "commerce_schema.sql"] } }

/-- The full body of `load_postgres_from_json` up to (excluding) the final
`conn.commit()`: DDL, catalog ingestion, sales ingestion. -/
def loadState (catalog : List StoreDoc) (sales_docs : List SaleDoc) : Option IngestSt :=
  match ingestCatalog initSt catalog with
  | none => none
  | some st1 => ingestSales st1 sales_docs

/-- `load_postgres_from_json` (lines 107-189): the resulting database, with
the single `conn.commit()` appended to the event trace; `none` is an uncaught
exception escaping the function. -/
def load_postgres_from_json (catalog : List StoreDoc) (sales_docs : List SaleDoc) :
    Option DB :=
  (loadState catalog sales_docs).map
    (fun st => { st.db with events := st.db.events ++ [Ev.commit] })

/-- `load_postgres_sql` (lines 95-101): execute the generated SQL script as
one statement batch, then `conn.commit()`.  Only the cursor-event trace is
modelled; the script's contents are external data. -/
def load_postgres_sql : List Ev := [Ev.exec "commerce_load.sql", Ev.commit]

/-! ## MongoDB ingestion (lines 194-214) -/

/-- A MongoDB collection after `drop()` and the `insert_many` calls. -/
structure MongoColl (α : Type) where
  docs : List α
deriving DecidableEq, Repr

/-- `load_mongo_catalog` (lines 194-202): drop and insert all documents. -/
def load_mongo_catalog (docs : List StoreDoc) : MongoColl StoreDoc := ⟨docs⟩

/-- The chunking list comprehension `[docs[i:i+CHUNK] for i in range(0, len(docs), CHUNK)]`
of line 212 (`n` is `CHUNK`; `range(0, len, n)` has `⌈len / n⌉` indices
`0, n, 2·n, …`, and `docs[i:i+n]` is `(docs.drop i).take n`). -/
def chunkList {α : Type} (n : Nat) (docs : List α) : List (List α) :=
  (List.range ((docs.length + n - 1) / n)).map (fun i => (docs.drop (i * n)).take n)

/-- `load_mongo_sales` (lines 204-214): drop, then insert the documents in
chunks of 2000. -/
def load_mongo_sales (docs : List SaleDoc) : MongoColl SaleDoc :=
  ⟨(chunkList 2000 docs).foldl (fun acc c => acc ++ c) []⟩

/-! ## `main` (lines 220-244) -/

/-- Everything `main` produces: the CSV (header and rows, durations kept
abstract as rationals) and the three loaded backends. -/
structure MainOut where
  csvHeader : List String
  csvRows : List (String × Rat)
  pgJson : DB
  mongoStores : MongoColl StoreDoc
  mongoSales : MongoColl SaleDoc
deriving DecidableEq, Repr

/-- The script's `main` (lines 220-244).  The wall-clock durations measured by
the `timed` decorator are external inputs of the model.  An uncaught exception
of any ingestion step aborts the run before the CSV is written (`none`). -/
def mainRun (catalog : List StoreDoc) (sales_docs : List SaleDoc)
    (dt_pg_sql dt_pg_json dt_cat dt_sales : Rat) : Option MainOut :=
  let results : List (String × Rat) := []
  let _pgsql := load_postgres_sql
  let results := results ++ [("postgres_sql", dt_pg_sql)]
  match load_postgres_from_json catalog sales_docs with
  | none => none
  | some db =>
    let results := results ++ [("postgres_json", dt_pg_json)]
    let mc := load_mongo_catalog catalog
    let ms := load_mongo_sales sales_docs
    let results := results ++ [("mongo_catalog", dt_cat), ("mongo_sales", dt_sales)]
    some { csvHeader := ["step", "duration_seconds"], csvRows := results,
           pgJson := db, mongoStores := mc, mongoSales := ms }

/-! ## Base relational data (src/sql/generator.py and src/json/generator.py)

The two generators build the same in-memory base data: categories, products,
stores, employees, customers, inventory entries, sale headers and sale lines.
Faker-generated text and the random draws are abstract inputs here. -/

namespace Base

/-- A category row `(category_id, name)`. -/
structure Category where
  category_id : Nat
  name : String
deriving DecidableEq, Repr

/-- A product row `(product_id, name, price, category_id)`. -/
structure Product where
  product_id : Nat
  name : String
  price : Rat
  category_id : Nat
deriving DecidableEq, Repr

/-- A store row `(store_id, name, address)`. -/
structure Store where
  store_id : Nat
  name : String
  address : String
deriving DecidableEq, Repr

/-- An employee row `(employee_id, first_name, last_name, position, store_id)`. -/
structure Employee where
  employee_id : Nat
  first_name : String
  last_name : String
  position : String
  store_id : Nat
deriving DecidableEq, Repr

/-- A customer row `(customer_id, first_name, last_name, email)`. -/
structure Customer where
  customer_id : Nat
  first_name : String
  last_name : String
  email : String
deriving DecidableEq, Repr

/-- An inventory entry `(store_id, product_id, quantity)`. -/
structure InvEntry where
  store_id : Nat
  product_id : Nat
  quantity : Nat
deriving DecidableEq, Repr

/-- A sale header; the timestamp string is abstract. -/
structure SaleHdr where
  sale_id : Nat
  timestamp : String
  customer_id : Nat
  store_id : Nat
  employee_id : Nat
  total_amount : Rat
deriving DecidableEq, Repr

/-- A sale line `(sale_id, line_number, product_id, quantity, unit_price, line_total)`. -/
structure SaleLineRec where
  sale_id : Nat
  line_number : Nat
  product_id : Nat
  quantity : Nat
  unit_price : Rat
  line_total : Rat
deriving DecidableEq, Repr

end Base

/-- Python `round(x, 2)` on the generators' money values, modelled as exact
rounding of a rational to a multiple of 1/100. -/
def round2 (x : Rat) : Rat := (round (x * 100) : Int) / 100

/-- `MIN_LINES` of both generators. -/
def MIN_LINES : Nat := 1

/-- `MAX_LINES` of both generators. -/
def MAX_LINES : Nat := 10

/-- `random.sample(pop, k)` semantics: the output is the sequence of values of
the population at `k` pairwise distinct indices. -/
def IsSample {α : Type} (pop : List α) (out : List α) : Prop :=
  ∃ idxs : List (Fin pop.length), idxs.Nodup ∧ out = idxs.map pop.get

/-- Option-valued `map` over a list, mirroring the Python loops that build a
list where each element may raise a `KeyError`. -/
def mapO {α β : Type} (f : α → Option β) : List α → Option (List β)
  | [] => some []
  | x :: t =>
    match f x with
    | none => none
    | some y =>
      match mapO f t with
      | none => none
      | some ys => some (y :: ys)

/-! ## The sales loop of src/sql/generator.py (lines 139-163) -/

namespace SqlGen

/-- The random draws consumed by one iteration of the sales loop:
the timestamp, `random.choice(stores)`, `random.choice(employees_in_store)`,
the zipf customer index, and per line the sampled product with its
`random.randint(1, 5)` quantity. -/
structure Choice where
  ts : String
  store : Base.Store
  emp : Base.Employee
  custIdx : Nat
  picks : List (Base.Product × Nat)
deriving Repr

/-- What the random library guarantees about one iteration's draws. -/
def ChoiceOk (stores : List Base.Store) (employees : List Base.Employee)
    (products : List Base.Product) (customers : List Base.Customer) (c : Choice) : Prop :=
  c.store ∈ stores ∧
  c.emp ∈ employees.filter (fun e => e.store_id == c.store.store_id) ∧
  c.custIdx < customers.length ∧
  MIN_LINES ≤ c.picks.length ∧ c.picks.length ≤ MAX_LINES ∧
  IsSample products (c.picks.map Prod.fst) ∧
  ∀ p ∈ c.picks, 1 ≤ p.2 ∧ p.2 ≤ 5

/-- The inner line loop (lines 154-161): accumulate sale lines and the running
`total_amount`, with `line_number` starting at 1. -/
def mkLines (sale_id : Nat) (line_number : Nat) (total : Rat) :
    List (Base.Product × Nat) → List Base.SaleLineRec × Rat
  | [] => ([], total)
  | (prod, quantity) :: rest =>
    (⟨sale_id, line_number, prod.product_id, quantity, prod.price,
        round2 (prod.price * (quantity : Rat))⟩ ::
      (mkLines sale_id (line_number + 1)
        (total + round2 (prod.price * (quantity : Rat))) rest).1,
     (mkLines sale_id (line_number + 1)
        (total + round2 (prod.price * (quantity : Rat))) rest).2)

/-- The sales loop (lines 139-163): one sale header and its lines per
iteration, `next_sale_id` incremented each time; `total_amount` is
`round(total, 2)` of the accumulated line totals. -/
def genSales (customers : List Base.Customer) (next_sale_id : Nat) :
    List Choice → List Base.SaleHdr × List Base.SaleLineRec
  | [] => ([], [])
  | c :: rest =>
    (⟨next_sale_id, c.ts, (customers.getD c.custIdx ⟨0, "", "", ""⟩).customer_id,
        c.store.store_id, c.emp.employee_id,
        round2 (mkLines next_sale_id 1 0 c.picks).2⟩ ::
      (genSales customers (next_sale_id + 1) rest).1,
     (mkLines next_sale_id 1 0 c.picks).1 ++ (genSales customers (next_sale_id + 1) rest).2)

/-- The whole loop starting from `next_sale_id = 1` (line 138). -/
def generate (customers : List Base.Customer) (choices : List Choice) :
    List Base.SaleHdr × List Base.SaleLineRec :=
  genSales customers 1 choices

end SqlGen

/-! ## The sales loop of src/json/generator.py (lines 132-161) -/

namespace JsonGen

/-- The random draws of one iteration of the json generator's sales loop. -/
structure Choice where
  ts : String
  store : Base.Store
  emp : Base.Employee
  custIdx : Nat
  picks : List (Base.Product × Nat)
deriving Repr

/-- What the random library guarantees about one iteration's draws. -/
def ChoiceOk (stores : List Base.Store) (employees : List Base.Employee)
    (products : List Base.Product) (customers : List Base.Customer) (c : Choice) : Prop :=
  c.store ∈ stores ∧
  c.emp ∈ employees.filter (fun e => e.store_id == c.store.store_id) ∧
  c.custIdx < customers.length ∧
  MIN_LINES ≤ c.picks.length ∧ c.picks.length ≤ MAX_LINES ∧
  IsSample products (c.picks.map Prod.fst) ∧
  ∀ p ∈ c.picks, 1 ≤ p.2 ∧ p.2 ≤ 5

/-- The inner line loop (lines 141-152): `enumerate(chosen, start=1)`,
accumulating `total`. -/
def mkLines (sale_id : Nat) (line_num : Nat) (total : Rat) :
    List (Base.Product × Nat) → List Base.SaleLineRec × Rat
  | [] => ([], total)
  | (prod, qty) :: rest =>
    (⟨sale_id, line_num, prod.product_id, qty, prod.price,
        round2 (prod.price * (qty : Rat))⟩ ::
      (mkLines sale_id (line_num + 1)
        (total + round2 (prod.price * (qty : Rat))) rest).1,
     (mkLines sale_id (line_num + 1)
        (total + round2 (prod.price * (qty : Rat))) rest).2)

/-- The sales loop (lines 132-161): `for sale_id in range(1, SALES + 1)`. -/
def genSales (customers : List Base.Customer) (sale_id : Nat) :
    List Choice → List Base.SaleHdr × List Base.SaleLineRec
  | [] => ([], [])
  | c :: rest =>
    (⟨sale_id, c.ts, (customers.getD c.custIdx ⟨0, "", "", ""⟩).customer_id,
        c.store.store_id, c.emp.employee_id, round2 (mkLines sale_id 1 0 c.picks).2⟩ ::
      (genSales customers (sale_id + 1) rest).1,
     (mkLines sale_id 1 0 c.picks).1 ++ (genSales customers (sale_id + 1) rest).2)

/-- The whole loop starting from `sale_id = 1`. -/
def generate (customers : List Base.Customer) (choices : List Choice) :
    List Base.SaleHdr × List Base.SaleLineRec :=
  genSales customers 1 choices

/-! ### Document building (src/json/generator.py lines 163-231) -/

/-- `cat_by_id = {cid: cname for cid, cname in categories}`. -/
def cat_by_id (categories : List Base.Category) : List (Nat × String) :=
  categories.foldl (fun m c => mset m c.category_id c.name) []

/-- `prod_by_id = {p["product_id"]: p for p in products}`. -/
def prod_by_id (products : List Base.Product) : List (Nat × Base.Product) :=
  products.foldl (fun m p => mset m p.product_id p) []

/-- `emp_by_id = {e["employee_id"]: e for e in employees}`. -/
def emp_by_id (employees : List Base.Employee) : List (Nat × Base.Employee) :=
  employees.foldl (fun m e => mset m e.employee_id e) []

/-- `store_by_id = {s["store_id"]: s for s in stores}`. -/
def store_by_id (stores : List Base.Store) : List (Nat × Base.Store) :=
  stores.foldl (fun m s => mset m s.store_id s) []

/-- `cust_by_id = {c["customer_id"]: c for c in customers}`. -/
def cust_by_id (customers : List Base.Customer) : List (Nat × Base.Customer) :=
  customers.foldl (fun m c => mset m c.customer_id c) []

/-- `lines_by_sale` (lines 172-175) looked up at a sale id: the grouping dict
preserves the original order of the lines of each sale, and a sale id with no
lines is a missing key (`KeyError` on line 212 of the generator). -/
def lines_by_sale (sale_lines : List Base.SaleLineRec) (sid : Nat) :
    Option (List Base.SaleLineRec) :=
  let ls := sale_lines.filter (fun ln => ln.sale_id == sid)
  if ls.isEmpty then none else some ls

/-- `mongo_date` (lines 48-50): the abstract strftime text with a `Z` suffix,
tagged as extended JSON `{"$date": …}`. -/
def mongo_date (ts : String) : TsVal := TsVal.date (ts ++ "Z")

/-- The body of the embedded-inventory loop (lines 181-189): resolve the
product and its category name, both a `KeyError` when missing. -/
def embedInv (categories : List Base.Category) (products : List Base.Product)
    (inv : Base.InvEntry) : Option InvDoc :=
  match mget (prod_by_id products) inv.product_id with
  | none => none
  | some pr =>
    match mget (cat_by_id categories) pr.category_id with
    | none => none
    | some cname =>
      some { product := { name := pr.name, category := cname, price := pr.price },
             quantity := inv.quantity }

/-- One store document (lines 178-202). -/
def buildStoreDoc (categories : List Base.Category) (products : List Base.Product)
    (employees : List Base.Employee) (inventory : List Base.InvEntry)
    (st : Base.Store) : Option StoreDoc :=
  match mapO (embedInv categories products)
    (inventory.filter (fun i => i.store_id == st.store_id)) with
  | none => none
  | some inv_embedded =>
    let emp_embedded := (employees.filter (fun e => e.store_id == st.store_id)).map
      (fun e => { first_name := e.first_name, last_name := e.last_name,
                  position := e.position : EmpDoc })
    some { store_name := st.name, address := st.address,
           employees := emp_embedded, inventory := inv_embedded }

/-- `store_docs` (lines 178-202): one document per store. -/
def store_docs (categories : List Base.Category) (products : List Base.Product)
    (stores : List Base.Store) (employees : List Base.Employee)
    (inventory : List Base.InvEntry) : Option (List StoreDoc) :=
  mapO (buildStoreDoc categories products employees inventory) stores

/-- The body of the embedded-lines loop (lines 212-222): resolve the line
product and its category name, both a `KeyError` when missing. -/
def embedLine (categories : List Base.Category) (products : List Base.Product)
    (ln : Base.SaleLineRec) : Option LineDoc :=
  match mget (prod_by_id products) ln.product_id with
  | none => none
  | some pr =>
    match mget (cat_by_id categories) pr.category_id with
    | none => none
    | some cname =>
      some { product := { name := pr.name, category := cname, price := pr.price },
             quantity := ln.quantity, line_total := ln.line_total }

/-- One sale document (lines 205-231). -/
def buildSaleDoc (categories : List Base.Category) (products : List Base.Product)
    (stores : List Base.Store) (employees : List Base.Employee)
    (customers : List Base.Customer) (sale_lines : List Base.SaleLineRec)
    (sh : Base.SaleHdr) : Option SaleDoc :=
  match mget (store_by_id stores) sh.store_id with
  | none => none
  | some st =>
    match mget (emp_by_id employees) sh.employee_id with
    | none => none
    | some emp =>
      match mget (cust_by_id customers) sh.customer_id with
      | none => none
      | some cust =>
        match lines_by_sale sale_lines sh.sale_id with
        | none => none
        | some lns =>
          match mapO (embedLine categories products) lns with
          | none => none
          | some embedded_lines =>
            some { timestamp := mongo_date sh.timestamp, store_name := st.name,
                   emp_first := emp.first_name, emp_last := emp.last_name,
                   customer := { first_name := cust.first_name, last_name := cust.last_name,
                                 email := cust.email },
                   lines := embedded_lines, total_amount := sh.total_amount }

/-- `sale_docs` (lines 205-231): one document per sale header. -/
def sale_docs (categories : List Base.Category) (products : List Base.Product)
    (stores : List Base.Store) (employees : List Base.Employee)
    (customers : List Base.Customer) (sales_hdr : List Base.SaleHdr)
    (sale_lines : List Base.SaleLineRec) : Option (List SaleDoc) :=
  mapO (buildSaleDoc categories products stores employees customers sale_lines) sales_hdr

end JsonGen


/-! ## Events of the embedding: only `copy_rows` and the final commit touch
the trace during ingestion -/

theorem insertRows_events (db : DB) (t : String) (rows : List Row) :
    (DB.insertRows db t rows).events = db.events := by
  unfold DB.insertRows
  split_ifs <;> rfl

theorem copy_rows_events_commit (db : DB) (t : String) (c : List String) (rows : List Row) :
    Ev.commit ∈ (copy_rows db t c rows).events ↔ Ev.commit ∈ db.events := by
  unfold copy_rows
  split
  · exact Iff.rfl
  · show Ev.commit ∈ db.events ++ [Ev.copy t] ↔ _
    simp

theorem ensureCat_events_commit (st : IngestSt) (cat : String) :
    Ev.commit ∈ (ensureCat st cat).db.events ↔ Ev.commit ∈ st.db.events := by
  unfold ensureCat
  split
  · exact Iff.rfl
  · exact copy_rows_events_commit _ _ _ _

theorem ensureProd_events_commit {st1 st2 : IngestSt} {p : ProdDoc}
    (h : ensureProd st1 p = some st2) :
    Ev.commit ∈ st2.db.events ↔ Ev.commit ∈ st1.db.events := by
  unfold ensureProd at h
  split at h
  · cases h; exact Iff.rfl
  · split at h
    · cases h
    · cases h; exact copy_rows_events_commit _ _ _ _

theorem ensureCust_events_commit (st : IngestSt) (c : CustDoc) :
    Ev.commit ∈ (ensureCust st c).db.events ↔ Ev.commit ∈ st.db.events := by
  unfold ensureCust
  split
  · exact Iff.rfl
  · exact copy_rows_events_commit _ _ _ _

theorem ingestInvProd_events_commit {s_id : Nat} {st1 st' : IngestSt} {inv : InvDoc}
    (h : ingestInvProd s_id st1 inv = some st') :
    Ev.commit ∈ st'.db.events ↔ Ev.commit ∈ st1.db.events := by
  unfold ingestInvProd at h
  split at h
  · cases h
  · next st2 heq =>
    split at h
    · cases h
    · cases h
      rw [copy_rows_events_commit, ensureProd_events_commit heq]

theorem ingestInv_events_commit {s_id : Nat} {st st' : IngestSt} {inv : InvDoc}
    (h : ingestInv s_id st inv = some st') :
    Ev.commit ∈ st'.db.events ↔ Ev.commit ∈ st.db.events := by
  unfold ingestInv at h
  rw [ingestInvProd_events_commit h, ensureCat_events_commit]

theorem ingestInvs_events_commit {s_id : Nat} {invs : List InvDoc} :
    ∀ {st st' : IngestSt}, ingestInvs s_id st invs = some st' →
      (Ev.commit ∈ st'.db.events ↔ Ev.commit ∈ st.db.events) := by
  induction invs with
  | nil => intro st st' h; cases h; exact Iff.rfl
  | cons inv rest ih =>
    intro st st' h
    unfold ingestInvs at h
    split at h
    · cases h
    · next stm heq => rw [ih h, ingestInv_events_commit heq]

theorem ingestEmp_events_commit (s_id : Nat) (st : IngestSt) (e : EmpDoc) :
    Ev.commit ∈ (ingestEmp s_id st e).db.events ↔ Ev.commit ∈ st.db.events := by
  unfold ingestEmp
  exact copy_rows_events_commit _ _ _ _

theorem ingestEmps_events_commit (s_id : Nat) (es : List EmpDoc) :
    ∀ (st : IngestSt),
      Ev.commit ∈ (ingestEmps s_id st es).db.events ↔ Ev.commit ∈ st.db.events := by
  induction es with
  | nil => intro st; exact Iff.rfl
  | cons e rest ih =>
    intro st
    unfold ingestEmps
    rw [ih, ingestEmp_events_commit]

theorem ingestStoreDoc_events_commit {st st' : IngestSt} {d : StoreDoc}
    (h : ingestStoreDoc st d = some st') :
    Ev.commit ∈ st'.db.events ↔ Ev.commit ∈ st.db.events := by
  unfold ingestStoreDoc at h
  rw [ingestInvs_events_commit h, ingestEmps_events_commit]
  exact copy_rows_events_commit _ _ _ _

theorem ingestCatalog_events_commit {docs : List StoreDoc} :
    ∀ {st st' : IngestSt}, ingestCatalog st docs = some st' →
      (Ev.commit ∈ st'.db.events ↔ Ev.commit ∈ st.db.events) := by
  induction docs with
  | nil => intro st st' h; cases h; exact Iff.rfl
  | cons d rest ih =>
    intro st st' h
    unfold ingestCatalog at h
    split at h
    · cases h
    · next stm heq => rw [ih h, ingestStoreDoc_events_commit heq]

theorem ingestLines_events_commit (sale_id : Nat) (lines : List LineDoc) :
    ∀ (st : IngestSt) (line_no : Nat),
      Ev.commit ∈ (ingestLines sale_id st line_no lines).db.events ↔
        Ev.commit ∈ st.db.events := by
  induction lines with
  | nil => intro st line_no; exact Iff.rfl
  | cons ln rest ih =>
    intro st line_no
    unfold ingestLines
    split
    · exact ih st line_no
    · rw [ih]
      exact copy_rows_events_commit _ _ _ _

theorem ingestSaleFrom_events_commit {st1 st' : IngestSt} {sale : SaleDoc}
    (h : ingestSaleFrom st1 sale = some st') :
    Ev.commit ∈ st'.db.events ↔ Ev.commit ∈ st1.db.events := by
  unfold ingestSaleFrom at h
  split at h
  · cases h
  · split at h
    · cases h
    · split at h
      · cases h
      · cases h
        rw [ingestLines_events_commit]
        exact copy_rows_events_commit _ _ _ _

theorem ingestSale_events_commit {st st' : IngestSt} {sale : SaleDoc}
    (h : ingestSale st sale = some st') :
    Ev.commit ∈ st'.db.events ↔ Ev.commit ∈ st.db.events := by
  unfold ingestSale at h
  rw [ingestSaleFrom_events_commit h, ensureCust_events_commit]

theorem ingestSales_events_commit {sales : List SaleDoc} :
    ∀ {st st' : IngestSt}, ingestSales st sales = some st' →
      (Ev.commit ∈ st'.db.events ↔ Ev.commit ∈ st.db.events) := by
  induction sales with
  | nil => intro st st' h; cases h; exact Iff.rfl
  | cons s rest ih =>
    intro st st' h
    unfold ingestSales at h
    split at h
    · cases h
    · next stm heq => rw [ih h, ingestSale_events_commit heq]

theorem loadState_no_commit {catalog : List StoreDoc} {sales_docs : List SaleDoc}
    {st : IngestSt} (h : loadState catalog sales_docs = some st) :
    Ev.commit ∉ st.db.events := by
  unfold loadState at h
  cases heq : ingestCatalog initSt catalog with
  | none => rw [heq] at h; cases h
  | some st1 =>
    rw [heq] at h
    rw [ingestSales_events_commit h, ingestCatalog_events_commit heq]
    simp [initSt]

/-! ## Claims C10, C5, C6 -/

/-- C10: `copy_rows` called with an empty rows collection is a no-op: it
returns immediately without issuing any COPY command, leaving the database
state (all tables and the event trace) unchanged. -/
theorem c10_copy_rows_empty_is_noop (db : DB) (table : String) (columns : List String) :
    copy_rows db table columns [] = db := rfl

/-- C5: each PostgreSQL ingestion path performs a single transaction commit
per run: `load_postgres_sql` and `load_postgres_from_json` each issue exactly
one commit, and that commit is the last cursor event of the run, after the
DDL/script execution and after every COPY command; no commit occurs earlier. -/
theorem c5_single_commit_per_run :
    (load_postgres_sql.count Ev.commit = 1 ∧
      load_postgres_sql.getLast? = some Ev.commit) ∧
    ∀ (catalog : List StoreDoc) (sales_docs : List SaleDoc) (db : DB),
      load_postgres_from_json catalog sales_docs = some db →
      db.events.count Ev.commit = 1 ∧ db.events.getLast? = some Ev.commit := by
  constructor
  · constructor
    · rfl
    · rfl
  · intro catalog sales_docs db h
    unfold load_postgres_from_json at h
    cases hls : loadState catalog sales_docs with
    | none => rw [hls] at h; cases h
    | some st =>
      rw [hls] at h
      have hnc : Ev.commit ∉ st.db.events := loadState_no_commit hls
      simp only [Option.map_some'] at h
      cases h
      constructor
      · show (st.db.events ++ [Ev.commit]).count Ev.commit = 1
        rw [List.count_append]
        rw [List.count_eq_zero.mpr hnc]
        rfl
      · show (st.db.events ++ [Ev.commit]).getLast? = some Ev.commit
        exact List.getLast?_concat _

/-- Witness for C5 at the empty catalog and empty sales list. -/
theorem c5_single_commit_per_run_witness :
    ({ events := [Ev.exec "commerce_schema.sql", Ev.commit] } : DB).events.count Ev.commit = 1 ∧
    ({ events := [Ev.exec "commerce_schema.sql", Ev.commit] } : DB).events.getLast? =
      some Ev.commit :=
  c5_single_commit_per_run.2 [] [] _ rfl

/-- C6: `mainRun` runs all three ingestion paths and, when the run completes,
the CSV consists of the header `step,duration_seconds` followed by exactly one
duration row per timed step, in execution order `postgres_sql, postgres_json,
mongo_catalog, mongo_sales`, so every ingestion path has a recorded duration. -/
theorem c6_main_csv_rows (catalog : List StoreDoc) (sales_docs : List SaleDoc)
    (dt_pg_sql dt_pg_json dt_cat dt_sales : Rat) (out : MainOut)
    (h : mainRun catalog sales_docs dt_pg_sql dt_pg_json dt_cat dt_sales = some out) :
    out.csvHeader = ["step", "duration_seconds"] ∧
    out.csvRows = [("postgres_sql", dt_pg_sql), ("postgres_json", dt_pg_json),
      ("mongo_catalog", dt_cat), ("mongo_sales", dt_sales)] := by
  unfold mainRun at h
  cases hl : load_postgres_from_json catalog sales_docs with
  | none => rw [hl] at h; cases h
  | some db =>
    rw [hl] at h
    cases h
    constructor
    · rfl
    · rfl

/-- Witness for C6 at the empty catalog and empty sales list. -/
theorem c6_main_csv_rows_witness :
    ({ csvHeader := ["step", "duration_seconds"],
       csvRows := [("postgres_sql", 1), ("postgres_json", 2),
         ("mongo_catalog", 3), ("mongo_sales", 4)],
       pgJson := { events := [Ev.exec "commerce_schema.sql", Ev.commit] },
       mongoStores := ⟨[]⟩, mongoSales := ⟨[]⟩ } : MainOut).csvHeader =
        ["step", "duration_seconds"] ∧
    ({ csvHeader := ["step", "duration_seconds"],
       csvRows := [("postgres_sql", 1), ("postgres_json", 2),
         ("mongo_catalog", 3), ("mongo_sales", 4)],
       pgJson := { events := [Ev.exec "commerce_schema.sql", Ev.commit] },
       mongoStores := ⟨[]⟩, mongoSales := ⟨[]⟩ } : MainOut).csvRows =
        [("postgres_sql", 1), ("postgres_json", 2),
         ("mongo_catalog", 3), ("mongo_sales", 4)] :=
  c6_main_csv_rows [] [] 1 2 3 4 _ rfl

/-! ## Claims C8 and C9: invariants of the generated sales -/

/-- The lines belonging to a given sale id ("its own lines"). -/
def salesLinesOf (ls : List Base.SaleLineRec) (sid : Nat) : List Base.SaleLineRec :=
  ls.filter (fun l => l.sale_id == sid)

/-- A sample of a population with pairwise-distinct `f`-keys has
pairwise-distinct `f`-keys. -/
theorem sample_nodup_map {α β : Type} [DecidableEq β] {pop out : List α} (f : α → β)
    (hs : IsSample pop out) (hnd : (pop.map f).Nodup) : (out.map f).Nodup := by
  obtain ⟨idxs, hnd_i, rfl⟩ := hs
  rw [List.map_map]
  refine List.Nodup.map ?_ hnd_i
  intro i j hij
  have hinj := List.nodup_iff_injective_getElem.mp hnd
  have hi : (i : Nat) < (pop.map f).length := by simpa using i.isLt
  have hj : (j : Nat) < (pop.map f).length := by simpa using j.isLt
  have hval : (⟨(i : Nat), hi⟩ : Fin (pop.map f).length) = ⟨(j : Nat), hj⟩ := by
    apply hinj
    show (pop.map f)[(i : Nat)] = (pop.map f)[(j : Nat)]
    simpa [List.getElem_map, List.get_eq_getElem] using hij
  exact Fin.ext (by simpa using congrArg Fin.val hval)

theorem SqlGen.mkLines_length (sale_id : Nat) (ps : List (Base.Product × Nat)) :
    ∀ (ln : Nat) (t : Rat), ((SqlGen.mkLines sale_id ln t ps).1).length = ps.length := by
  induction ps with
  | nil => intro ln t; rfl
  | cons p rest ih =>
    intro ln t
    obtain ⟨prod, q⟩ := p
    simp [SqlGen.mkLines, ih]

theorem SqlGen.mkLines_total (sale_id : Nat) (ps : List (Base.Product × Nat)) :
    ∀ (ln : Nat) (t : Rat),
      (SqlGen.mkLines sale_id ln t ps).2 =
        t + (((SqlGen.mkLines sale_id ln t ps).1).map Base.SaleLineRec.line_total).sum := by
  induction ps with
  | nil => intro ln t; simp [SqlGen.mkLines]
  | cons p rest ih =>
    intro ln t
    obtain ⟨prod, q⟩ := p
    simp only [SqlGen.mkLines, List.map_cons, List.sum_cons]
    rw [ih]
    ring

theorem SqlGen.mkLines_product_id (sale_id : Nat) (ps : List (Base.Product × Nat)) :
    ∀ (ln : Nat) (t : Rat),
      ((SqlGen.mkLines sale_id ln t ps).1).map Base.SaleLineRec.product_id =
        (ps.map Prod.fst).map Base.Product.product_id := by
  induction ps with
  | nil => intro ln t; rfl
  | cons p rest ih =>
    intro ln t
    obtain ⟨prod, q⟩ := p
    simp [SqlGen.mkLines, ih]

theorem SqlGen.mkLines_sale_id (sale_id : Nat) (ps : List (Base.Product × Nat)) :
    ∀ (ln : Nat) (t : Rat), ∀ l ∈ (SqlGen.mkLines sale_id ln t ps).1,
      l.sale_id = sale_id := by
  induction ps with
  | nil => intro ln t l hl; cases hl
  | cons p rest ih =>
    intro ln t l hl
    obtain ⟨prod, q⟩ := p
    simp only [SqlGen.mkLines, List.mem_cons] at hl
    rcases hl with rfl | hl
    · rfl
    · exact ih (ln + 1) (t + round2 (prod.price * (q : Rat))) l hl

theorem SqlGen.genSales_hdr_id (customers : List Base.Customer)
    (cs : List SqlGen.Choice) :
    ∀ (n : Nat), ∀ h ∈ (SqlGen.genSales customers n cs).1, n ≤ h.sale_id := by
  induction cs with
  | nil => intro n h hh; cases hh
  | cons c rest ih =>
    intro n h hh
    simp only [SqlGen.genSales, List.mem_cons] at hh
    rcases hh with rfl | hh
    · exact Nat.le_refl n
    · exact Nat.le_of_succ_le (ih (n + 1) h hh)

theorem SqlGen.genSales_line_id (customers : List Base.Customer)
    (cs : List SqlGen.Choice) :
    ∀ (n : Nat), ∀ l ∈ (SqlGen.genSales customers n cs).2, n ≤ l.sale_id := by
  induction cs with
  | nil => intro n l hl; cases hl
  | cons c rest ih =>
    intro n l hl
    simp only [SqlGen.genSales, List.mem_append] at hl
    rcases hl with hl | hl
    · exact Nat.le_of_eq (SqlGen.mkLines_sale_id n c.picks 1 0 l hl).symm
    · exact Nat.le_of_succ_le (ih (n + 1) l hl)

theorem SqlGen.genSales_sale_shape
    (stores : List Base.Store) (employees : List Base.Employee)
    (products : List Base.Product) (customers : List Base.Customer)
    (hprod : (products.map Base.Product.product_id).Nodup) :
    ∀ (choices : List SqlGen.Choice) (n : Nat),
      (∀ c ∈ choices, SqlGen.ChoiceOk stores employees products customers c) →
      ∀ hdr ∈ (SqlGen.genSales customers n choices).1,
        hdr.total_amount =
          round2 (((salesLinesOf (SqlGen.genSales customers n choices).2 hdr.sale_id).map
            Base.SaleLineRec.line_total).sum) ∧
        MIN_LINES ≤ (salesLinesOf (SqlGen.genSales customers n choices).2 hdr.sale_id).length ∧
        (salesLinesOf (SqlGen.genSales customers n choices).2 hdr.sale_id).length ≤ MAX_LINES ∧
        ((salesLinesOf (SqlGen.genSales customers n choices).2 hdr.sale_id).map
          Base.SaleLineRec.product_id).Nodup := by
  intro choices
  induction choices with
  | nil => intro n hv hdr hmem; cases hmem
  | cons c rest ih =>
    intro n hv hdr hmem
    have hok : SqlGen.ChoiceOk stores employees products customers c :=
      hv c (List.mem_cons_self c rest)
    obtain ⟨-, -, -, hmin, hmax, hsample, -⟩ := hok
    simp only [SqlGen.genSales, List.mem_cons] at hmem
    rcases hmem with rfl | hmem
    · -- the head sale, with sale_id = n
      have hfilter :
          salesLinesOf (SqlGen.genSales customers n (c :: rest)).2 n =
            (SqlGen.mkLines n 1 0 c.picks).1 := by
        show List.filter _ ((SqlGen.mkLines n 1 0 c.picks).1 ++
          (SqlGen.genSales customers (n + 1) rest).2) = _
        rw [List.filter_append]
        have h1 : List.filter (fun l => l.sale_id == n) (SqlGen.mkLines n 1 0 c.picks).1 =
            (SqlGen.mkLines n 1 0 c.picks).1 := by
          apply List.filter_eq_self.mpr
          intro l hl
          simp [SqlGen.mkLines_sale_id n c.picks 1 0 l hl]
        have h2 : List.filter (fun l => l.sale_id == n)
            (SqlGen.genSales customers (n + 1) rest).2 = [] := by
          apply List.filter_eq_nil_iff.mpr
          intro l hl
          have := SqlGen.genSales_line_id customers rest (n + 1) l hl
          simp only [beq_iff_eq]
          omega
        rw [h1, h2, List.append_nil]
      refine ⟨?_, ?_, ?_, ?_⟩
      · show round2 (SqlGen.mkLines n 1 0 c.picks).2 = _
        rw [hfilter, SqlGen.mkLines_total n c.picks 1 0, zero_add]
      · rw [hfilter, SqlGen.mkLines_length]
        exact hmin
      · rw [hfilter, SqlGen.mkLines_length]
        exact hmax
      · rw [hfilter, SqlGen.mkLines_product_id]
        exact sample_nodup_map Base.Product.product_id hsample hprod
    · -- a sale of the tail, with sale_id ≥ n + 1
      have hid : n + 1 ≤ hdr.sale_id := SqlGen.genSales_hdr_id customers rest (n + 1) hdr hmem
      have hfilter :
          salesLinesOf (SqlGen.genSales customers n (c :: rest)).2 hdr.sale_id =
            salesLinesOf (SqlGen.genSales customers (n + 1) rest).2 hdr.sale_id := by
        show List.filter _ ((SqlGen.mkLines n 1 0 c.picks).1 ++
          (SqlGen.genSales customers (n + 1) rest).2) = _
        rw [List.filter_append]
        have h1 : List.filter (fun l => l.sale_id == hdr.sale_id)
            (SqlGen.mkLines n 1 0 c.picks).1 = [] := by
          apply List.filter_eq_nil_iff.mpr
          intro l hl
          have := SqlGen.mkLines_sale_id n c.picks 1 0 l hl
          simp only [beq_iff_eq]
          omega
        rw [h1, List.nil_append]
        rfl
      rw [hfilter]
      exact ih (n + 1) (fun c' hc' => hv c' (List.mem_cons_of_mem c hc')) hdr hmem

theorem JsonGen.json_mkLines_length (sale_id : Nat) (ps : List (Base.Product × Nat)) :
    ∀ (ln : Nat) (t : Rat), ((JsonGen.mkLines sale_id ln t ps).1).length = ps.length := by
  induction ps with
  | nil => intro ln t; rfl
  | cons p rest ih =>
    intro ln t
    obtain ⟨prod, q⟩ := p
    simp [JsonGen.mkLines, ih]

theorem JsonGen.json_mkLines_total (sale_id : Nat) (ps : List (Base.Product × Nat)) :
    ∀ (ln : Nat) (t : Rat),
      (JsonGen.mkLines sale_id ln t ps).2 =
        t + (((JsonGen.mkLines sale_id ln t ps).1).map Base.SaleLineRec.line_total).sum := by
  induction ps with
  | nil => intro ln t; simp [JsonGen.mkLines]
  | cons p rest ih =>
    intro ln t
    obtain ⟨prod, q⟩ := p
    simp only [JsonGen.mkLines, List.map_cons, List.sum_cons]
    rw [ih]
    ring

theorem JsonGen.json_mkLines_product_id (sale_id : Nat) (ps : List (Base.Product × Nat)) :
    ∀ (ln : Nat) (t : Rat),
      ((JsonGen.mkLines sale_id ln t ps).1).map Base.SaleLineRec.product_id =
        (ps.map Prod.fst).map Base.Product.product_id := by
  induction ps with
  | nil => intro ln t; rfl
  | cons p rest ih =>
    intro ln t
    obtain ⟨prod, q⟩ := p
    simp [JsonGen.mkLines, ih]

theorem JsonGen.json_mkLines_sale_id (sale_id : Nat) (ps : List (Base.Product × Nat)) :
    ∀ (ln : Nat) (t : Rat), ∀ l ∈ (JsonGen.mkLines sale_id ln t ps).1,
      l.sale_id = sale_id := by
  induction ps with
  | nil => intro ln t l hl; cases hl
  | cons p rest ih =>
    intro ln t l hl
    obtain ⟨prod, q⟩ := p
    simp only [JsonGen.mkLines, List.mem_cons] at hl
    rcases hl with rfl | hl
    · rfl
    · exact ih (ln + 1) (t + round2 (prod.price * (q : Rat))) l hl

theorem JsonGen.json_genSales_hdr_id (customers : List Base.Customer)
    (cs : List JsonGen.Choice) :
    ∀ (n : Nat), ∀ h ∈ (JsonGen.genSales customers n cs).1, n ≤ h.sale_id := by
  induction cs with
  | nil => intro n h hh; cases hh
  | cons c rest ih =>
    intro n h hh
    simp only [JsonGen.genSales, List.mem_cons] at hh
    rcases hh with rfl | hh
    · exact Nat.le_refl n
    · exact Nat.le_of_succ_le (ih (n + 1) h hh)

theorem JsonGen.json_genSales_line_id (customers : List Base.Customer)
    (cs : List JsonGen.Choice) :
    ∀ (n : Nat), ∀ l ∈ (JsonGen.genSales customers n cs).2, n ≤ l.sale_id := by
  induction cs with
  | nil => intro n l hl; cases hl
  | cons c rest ih =>
    intro n l hl
    simp only [JsonGen.genSales, List.mem_append] at hl
    rcases hl with hl | hl
    · exact Nat.le_of_eq (JsonGen.json_mkLines_sale_id n c.picks 1 0 l hl).symm
    · exact Nat.le_of_succ_le (ih (n + 1) l hl)

theorem JsonGen.json_genSales_sale_shape
    (stores : List Base.Store) (employees : List Base.Employee)
    (products : List Base.Product) (customers : List Base.Customer)
    (hprod : (products.map Base.Product.product_id).Nodup) :
    ∀ (choices : List JsonGen.Choice) (n : Nat),
      (∀ c ∈ choices, JsonGen.ChoiceOk stores employees products customers c) →
      ∀ hdr ∈ (JsonGen.genSales customers n choices).1,
        hdr.total_amount =
          round2 (((salesLinesOf (JsonGen.genSales customers n choices).2 hdr.sale_id).map
            Base.SaleLineRec.line_total).sum) ∧
        MIN_LINES ≤ (salesLinesOf (JsonGen.genSales customers n choices).2 hdr.sale_id).length ∧
        (salesLinesOf (JsonGen.genSales customers n choices).2 hdr.sale_id).length ≤ MAX_LINES ∧
        ((salesLinesOf (JsonGen.genSales customers n choices).2 hdr.sale_id).map
          Base.SaleLineRec.product_id).Nodup := by
  intro choices
  induction choices with
  | nil => intro n hv hdr hmem; cases hmem
  | cons c rest ih =>
    intro n hv hdr hmem
    have hok : JsonGen.ChoiceOk stores employees products customers c :=
      hv c (List.mem_cons_self c rest)
    obtain ⟨-, -, -, hmin, hmax, hsample, -⟩ := hok
    simp only [JsonGen.genSales, List.mem_cons] at hmem
    rcases hmem with rfl | hmem
    · -- the head sale, with sale_id = n
      have hfilter :
          salesLinesOf (JsonGen.genSales customers n (c :: rest)).2 n =
            (JsonGen.mkLines n 1 0 c.picks).1 := by
        show List.filter _ ((JsonGen.mkLines n 1 0 c.picks).1 ++
          (JsonGen.genSales customers (n + 1) rest).2) = _
        rw [List.filter_append]
        have h1 : List.filter (fun l => l.sale_id == n) (JsonGen.mkLines n 1 0 c.picks).1 =
            (JsonGen.mkLines n 1 0 c.picks).1 := by
          apply List.filter_eq_self.mpr
          intro l hl
          simp [JsonGen.json_mkLines_sale_id n c.picks 1 0 l hl]
        have h2 : List.filter (fun l => l.sale_id == n)
            (JsonGen.genSales customers (n + 1) rest).2 = [] := by
          apply List.filter_eq_nil_iff.mpr
          intro l hl
          have := JsonGen.json_genSales_line_id customers rest (n + 1) l hl
          simp only [beq_iff_eq]
          omega
        rw [h1, h2, List.append_nil]
      refine ⟨?_, ?_, ?_, ?_⟩
      · show round2 (JsonGen.mkLines n 1 0 c.picks).2 = _
        rw [hfilter, JsonGen.json_mkLines_total n c.picks 1 0, zero_add]
      · rw [hfilter, JsonGen.json_mkLines_length]
        exact hmin
      · rw [hfilter, JsonGen.json_mkLines_length]
        exact hmax
      · rw [hfilter, JsonGen.json_mkLines_product_id]
        exact sample_nodup_map Base.Product.product_id hsample hprod
    · -- a sale of the tail, with sale_id ≥ n + 1
      have hid : n + 1 ≤ hdr.sale_id := JsonGen.json_genSales_hdr_id customers rest (n + 1) hdr hmem
      have hfilter :
          salesLinesOf (JsonGen.genSales customers n (c :: rest)).2 hdr.sale_id =
            salesLinesOf (JsonGen.genSales customers (n + 1) rest).2 hdr.sale_id := by
        show List.filter _ ((JsonGen.mkLines n 1 0 c.picks).1 ++
          (JsonGen.genSales customers (n + 1) rest).2) = _
        rw [List.filter_append]
        have h1 : List.filter (fun l => l.sale_id == hdr.sale_id)
            (JsonGen.mkLines n 1 0 c.picks).1 = [] := by
          apply List.filter_eq_nil_iff.mpr
          intro l hl
          have := JsonGen.json_mkLines_sale_id n c.picks 1 0 l hl
          simp only [beq_iff_eq]
          omega
        rw [h1, List.nil_append]
        rfl
      rw [hfilter]
      exact ih (n + 1) (fun c' hc' => hv c' (List.mem_cons_of_mem c hc')) hdr hmem

theorem SqlGen.genSales_employee_of_store
    (stores : List Base.Store) (employees : List Base.Employee)
    (products : List Base.Product) (customers : List Base.Customer) :
    ∀ (choices : List SqlGen.Choice) (n : Nat),
      (∀ c ∈ choices, SqlGen.ChoiceOk stores employees products customers c) →
      ∀ hdr ∈ (SqlGen.genSales customers n choices).1,
        ∃ e ∈ employees, e.employee_id = hdr.employee_id ∧ e.store_id = hdr.store_id := by
  intro choices
  induction choices with
  | nil => intro n hv hdr hmem; cases hmem
  | cons c rest ih =>
    intro n hv hdr hmem
    simp only [SqlGen.genSales, List.mem_cons] at hmem
    rcases hmem with rfl | hmem
    · obtain ⟨-, hemp, -⟩ := hv c (List.mem_cons_self c rest)
      rw [List.mem_filter] at hemp
      exact ⟨c.emp, hemp.1, rfl, by simpa using hemp.2⟩
    · exact ih (n + 1) (fun c' hc' => hv c' (List.mem_cons_of_mem c hc')) hdr hmem

theorem JsonGen.json_genSales_employee_of_store
    (stores : List Base.Store) (employees : List Base.Employee)
    (products : List Base.Product) (customers : List Base.Customer) :
    ∀ (choices : List JsonGen.Choice) (n : Nat),
      (∀ c ∈ choices, JsonGen.ChoiceOk stores employees products customers c) →
      ∀ hdr ∈ (JsonGen.genSales customers n choices).1,
        ∃ e ∈ employees, e.employee_id = hdr.employee_id ∧ e.store_id = hdr.store_id := by
  intro choices
  induction choices with
  | nil => intro n hv hdr hmem; cases hmem
  | cons c rest ih =>
    intro n hv hdr hmem
    simp only [JsonGen.genSales, List.mem_cons] at hmem
    rcases hmem with rfl | hmem
    · obtain ⟨-, hemp, -⟩ := hv c (List.mem_cons_self c rest)
      rw [List.mem_filter] at hemp
      exact ⟨c.emp, hemp.1, rfl, by simpa using hemp.2⟩
    · exact ih (n + 1) (fun c' hc' => hv c' (List.mem_cons_of_mem c hc')) hdr hmem

/-- C8: in both generators, for every valid sequence of random draws, the
`employee_id` recorded on each generated sale belongs to an employee of the
base data whose `store_id` equals the sale's `store_id`. -/
theorem c8_sale_employee_belongs_to_sale_store :
    (∀ (stores : List Base.Store) (employees : List Base.Employee)
       (products : List Base.Product) (customers : List Base.Customer)
       (choices : List SqlGen.Choice),
       (∀ c ∈ choices, SqlGen.ChoiceOk stores employees products customers c) →
       ∀ hdr ∈ (SqlGen.generate customers choices).1,
         ∃ e ∈ employees, e.employee_id = hdr.employee_id ∧ e.store_id = hdr.store_id) ∧
    (∀ (stores : List Base.Store) (employees : List Base.Employee)
       (products : List Base.Product) (customers : List Base.Customer)
       (choices : List JsonGen.Choice),
       (∀ c ∈ choices, JsonGen.ChoiceOk stores employees products customers c) →
       ∀ hdr ∈ (JsonGen.generate customers choices).1,
         ∃ e ∈ employees, e.employee_id = hdr.employee_id ∧ e.store_id = hdr.store_id) := by
  constructor
  · intro stores employees products customers choices hv hdr hmem
    exact SqlGen.genSales_employee_of_store stores employees products customers
      choices 1 hv hdr hmem
  · intro stores employees products customers choices hv hdr hmem
    exact JsonGen.json_genSales_employee_of_store stores employees products customers
      choices 1 hv hdr hmem

/-- C9: in both generators, for every valid sequence of random draws over
base products with pairwise-distinct product ids (the generators assign
`product_id = i + 1`), every generated sale header's `total_amount` is
`round(·, 2)` of the sum of its own lines' `line_total` values, each
`line_total` being `round(unit_price * quantity, 2)` by construction, and
every sale has between `MIN_LINES` and `MAX_LINES` lines over pairwise
distinct products. -/
theorem c9_sale_total_and_line_bounds :
    (∀ (stores : List Base.Store) (employees : List Base.Employee)
       (products : List Base.Product) (customers : List Base.Customer)
       (choices : List SqlGen.Choice),
       (products.map Base.Product.product_id).Nodup →
       (∀ c ∈ choices, SqlGen.ChoiceOk stores employees products customers c) →
       ∀ hdr ∈ (SqlGen.generate customers choices).1,
         hdr.total_amount =
           round2 (((salesLinesOf (SqlGen.generate customers choices).2 hdr.sale_id).map
             Base.SaleLineRec.line_total).sum) ∧
         MIN_LINES ≤ (salesLinesOf (SqlGen.generate customers choices).2 hdr.sale_id).length ∧
         (salesLinesOf (SqlGen.generate customers choices).2 hdr.sale_id).length ≤ MAX_LINES ∧
         ((salesLinesOf (SqlGen.generate customers choices).2 hdr.sale_id).map
           Base.SaleLineRec.product_id).Nodup) ∧
    (∀ (stores : List Base.Store) (employees : List Base.Employee)
       (products : List Base.Product) (customers : List Base.Customer)
       (choices : List JsonGen.Choice),
       (products.map Base.Product.product_id).Nodup →
       (∀ c ∈ choices, JsonGen.ChoiceOk stores employees products customers c) →
       ∀ hdr ∈ (JsonGen.generate customers choices).1,
         hdr.total_amount =
           round2 (((salesLinesOf (JsonGen.generate customers choices).2 hdr.sale_id).map
             Base.SaleLineRec.line_total).sum) ∧
         MIN_LINES ≤ (salesLinesOf (JsonGen.generate customers choices).2 hdr.sale_id).length ∧
         (salesLinesOf (JsonGen.generate customers choices).2 hdr.sale_id).length ≤ MAX_LINES ∧
         ((salesLinesOf (JsonGen.generate customers choices).2 hdr.sale_id).map
           Base.SaleLineRec.product_id).Nodup) := by
  constructor
  · intro stores employees products customers choices hprod hv hdr hmem
    exact SqlGen.genSales_sale_shape stores employees products customers hprod
      choices 1 hv hdr hmem
  · intro stores employees products customers choices hprod hv hdr hmem
    exact JsonGen.json_genSales_sale_shape stores employees products customers hprod
      choices 1 hv hdr hmem

/-- Witness for C8 at a one-store, one-employee, one-product, one-customer,
one-sale instance of the sql generator's loop. -/
theorem c8_sale_employee_belongs_to_sale_store_witness :
    ∃ e ∈ [(⟨4, "F", "L", "P", 3⟩ : Base.Employee)],
      e.employee_id = (⟨1, "t", 7, 3, 4,
        round2 (SqlGen.mkLines 1 1 0 [(⟨9, "px", 10, 1⟩, 1)]).2⟩ : Base.SaleHdr).employee_id ∧
      e.store_id = (⟨1, "t", 7, 3, 4,
        round2 (SqlGen.mkLines 1 1 0 [(⟨9, "px", 10, 1⟩, 1)]).2⟩ : Base.SaleHdr).store_id :=
  c8_sale_employee_belongs_to_sale_store.1 [⟨3, "S", "A"⟩] [⟨4, "F", "L", "P", 3⟩]
    [⟨9, "px", 10, 1⟩] [⟨7, "a", "b", "e"⟩]
    [⟨"t", ⟨3, "S", "A"⟩, ⟨4, "F", "L", "P", 3⟩, 0, [(⟨9, "px", 10, 1⟩, 1)]⟩]
    (by
      intro c hc
      rw [List.mem_singleton] at hc
      subst hc
      exact ⟨by decide, by decide, by decide, by decide, by decide,
        ⟨[⟨0, by decide⟩], by decide, rfl⟩, by decide⟩)
    ⟨1, "t", 7, 3, 4, round2 (SqlGen.mkLines 1 1 0 [(⟨9, "px", 10, 1⟩, 1)]).2⟩
    (List.Mem.head _)

/-- Witness for C9 at the same concrete instance of the sql generator. -/
theorem c9_sale_total_and_line_bounds_witness :
    (⟨1, "t", 7, 3, 4,
        round2 (SqlGen.mkLines 1 1 0 [(⟨9, "px", 10, 1⟩, 1)]).2⟩ : Base.SaleHdr).total_amount =
      round2 (((salesLinesOf (SqlGen.generate [⟨7, "a", "b", "e"⟩]
        [⟨"t", ⟨3, "S", "A"⟩, ⟨4, "F", "L", "P", 3⟩, 0, [(⟨9, "px", 10, 1⟩, 1)]⟩]).2
        (⟨1, "t", 7, 3, 4,
          round2 (SqlGen.mkLines 1 1 0 [(⟨9, "px", 10, 1⟩, 1)]).2⟩ : Base.SaleHdr).sale_id).map
          Base.SaleLineRec.line_total).sum) :=
  (c9_sale_total_and_line_bounds.1 [⟨3, "S", "A"⟩] [⟨4, "F", "L", "P", 3⟩]
    [⟨9, "px", 10, 1⟩] [⟨7, "a", "b", "e"⟩]
    [⟨"t", ⟨3, "S", "A"⟩, ⟨4, "F", "L", "P", 3⟩, 0, [(⟨9, "px", 10, 1⟩, 1)]⟩]
    (by decide)
    (by
      intro c hc
      rw [List.mem_singleton] at hc
      subst hc
      exact ⟨by decide, by decide, by decide, by decide, by decide,
        ⟨[⟨0, by decide⟩], by decide, rfl⟩, by decide⟩)
    ⟨1, "t", 7, 3, 4, round2 (SqlGen.mkLines 1 1 0 [(⟨9, "px", 10, 1⟩, 1)]).2⟩
    (List.Mem.head _)).1

/-! ## Association-list dictionary lemmas -/

theorem mget_mset_self {K V : Type} [DecidableEq K] (m : List (K × V)) (k : K) (v : V) :
    mget (mset m k v) k = some v := by
  induction m with
  | nil => simp [mget, mset]
  | cons p t ih =>
    obtain ⟨a, b⟩ := p
    by_cases h : a = k
    · subst h
      simp [mget, mset]
    · simp [mget, mset, h, ih]

theorem mget_mset_ne {K V : Type} [DecidableEq K] (m : List (K × V)) (k k' : K) (v : V)
    (h : k' ≠ k) : mget (mset m k v) k' = mget m k' := by
  induction m with
  | nil => simp [mget, mset, Ne.symm h]
  | cons p t ih =>
    obtain ⟨a, b⟩ := p
    by_cases ha : a = k
    · subst ha
      simp [mget, mset, Ne.symm h]
    · simp only [mset, if_neg ha, mget]
      by_cases hak : a = k'
      · simp [hak]
      · simp [hak, ih]

theorem mget_eq_none_iff {K V : Type} [DecidableEq K] (m : List (K × V)) (k : K) :
    mget m k = none ↔ ∀ p ∈ m, p.1 ≠ k := by
  induction m with
  | nil => simp [mget]
  | cons p t ih =>
    obtain ⟨a, b⟩ := p
    by_cases h : a = k
    · simp [mget, h]
    · simp [mget, h, ih]

theorem mset_eq_append {K V : Type} [DecidableEq K] (m : List (K × V)) (k : K) (v : V)
    (h : mget m k = none) : mset m k v = m ++ [(k, v)] := by
  induction m with
  | nil => rfl
  | cons p t ih =>
    obtain ⟨a, b⟩ := p
    simp only [mget] at h
    by_cases ha : a = k
    · rw [if_pos ha] at h
      cases h
    · rw [if_neg ha] at h
      simp [mset, ha, ih h]

theorem mget_append_of_isSome {K V : Type} [DecidableEq K] (m1 m2 : List (K × V)) (k : K)
    (h : (mget m1 k).isSome) : mget (m1 ++ m2) k = mget m1 k := by
  induction m1 with
  | nil => simp [mget] at h
  | cons p t ih =>
    obtain ⟨a, b⟩ := p
    by_cases ha : a = k
    · simp [mget, ha]
    · simp only [mget, if_neg ha] at h ⊢
      exact ih h

theorem mget_append_of_none {K V : Type} [DecidableEq K] (m1 m2 : List (K × V)) (k : K)
    (h : mget m1 k = none) : mget (m1 ++ m2) k = mget m2 k := by
  induction m1 with
  | nil => rfl
  | cons p t ih =>
    obtain ⟨a, b⟩ := p
    simp only [mget] at h ⊢
    by_cases ha : a = k
    · rw [if_pos ha] at h; cases h
    · rw [if_neg ha] at h ⊢
      exact ih h

theorem mget_isSome_mset {K V : Type} [DecidableEq K] (m : List (K × V)) (k k' : K) (v : V) :
    (mget (mset m k v) k').isSome ↔ k' = k ∨ (mget m k').isSome := by
  by_cases h : k' = k
  · subst h
    simp [mget_mset_self]
  · rw [mget_mset_ne m k k' v h]
    simp [h]

/-! ## First-encounter id assignment -/

/-- The id-assignment dict for a list of fresh keys: ids `k, k+1, …`. -/
def idAssignFrom {α : Type} (k : Nat) : List α → List (α × Nat)
  | [] => []
  | x :: t => (x, k) :: idAssignFrom (k + 1) t

/-- Id assignment starting at 1, as the ingestion counters do. -/
def idAssign {α : Type} (l : List α) : List (α × Nat) := idAssignFrom 1 l

/-- First-occurrence deduplication, the key order of a Python dict populated
by guarded insertion. -/
def dedupFirst {α : Type} [DecidableEq α] (l : List α) : List α :=
  l.foldl (fun acc x => if x ∈ acc then acc else acc ++ [x]) []

theorem idAssignFrom_append {α : Type} (l l' : List α) :
    ∀ (k : Nat), idAssignFrom k (l ++ l') =
      idAssignFrom k l ++ idAssignFrom (k + l.length) l' := by
  induction l with
  | nil => intro k; simp [idAssignFrom]
  | cons x t ih =>
    intro k
    have harith : k + 1 + t.length = k + (t.length + 1) := by omega
    show (x, k) :: idAssignFrom (k + 1) (t ++ l') =
      (x, k) :: (idAssignFrom (k + 1) t ++ idAssignFrom (k + (t.length + 1)) l')
    rw [ih (k + 1), harith]

theorem length_idAssignFrom {α : Type} (l : List α) :
    ∀ (k : Nat), (idAssignFrom k l).length = l.length := by
  induction l with
  | nil => intro k; rfl
  | cons x t ih => intro k; simp [idAssignFrom, ih]

theorem mget_idAssignFrom_of_not_mem {α : Type} [DecidableEq α] (l : List α) (x : α)
    (h : x ∉ l) : ∀ (k : Nat), mget (idAssignFrom k l) x = none := by
  induction l with
  | nil => intro k; rfl
  | cons y t ih =>
    intro k
    simp only [List.mem_cons, not_or] at h
    simp only [idAssignFrom, mget, if_neg (fun hy : y = x => h.1 hy.symm)]
    exact ih h.2 (k + 1)

theorem mget_idAssignFrom_isSome {α : Type} [DecidableEq α] (l : List α) (x : α)
    (h : x ∈ l) : ∀ (k : Nat), (mget (idAssignFrom k l) x).isSome := by
  induction l with
  | nil => cases h
  | cons y t ih =>
    intro k
    simp only [idAssignFrom, mget]
    by_cases hy : y = x
    · simp [hy]
    · have : x ∈ t := by
        rcases List.mem_cons.mp h with h1 | h1
        · exact absurd h1.symm hy
        · exact h1
      simp only [if_neg hy]
      exact ih this (k + 1)

theorem mem_foldl_dedup {α : Type} [DecidableEq α] (l : List α) :
    ∀ (acc : List α) (x : α),
      x ∈ l.foldl (fun acc x => if x ∈ acc then acc else acc ++ [x]) acc ↔
        x ∈ acc ∨ x ∈ l := by
  induction l with
  | nil => intro acc x; simp
  | cons y t ih =>
    intro acc x
    simp only [List.foldl_cons]
    by_cases hy : y ∈ acc
    · rw [if_pos hy, ih]
      constructor
      · rintro (h | h)
        · exact Or.inl h
        · exact Or.inr (List.mem_cons_of_mem y h)
      · rintro (h | h)
        · exact Or.inl h
        · rcases List.mem_cons.mp h with rfl | h
          · exact Or.inl hy
          · exact Or.inr h
    · rw [if_neg hy, ih]
      simp only [List.mem_append, List.mem_singleton, List.mem_cons]
      tauto

theorem mem_dedupFirst {α : Type} [DecidableEq α] (l : List α) (x : α) :
    x ∈ dedupFirst l ↔ x ∈ l := by
  unfold dedupFirst
  rw [mem_foldl_dedup]
  simp

theorem dedupFirst_append_singleton {α : Type} [DecidableEq α] (l : List α) (x : α) :
    dedupFirst (l ++ [x]) =
      if x ∈ dedupFirst l then dedupFirst l else dedupFirst l ++ [x] := by
  unfold dedupFirst
  rw [List.foldl_append]
  rfl

theorem foldl_dedup_acc_prefix {α : Type} [DecidableEq α] (t : List α) :
    ∀ (acc : List α), ∃ r,
      t.foldl (fun acc x => if x ∈ acc then acc else acc ++ [x]) acc = acc ++ r := by
  induction t with
  | nil => intro acc; exact ⟨[], by simp⟩
  | cons y yt ih =>
    intro acc
    simp only [List.foldl_cons]
    by_cases hy : y ∈ acc
    · rw [if_pos hy]
      exact ih acc
    · rw [if_neg hy]
      obtain ⟨r, hr⟩ := ih (acc ++ [y])
      exact ⟨[y] ++ r, by simpa [List.append_assoc] using hr⟩

theorem dedupFirst_append_prefix {α : Type} [DecidableEq α] (l t : List α) :
    ∃ r, dedupFirst (l ++ t) = dedupFirst l ++ r := by
  unfold dedupFirst
  rw [List.foldl_append]
  exact foldl_dedup_acc_prefix t _

/-- The id a key receives (0 when absent). -/
def posIn {α : Type} [DecidableEq α] (l : List α) (x : α) : Nat :=
  (mget (idAssign l) x).getD 0

theorem mget_idAssign_append_left {α : Type} [DecidableEq α] (l r : List α) (x : α)
    (h : x ∈ l) : mget (idAssign (l ++ r)) x = mget (idAssign l) x := by
  unfold idAssign
  rw [idAssignFrom_append]
  exact mget_append_of_isSome _ _ _ (mget_idAssignFrom_isSome l x h 1)

theorem posIn_dedupFirst_append {α : Type} [DecidableEq α] (l t : List α) (x : α)
    (h : x ∈ l) : posIn (dedupFirst (l ++ t)) x = posIn (dedupFirst l) x := by
  obtain ⟨r, hr⟩ := dedupFirst_append_prefix l t
  unfold posIn
  rw [hr, mget_idAssign_append_left _ _ _ ((mem_dedupFirst l x).mpr h)]

/-! ## Step characterizations of the ingestion helpers -/

theorem ensureCat_of_mem (st : IngestSt) (c : String)
    (h : (mget st.category_map c).isSome) : ensureCat st c = st := by
  unfold ensureCat
  rw [if_pos h]

theorem ensureCat_of_new (st : IngestSt) (c : String)
    (h : mget st.category_map c = none) :
    ensureCat st c = { st with
      category_map := mset st.category_map c st.next_cat,
      next_cat := st.next_cat + 1,
      db := { st.db with
        category := st.db.category ++ [[Value.n st.next_cat, Value.s c]],
        events := st.db.events ++ [Ev.copy "category"] } } := by
  unfold ensureCat
  rw [if_neg (by simp [h])]
  rfl

theorem ensureProd_of_mem (st : IngestSt) (p : ProdDoc)
    (h : (mget st.product_map p.name).isSome) : ensureProd st p = some st := by
  unfold ensureProd
  rw [if_pos h]

theorem ensureProd_of_new (st : IngestSt) (p : ProdDoc) (cat_id : Nat)
    (h : mget st.product_map p.name = none)
    (hc : mget st.category_map p.category = some cat_id) :
    ensureProd st p = some { st with
      product_map := mset st.product_map p.name st.next_prod,
      next_prod := st.next_prod + 1,
      db := { st.db with
        product := st.db.product ++
          [[Value.n st.next_prod, Value.s p.name, Value.q p.price, Value.n cat_id]],
        events := st.db.events ++ [Ev.copy "product"] } } := by
  unfold ensureProd
  rw [if_neg (by simp [h]), hc]
  rfl

theorem ensureCust_of_mem (st : IngestSt) (c : CustDoc)
    (h : (mget st.customers_map c.email).isSome) : ensureCust st c = st := by
  unfold ensureCust
  rw [if_pos h]

theorem ensureCust_of_new (st : IngestSt) (c : CustDoc)
    (h : mget st.customers_map c.email = none) :
    ensureCust st c = { st with
      customers_map := mset st.customers_map c.email st.next_cust,
      next_cust := st.next_cust + 1,
      db := { st.db with
        customer := st.db.customer ++
          [[Value.n st.next_cust, Value.s c.first_name, Value.s c.last_name,
            Value.s c.email]],
        events := st.db.events ++ [Ev.copy "customer"] } } := by
  unfold ensureCust
  rw [if_neg (by simp [h])]
  rfl

theorem ingestEmp_eq (s_id : Nat) (st : IngestSt) (e : EmpDoc) :
    ingestEmp s_id st e = { st with
      next_emp := st.next_emp + 1,
      employee_map := mset st.employee_map (e.first_name, e.last_name, s_id) st.next_emp,
      db := { st.db with
        employee := st.db.employee ++
          [[Value.n st.next_emp, Value.s e.first_name, Value.s e.last_name,
            Value.s e.position, Value.n s_id]],
        events := st.db.events ++ [Ev.copy "employee"] } } := rfl

/-! ## The catalog dedup state: category and product maps, counters and rows
as functions of the sequence of inventory products processed so far -/

/-- Category names in first-encounter order. -/
def catsOf (ps : List ProdDoc) : List String := dedupFirst (ps.map ProdDoc.category)

/-- Product names in first-encounter order. -/
def namesOf (ps : List ProdDoc) : List String := dedupFirst (ps.map ProdDoc.name)

/-- The first processed inventory product with a given name. -/
def firstWith (ps : List ProdDoc) (nm : String) : Option ProdDoc :=
  ps.find? (fun p => p.name == nm)

/-- The price written in the product row of `nm` (of its first occurrence). -/
def priceOf (ps : List ProdDoc) (nm : String) : Rat :=
  ((firstWith ps nm).map ProdDoc.price).getD 0

/-- The category name of the first occurrence of product `nm`. -/
def catOf (ps : List ProdDoc) (nm : String) : String :=
  ((firstWith ps nm).map ProdDoc.category).getD ""

/-- The category rows for names assigned ids `k, k+1, …`. -/
def catRowsFrom (k : Nat) : List String → List Row
  | [] => []
  | c :: t => [Value.n k, Value.s c] :: catRowsFrom (k + 1) t

/-- The product rows for names assigned ids `k, k+1, …`. -/
def prodRowsFrom (ps : List ProdDoc) (k : Nat) : List String → List Row
  | [] => []
  | nm :: t =>
    [Value.n k, Value.s nm, Value.q (priceOf ps nm),
      Value.n (posIn (catsOf ps) (catOf ps nm))] :: prodRowsFrom ps (k + 1) t

/-- The invariant of the category/product side of the catalog ingestion after
the inventory products `ps` have been processed. -/
structure CatInv (ps : List ProdDoc) (st : IngestSt) : Prop where
  cmap : st.category_map = idAssign (catsOf ps)
  ncat : st.next_cat = (catsOf ps).length + 1
  crows : st.db.category = catRowsFrom 1 (catsOf ps)
  pmap : st.product_map = idAssign (namesOf ps)
  nprod : st.next_prod = (namesOf ps).length + 1
  prows : st.db.product = prodRowsFrom ps 1 (namesOf ps)

theorem mget_idAssign_isSome_iff {α : Type} [DecidableEq α] (l : List α) (x : α) :
    (mget (idAssign l) x).isSome ↔ x ∈ l := by
  constructor
  · intro h
    by_contra hx
    rw [show idAssign l = idAssignFrom 1 l from rfl,
      mget_idAssignFrom_of_not_mem l x hx 1] at h
    cases h
  · intro h
    exact mget_idAssignFrom_isSome l x h 1

theorem posIn_eq_of_mget {α : Type} [DecidableEq α] {l : List α} {x : α} {v : Nat}
    (h : mget (idAssign l) x = some v) : posIn l x = v := by
  unfold posIn
  rw [h]
  rfl

theorem catRowsFrom_append (l : List String) (c : String) :
    ∀ (k : Nat), catRowsFrom k (l ++ [c]) =
      catRowsFrom k l ++ [[Value.n (k + l.length), Value.s c]] := by
  induction l with
  | nil => intro k; simp [catRowsFrom]
  | cons x t ih =>
    intro k
    have : k + (t.length + 1) = k + 1 + t.length := by omega
    simp [catRowsFrom, ih (k + 1), this]

theorem prodRowsFrom_append (ps : List ProdDoc) (l : List String) (nm : String) :
    ∀ (k : Nat), prodRowsFrom ps k (l ++ [nm]) =
      prodRowsFrom ps k l ++
        [[Value.n (k + l.length), Value.s nm, Value.q (priceOf ps nm),
          Value.n (posIn (catsOf ps) (catOf ps nm))]] := by
  induction l with
  | nil => intro k; simp [prodRowsFrom]
  | cons x t ih =>
    intro k
    have : k + (t.length + 1) = k + 1 + t.length := by omega
    simp [prodRowsFrom, ih (k + 1), this]

theorem prodRowsFrom_congr (ps ps' : List ProdDoc) (names : List String)
    (hp : ∀ nm ∈ names, priceOf ps' nm = priceOf ps nm)
    (hc : ∀ nm ∈ names, posIn (catsOf ps') (catOf ps' nm) = posIn (catsOf ps) (catOf ps nm)) :
    ∀ (k : Nat), prodRowsFrom ps' k names = prodRowsFrom ps k names := by
  induction names with
  | nil => intro k; rfl
  | cons nm t ih =>
    intro k
    simp only [prodRowsFrom]
    rw [hp nm (List.mem_cons_self nm t), hc nm (List.mem_cons_self nm t),
      ih (fun x hx => hp x (List.mem_cons_of_mem nm hx))
        (fun x hx => hc x (List.mem_cons_of_mem nm hx)) (k + 1)]

theorem firstWith_isSome_iff (ps : List ProdDoc) (nm : String) :
    (firstWith ps nm).isSome ↔ nm ∈ ps.map ProdDoc.name := by
  unfold firstWith
  rw [List.find?_isSome]
  constructor
  · rintro ⟨x, hx, hpx⟩
    exact List.mem_map.mpr ⟨x, hx, by simpa using hpx⟩
  · rintro h
    obtain ⟨x, hx, hnm⟩ := List.mem_map.mp h
    exact ⟨x, hx, by simp [hnm]⟩

theorem firstWith_append_left {ps : List ProdDoc} {nm : String} (t : List ProdDoc)
    (h : (firstWith ps nm).isSome) : firstWith (ps ++ t) nm = firstWith ps nm := by
  unfold firstWith at h ⊢
  rw [List.find?_append]
  cases hfw : ps.find? (fun p => p.name == nm) with
  | none => rw [hfw] at h; cases h
  | some a => simp

theorem firstWith_append_right {ps : List ProdDoc} {nm : String} (t : List ProdDoc)
    (h : nm ∉ ps.map ProdDoc.name) : firstWith (ps ++ t) nm = firstWith t nm := by
  unfold firstWith
  rw [List.find?_append]
  have : ps.find? (fun p => p.name == nm) = none := by
    rw [List.find?_eq_none]
    intro x hx
    simp only [beq_iff_eq]
    intro hnm
    exact h (List.mem_map.mpr ⟨x, hx, hnm⟩)
  rw [this]
  simp

theorem priceOf_stable {ps : List ProdDoc} {nm : String} (t : List ProdDoc)
    (h : nm ∈ ps.map ProdDoc.name) : priceOf (ps ++ t) nm = priceOf ps nm := by
  unfold priceOf
  rw [firstWith_append_left t ((firstWith_isSome_iff ps nm).mpr h)]

theorem catOf_stable {ps : List ProdDoc} {nm : String} (t : List ProdDoc)
    (h : nm ∈ ps.map ProdDoc.name) : catOf (ps ++ t) nm = catOf ps nm := by
  unfold catOf
  rw [firstWith_append_left t ((firstWith_isSome_iff ps nm).mpr h)]

theorem firstWith_singleton_self (p : ProdDoc) : firstWith [p] p.name = some p := by
  unfold firstWith
  simp

theorem priceOf_new {ps : List ProdDoc} {p : ProdDoc}
    (h : p.name ∉ ps.map ProdDoc.name) : priceOf (ps ++ [p]) p.name = p.price := by
  unfold priceOf
  rw [firstWith_append_right [p] h, firstWith_singleton_self]
  rfl

theorem catOf_new {ps : List ProdDoc} {p : ProdDoc}
    (h : p.name ∉ ps.map ProdDoc.name) : catOf (ps ++ [p]) p.name = p.category := by
  unfold catOf
  rw [firstWith_append_right [p] h, firstWith_singleton_self]
  rfl

theorem catsOf_append (ps t : List ProdDoc) :
    catsOf (ps ++ t) = dedupFirst (ps.map ProdDoc.category ++ t.map ProdDoc.category) := by
  unfold catsOf
  rw [List.map_append]

theorem namesOf_append (ps t : List ProdDoc) :
    namesOf (ps ++ t) = dedupFirst (ps.map ProdDoc.name ++ t.map ProdDoc.name) := by
  unfold namesOf
  rw [List.map_append]

theorem catsOf_append_one (ps : List ProdDoc) (p : ProdDoc) :
    catsOf (ps ++ [p]) =
      if p.category ∈ catsOf ps then catsOf ps else catsOf ps ++ [p.category] := by
  rw [catsOf_append]
  exact dedupFirst_append_singleton _ _

theorem namesOf_append_one (ps : List ProdDoc) (p : ProdDoc) :
    namesOf (ps ++ [p]) =
      if p.name ∈ namesOf ps then namesOf ps else namesOf ps ++ [p.name] := by
  rw [namesOf_append]
  exact dedupFirst_append_singleton _ _

theorem mem_catsOf (ps : List ProdDoc) (c : String) :
    c ∈ catsOf ps ↔ c ∈ ps.map ProdDoc.category := mem_dedupFirst _ _

theorem mem_namesOf (ps : List ProdDoc) (nm : String) :
    nm ∈ namesOf ps ↔ nm ∈ ps.map ProdDoc.name := mem_dedupFirst _ _

theorem posIn_catsOf_stable {ps : List ProdDoc} {x : String} (t : List ProdDoc)
    (h : x ∈ ps.map ProdDoc.category) :
    posIn (catsOf (ps ++ t)) x = posIn (catsOf ps) x := by
  rw [catsOf_append]
  exact posIn_dedupFirst_append _ _ _ h

theorem posIn_namesOf_stable {ps : List ProdDoc} {x : String} (t : List ProdDoc)
    (h : x ∈ ps.map ProdDoc.name) :
    posIn (namesOf (ps ++ t)) x = posIn (namesOf ps) x := by
  rw [namesOf_append]
  exact posIn_dedupFirst_append _ _ _ h

theorem firstWith_spec {ps : List ProdDoc} {nm : String} {pd : ProdDoc}
    (h : firstWith ps nm = some pd) : pd ∈ ps ∧ pd.name = nm := by
  unfold firstWith at h
  exact ⟨List.mem_of_find?_eq_some h, by simpa using List.find?_some h⟩

theorem catOf_mem {ps : List ProdDoc} {nm : String} (h : nm ∈ ps.map ProdDoc.name) :
    catOf ps nm ∈ ps.map ProdDoc.category := by
  have hs := (firstWith_isSome_iff ps nm).mpr h
  obtain ⟨pd, hpd⟩ := Option.isSome_iff_exists.mp hs
  obtain ⟨hmem, -⟩ := firstWith_spec hpd
  unfold catOf
  rw [hpd]
  exact List.mem_map.mpr ⟨pd, hmem, rfl⟩

theorem prodRowsFrom_extend (ps : List ProdDoc) (p : ProdDoc) (k : Nat) :
    prodRowsFrom (ps ++ [p]) k (namesOf ps) = prodRowsFrom ps k (namesOf ps) :=
  prodRowsFrom_congr _ _ _
    (fun nm hnm => priceOf_stable [p] ((mem_namesOf ps nm).mp hnm))
    (fun nm hnm => by
      rw [catOf_stable [p] ((mem_namesOf ps nm).mp hnm)]
      exact posIn_catsOf_stable [p] (catOf_mem ((mem_namesOf ps nm).mp hnm))) k

theorem ensureCat_catStep (st : IngestSt) (ps : List ProdDoc) (p : ProdDoc)
    (hcm : st.category_map = idAssign (catsOf ps))
    (hnc : st.next_cat = (catsOf ps).length + 1)
    (hcr : st.db.category = catRowsFrom 1 (catsOf ps)) :
    (ensureCat st p.category).category_map = idAssign (catsOf (ps ++ [p])) ∧
    (ensureCat st p.category).next_cat = (catsOf (ps ++ [p])).length + 1 ∧
    (ensureCat st p.category).db.category = catRowsFrom 1 (catsOf (ps ++ [p])) ∧
    (ensureCat st p.category).product_map = st.product_map ∧
    (ensureCat st p.category).next_prod = st.next_prod ∧
    (ensureCat st p.category).db.product = st.db.product ∧
    (ensureCat st p.category).db.inventory = st.db.inventory ∧
    (ensureCat st p.category).store_map = st.store_map ∧
    (ensureCat st p.category).employee_map = st.employee_map ∧
    (ensureCat st p.category).next_emp = st.next_emp ∧
    (ensureCat st p.category).customers_map = st.customers_map ∧
    (ensureCat st p.category).next_cust = st.next_cust ∧
    (ensureCat st p.category).next_sale = st.next_sale ∧
    (ensureCat st p.category).db.store = st.db.store ∧
    (ensureCat st p.category).db.employee = st.db.employee ∧
    (ensureCat st p.category).db.customer = st.db.customer ∧
    (ensureCat st p.category).db.sale = st.db.sale ∧
    (ensureCat st p.category).db.saleline = st.db.saleline := by
  by_cases hc : p.category ∈ catsOf ps
  · rw [ensureCat_of_mem st _ (by rw [hcm]; exact (mget_idAssign_isSome_iff _ _).mpr hc),
      catsOf_append_one, if_pos hc]
    exact ⟨hcm, hnc, hcr, rfl, rfl, rfl, rfl, rfl, rfl, rfl, rfl, rfl, rfl, rfl, rfl,
      rfl, rfl, rfl⟩
  · have hnone : mget st.category_map p.category = none := by
      rw [hcm]
      exact mget_idAssignFrom_of_not_mem _ _ hc 1
    rw [ensureCat_of_new st _ hnone, catsOf_append_one, if_neg hc]
    refine ⟨?_, ?_, ?_, rfl, rfl, rfl, rfl, rfl, rfl, rfl, rfl, rfl, rfl, rfl, rfl,
      rfl, rfl, rfl⟩
    · show mset st.category_map p.category st.next_cat = _
      rw [hcm, hnc, mset_eq_append _ _ _ (by rw [hcm] at hnone; exact hnone)]
      show idAssignFrom 1 (catsOf ps) ++ [(p.category, (catsOf ps).length + 1)] = _
      rw [show idAssign (catsOf ps ++ [p.category]) =
        idAssignFrom 1 (catsOf ps) ++ idAssignFrom (1 + (catsOf ps).length) [p.category]
        from idAssignFrom_append _ _ 1]
      rw [Nat.add_comm 1 (catsOf ps).length]
      rfl
    · show st.next_cat + 1 = _
      rw [hnc]
      simp
    · show st.db.category ++ [[Value.n st.next_cat, Value.s p.category]] = _
      rw [hcr, hnc, catRowsFrom_append, Nat.add_comm 1 (catsOf ps).length]

theorem ensureProd_prodStep (st1 : IngestSt) (ps : List ProdDoc) (p : ProdDoc)
    (hm1 : st1.category_map = idAssign (catsOf (ps ++ [p])))
    (hpm1 : st1.product_map = idAssign (namesOf ps))
    (hnp1 : st1.next_prod = (namesOf ps).length + 1)
    (hpr1 : st1.db.product = prodRowsFrom ps 1 (namesOf ps)) :
    ∃ st2, ensureProd st1 p = some st2 ∧
      st2.product_map = idAssign (namesOf (ps ++ [p])) ∧
      st2.next_prod = (namesOf (ps ++ [p])).length + 1 ∧
      st2.db.product = prodRowsFrom (ps ++ [p]) 1 (namesOf (ps ++ [p])) ∧
      st2.category_map = st1.category_map ∧ st2.next_cat = st1.next_cat ∧
      st2.db.category = st1.db.category ∧ st2.db.inventory = st1.db.inventory ∧
      st2.store_map = st1.store_map ∧ st2.employee_map = st1.employee_map ∧
      st2.next_emp = st1.next_emp ∧ st2.customers_map = st1.customers_map ∧
      st2.next_cust = st1.next_cust ∧ st2.next_sale = st1.next_sale ∧
      st2.db.store = st1.db.store ∧ st2.db.employee = st1.db.employee ∧
      st2.db.customer = st1.db.customer ∧ st2.db.sale = st1.db.sale ∧
      st2.db.saleline = st1.db.saleline := by
  by_cases hn : p.name ∈ namesOf ps
  · refine ⟨st1, ensureProd_of_mem st1 p
      (by rw [hpm1]; exact (mget_idAssign_isSome_iff _ _).mpr hn), ?_⟩
    rw [namesOf_append_one, if_pos hn]
    refine ⟨hpm1, hnp1, ?_, rfl, rfl, rfl, rfl, rfl, rfl, rfl, rfl, rfl, rfl, rfl,
      rfl, rfl, rfl, rfl⟩
    rw [hpr1, prodRowsFrom_extend]
  · have hnone : mget st1.product_map p.name = none := by
      rw [hpm1]
      exact mget_idAssignFrom_of_not_mem _ _ hn 1
    have hcmem : p.category ∈ catsOf (ps ++ [p]) := by
      rw [mem_catsOf, List.map_append]
      simp
    have hcid : ∃ cat_id, mget st1.category_map p.category = some cat_id := by
      rw [hm1]
      exact Option.isSome_iff_exists.mp ((mget_idAssign_isSome_iff _ _).mpr hcmem)
    obtain ⟨cat_id, hcat⟩ := hcid
    refine ⟨_, ensureProd_of_new st1 p cat_id hnone hcat, ?_⟩
    have hnmap : p.name ∉ ps.map ProdDoc.name := fun hx => hn ((mem_namesOf ps p.name).mpr hx)
    rw [namesOf_append_one, if_neg hn]
    refine ⟨?_, ?_, ?_, rfl, rfl, rfl, rfl, rfl, rfl, rfl, rfl, rfl, rfl, rfl, rfl,
      rfl, rfl, rfl⟩
    · show mset st1.product_map p.name st1.next_prod = _
      rw [hpm1, hnp1, mset_eq_append _ _ _ (by rw [hpm1] at hnone; exact hnone)]
      show idAssignFrom 1 (namesOf ps) ++ [(p.name, (namesOf ps).length + 1)] = _
      rw [show idAssign (namesOf ps ++ [p.name]) =
        idAssignFrom 1 (namesOf ps) ++ idAssignFrom (1 + (namesOf ps).length) [p.name]
        from idAssignFrom_append _ _ 1]
      rw [Nat.add_comm 1 (namesOf ps).length]
      rfl
    · show st1.next_prod + 1 = _
      rw [hnp1]
      simp
    · show st1.db.product ++
        [[Value.n st1.next_prod, Value.s p.name, Value.q p.price, Value.n cat_id]] = _
      rw [hpr1, hnp1, prodRowsFrom_append, Nat.add_comm 1 (namesOf ps).length,
        prodRowsFrom_extend, priceOf_new hnmap, catOf_new hnmap]
      have : posIn (catsOf (ps ++ [p])) p.category = cat_id :=
        posIn_eq_of_mget (by rw [← hm1]; exact hcat)
      rw [this]

theorem ingestInv_catInv (s_id : Nat) (ps : List ProdDoc) (st : IngestSt) (inv : InvDoc)
    (h : CatInv ps st) :
    ∃ st', ingestInv s_id st inv = some st' ∧ CatInv (ps ++ [inv.product]) st' ∧
      st'.db.inventory = st.db.inventory ++
        [[Value.n s_id, Value.n (posIn (namesOf (ps ++ [inv.product])) inv.product.name),
          Value.n inv.quantity]] ∧
      st'.store_map = st.store_map ∧ st'.employee_map = st.employee_map ∧
      st'.next_emp = st.next_emp ∧ st'.customers_map = st.customers_map ∧
      st'.next_cust = st.next_cust ∧ st'.next_sale = st.next_sale ∧
      st'.db.store = st.db.store ∧ st'.db.employee = st.db.employee ∧
      st'.db.customer = st.db.customer ∧ st'.db.sale = st.db.sale ∧
      st'.db.saleline = st.db.saleline := by
  obtain ⟨hcm, hnc, hcr, hpm, hnp, hpr⟩ := h
  obtain ⟨h1cm, h1nc, h1cr, h1pm, h1np, h1pr, h1inv, h1sm, h1em, h1ne, h1cust, h1ncu,
    h1ns, h1dbs, h1dbe, h1dbc, h1dbsale, h1dbsl⟩ :=
    ensureCat_catStep st ps inv.product hcm hnc hcr
  obtain ⟨st2, hst2, h2pm, h2np, h2pr, h2cm, h2nc, h2cr, h2inv, h2sm, h2em, h2ne,
    h2cust, h2ncu, h2ns, h2dbs, h2dbe, h2dbc, h2dbsale, h2dbsl⟩ :=
    ensureProd_prodStep (ensureCat st inv.product.category) ps inv.product
      h1cm (h1pm.trans hpm) (h1np.trans hnp) (h1pr.trans hpr)
  have hnmem : inv.product.name ∈ namesOf (ps ++ [inv.product]) := by
    rw [mem_namesOf, List.map_append]
    simp
  have hsome : (mget st2.product_map inv.product.name).isSome := by
    rw [h2pm]
    exact (mget_idAssign_isSome_iff _ _).mpr hnmem
  obtain ⟨pid2, hpid⟩ := Option.isSome_iff_exists.mp hsome
  have hpidval : pid2 = posIn (namesOf (ps ++ [inv.product])) inv.product.name := by
    symm
    apply posIn_eq_of_mget
    rw [← h2pm]
    exact hpid
  refine ⟨{ st2 with db := { st2.db with
      inventory := st2.db.inventory ++ [[Value.n s_id, Value.n pid2, Value.n inv.quantity]],
      events := st2.db.events ++ [Ev.copy "inventory"] } }, ?_, ?_, ?_, ?_, ?_, ?_, ?_, ?_,
      ?_, ?_, ?_, ?_, ?_, ?_⟩
  · unfold ingestInv ingestInvProd
    simp only [hst2, hpid]
    rfl
  · exact ⟨h2cm.trans h1cm, h2nc.trans h1nc, h2cr.trans h1cr, h2pm, h2np, h2pr⟩
  · show st2.db.inventory ++ _ = _
    rw [h2inv, h1inv, hpidval]
  · exact h2sm.trans h1sm
  · exact h2em.trans h1em
  · exact h2ne.trans h1ne
  · exact h2cust.trans h1cust
  · exact h2ncu.trans h1ncu
  · exact h2ns.trans h1ns
  · exact h2dbs.trans h1dbs
  · exact h2dbe.trans h1dbe
  · exact h2dbc.trans h1dbc
  · exact h2dbsale.trans h1dbsale
  · exact h2dbsl.trans h1dbsl

theorem ingestInvs_catInv (s_id : Nat) (invs : List InvDoc) :
    ∀ (ps : List ProdDoc) (st : IngestSt), CatInv ps st →
    ∃ st', ingestInvs s_id st invs = some st' ∧
      CatInv (ps ++ invs.map InvDoc.product) st' ∧
      st'.db.inventory = st.db.inventory ++
        invs.map (fun v => [Value.n s_id,
          Value.n (posIn (namesOf (ps ++ invs.map InvDoc.product)) v.product.name),
          Value.n v.quantity]) ∧
      st'.store_map = st.store_map ∧ st'.employee_map = st.employee_map ∧
      st'.next_emp = st.next_emp ∧ st'.customers_map = st.customers_map ∧
      st'.next_cust = st.next_cust ∧ st'.next_sale = st.next_sale ∧
      st'.db.store = st.db.store ∧ st'.db.employee = st.db.employee ∧
      st'.db.customer = st.db.customer ∧ st'.db.sale = st.db.sale ∧
      st'.db.saleline = st.db.saleline := by
  induction invs with
  | nil =>
    intro ps st h
    refine ⟨st, rfl, by simpa using h, by simp, rfl, rfl, rfl, rfl, rfl, rfl, rfl,
      rfl, rfl, rfl, rfl⟩
  | cons x rest ih =>
    intro ps st h
    obtain ⟨st1, hrun1, hinv1, hrow1, f1sm, f1em, f1ne, f1cust, f1ncu, f1ns, f1dbs,
      f1dbe, f1dbc, f1dbsale, f1dbsl⟩ := ingestInv_catInv s_id ps st x h
    obtain ⟨st', hrun2, hinv2, hrow2, f2sm, f2em, f2ne, f2cust, f2ncu, f2ns, f2dbs,
      f2dbe, f2dbc, f2dbsale, f2dbsl⟩ := ih (ps ++ [x.product]) st1 hinv1
    have hassoc : (ps ++ [x.product]) ++ rest.map InvDoc.product =
        ps ++ (x :: rest).map InvDoc.product := by
      simp
    refine ⟨st', ?_, ?_, ?_, f2sm.trans f1sm, f2em.trans f1em, f2ne.trans f1ne,
      f2cust.trans f1cust, f2ncu.trans f1ncu, f2ns.trans f1ns, f2dbs.trans f1dbs,
      f2dbe.trans f1dbe, f2dbc.trans f1dbc, f2dbsale.trans f1dbsale,
      f2dbsl.trans f1dbsl⟩
    · show ingestInvs s_id st (x :: rest) = some st'
      unfold ingestInvs
      rw [hrun1]
      exact hrun2
    · rw [← hassoc]
      exact hinv2
    · rw [hrow2, hrow1, List.append_assoc]
      congr 1
      have hname : x.product.name ∈ (ps ++ [x.product]).map ProdDoc.name := by
        rw [List.map_append]
        simp
      have hstab := posIn_namesOf_stable (rest.map InvDoc.product) hname
      have hassoc2 : ps ++ [x.product] ++ rest.map InvDoc.product =
          ps ++ x.product :: rest.map InvDoc.product := by simp
      simp only [← hassoc2, List.map_cons, List.singleton_append]
      rw [hstab]

/-- All inventory products of a catalog, in processing order. -/
def flatProds : List StoreDoc → List ProdDoc
  | [] => []
  | d :: t => d.inventory.map InvDoc.product ++ flatProds t

theorem ingestEmps_frames (s_id : Nat) (es : List EmpDoc) : ∀ (st : IngestSt),
    (ingestEmps s_id st es).category_map = st.category_map ∧
    (ingestEmps s_id st es).next_cat = st.next_cat ∧
    (ingestEmps s_id st es).product_map = st.product_map ∧
    (ingestEmps s_id st es).next_prod = st.next_prod ∧
    (ingestEmps s_id st es).store_map = st.store_map ∧
    (ingestEmps s_id st es).customers_map = st.customers_map ∧
    (ingestEmps s_id st es).next_cust = st.next_cust ∧
    (ingestEmps s_id st es).next_sale = st.next_sale ∧
    (ingestEmps s_id st es).db.store = st.db.store ∧
    (ingestEmps s_id st es).db.category = st.db.category ∧
    (ingestEmps s_id st es).db.product = st.db.product ∧
    (ingestEmps s_id st es).db.inventory = st.db.inventory ∧
    (ingestEmps s_id st es).db.customer = st.db.customer ∧
    (ingestEmps s_id st es).db.sale = st.db.sale ∧
    (ingestEmps s_id st es).db.saleline = st.db.saleline := by
  induction es with
  | nil =>
    intro st
    exact ⟨rfl, rfl, rfl, rfl, rfl, rfl, rfl, rfl, rfl, rfl, rfl, rfl, rfl, rfl, rfl⟩
  | cons e t ih =>
    intro st
    exact ih (ingestEmp s_id st e)

theorem ingestStoreDoc_catInv (d : StoreDoc) (ps : List ProdDoc) (st : IngestSt)
    (h : CatInv ps st) :
    ∃ st', ingestStoreDoc st d = some st' ∧
      CatInv (ps ++ d.inventory.map InvDoc.product) st' ∧
      st'.customers_map = st.customers_map ∧ st'.next_cust = st.next_cust ∧
      st'.next_sale = st.next_sale ∧ st'.db.customer = st.db.customer ∧
      st'.db.sale = st.db.sale ∧ st'.db.saleline = st.db.saleline := by
  obtain ⟨hcm, hnc, hcr, hpm, hnp, hpr⟩ := h
  unfold ingestStoreDoc
  obtain ⟨e1, e2, e3, e4, e5, e6, e7, e8, e9, e10, e11, e12, e13, e14, e15⟩ :=
    ingestEmps_frames (st.store_map.length + 1)
      d.employees
      { st with
        store_map := mset st.store_map d.store_name (st.store_map.length + 1),
        db := copy_rows st.db "store" ["store_id", "name", "address"]
          [[Value.n (st.store_map.length + 1), Value.s d.store_name,
            Value.s d.address]] }
  have hmid : CatInv ps (ingestEmps (st.store_map.length + 1)
      { st with
        store_map := mset st.store_map d.store_name (st.store_map.length + 1),
        db := copy_rows st.db "store" ["store_id", "name", "address"]
          [[Value.n (st.store_map.length + 1), Value.s d.store_name,
            Value.s d.address]] } d.employees) :=
    ⟨e1.trans hcm, e2.trans hnc, e10.trans hcr, e3.trans hpm, e4.trans hnp,
      e11.trans hpr⟩
  obtain ⟨st', hrun, hinv, hrow, fsm, fem, fne, fcust, fncu, fns, fdbs, fdbe, fdbc,
    fdbsale, fdbsl⟩ := ingestInvs_catInv (st.store_map.length + 1) d.inventory ps _ hmid
  exact ⟨st', hrun, hinv, fcust.trans e6, fncu.trans e7, fns.trans e8,
    fdbc.trans e13, fdbsale.trans e14, fdbsl.trans e15⟩

theorem ingestCatalog_catInv (docs : List StoreDoc) : ∀ (ps : List ProdDoc) (st : IngestSt),
    CatInv ps st →
    ∃ st', ingestCatalog st docs = some st' ∧ CatInv (ps ++ flatProds docs) st' ∧
      st'.customers_map = st.customers_map ∧ st'.next_cust = st.next_cust ∧
      st'.next_sale = st.next_sale ∧ st'.db.customer = st.db.customer ∧
      st'.db.sale = st.db.sale ∧ st'.db.saleline = st.db.saleline := by
  induction docs with
  | nil =>
    intro ps st h
    exact ⟨st, rfl, by simpa [flatProds] using h, rfl, rfl, rfl, rfl, rfl, rfl⟩
  | cons d rest ih =>
    intro ps st h
    obtain ⟨st1, hrun1, hinv1, f1, f2, f3, f4, f5, f6⟩ := ingestStoreDoc_catInv d ps st h
    obtain ⟨st', hrun2, hinv2, g1, g2, g3, g4, g5, g6⟩ :=
      ih (ps ++ d.inventory.map InvDoc.product) st1 hinv1
    refine ⟨st', ?_, ?_, g1.trans f1, g2.trans f2, g3.trans f3, g4.trans f4,
      g5.trans f5, g6.trans f6⟩
    · unfold ingestCatalog
      rw [hrun1]
      exact hrun2
    · have : ps ++ d.inventory.map InvDoc.product ++ flatProds rest =
          ps ++ flatProds (d :: rest) := by
        show _ = ps ++ (d.inventory.map InvDoc.product ++ flatProds rest)
        rw [List.append_assoc]
      rw [← this]
      exact hinv2

theorem catInv_initSt : CatInv [] initSt :=
  ⟨rfl, rfl, rfl, rfl, rfl, rfl⟩

/-! ## The customer dedup state of the sales phase -/

/-- Customer emails in first-encounter order of the processed sale documents. -/
def emailsOf (S : List SaleDoc) : List String :=
  dedupFirst (S.map (fun s => s.customer.email))

/-- The customer object of the first processed sale with the given email. -/
def firstCust (S : List SaleDoc) (em : String) : Option CustDoc :=
  (S.find? (fun s => s.customer.email == em)).map SaleDoc.customer

/-- The customer rows for emails assigned ids `k, k+1, …`. -/
def custRowsFrom (S : List SaleDoc) (k : Nat) : List String → List Row
  | [] => []
  | em :: t =>
    [Value.n k, Value.s (((firstCust S em).map CustDoc.first_name).getD ""),
      Value.s (((firstCust S em).map CustDoc.last_name).getD ""), Value.s em] ::
      custRowsFrom S (k + 1) t

/-- The invariant of the customer side of the sales ingestion after the sale
documents `S` have been processed. -/
structure CustInv (S : List SaleDoc) (st : IngestSt) : Prop where
  cmap : st.customers_map = idAssign (emailsOf S)
  ncust : st.next_cust = (emailsOf S).length + 1
  crows : st.db.customer = custRowsFrom S 1 (emailsOf S)

theorem firstCust_isSome_iff (S : List SaleDoc) (em : String) :
    (firstCust S em).isSome ↔ em ∈ S.map (fun s => s.customer.email) := by
  unfold firstCust
  rw [Option.isSome_map', List.find?_isSome]
  constructor
  · rintro ⟨x, hx, hpx⟩
    exact List.mem_map.mpr ⟨x, hx, by simpa using hpx⟩
  · rintro h
    obtain ⟨x, hx, hem⟩ := List.mem_map.mp h
    exact ⟨x, hx, by simp [hem]⟩

theorem firstCust_append_left {S : List SaleDoc} {em : String} (t : List SaleDoc)
    (h : (firstCust S em).isSome) : firstCust (S ++ t) em = firstCust S em := by
  unfold firstCust at h ⊢
  rw [List.find?_append]
  cases hfw : S.find? (fun s => s.customer.email == em) with
  | none => rw [hfw] at h; cases h
  | some a => simp

theorem firstCust_append_right {S : List SaleDoc} {em : String} (t : List SaleDoc)
    (h : em ∉ S.map (fun s => s.customer.email)) :
    firstCust (S ++ t) em = firstCust t em := by
  unfold firstCust
  rw [List.find?_append]
  have : S.find? (fun s => s.customer.email == em) = none := by
    rw [List.find?_eq_none]
    intro x hx
    simp only [beq_iff_eq]
    intro hem
    exact h (List.mem_map.mpr ⟨x, hx, hem⟩)
  rw [this]
  simp

theorem firstCust_singleton_self (s : SaleDoc) :
    firstCust [s] s.customer.email = some s.customer := by
  unfold firstCust
  simp

theorem emailsOf_append_one (S : List SaleDoc) (s : SaleDoc) :
    emailsOf (S ++ [s]) =
      if s.customer.email ∈ emailsOf S then emailsOf S
      else emailsOf S ++ [s.customer.email] := by
  unfold emailsOf
  rw [List.map_append]
  exact dedupFirst_append_singleton _ _

theorem mem_emailsOf (S : List SaleDoc) (em : String) :
    em ∈ emailsOf S ↔ em ∈ S.map (fun s => s.customer.email) := mem_dedupFirst _ _

theorem custRowsFrom_append (S : List SaleDoc) (l : List String) (em : String) :
    ∀ (k : Nat), custRowsFrom S k (l ++ [em]) =
      custRowsFrom S k l ++
        [[Value.n (k + l.length),
          Value.s (((firstCust S em).map CustDoc.first_name).getD ""),
          Value.s (((firstCust S em).map CustDoc.last_name).getD ""), Value.s em]] := by
  induction l with
  | nil => intro k; simp [custRowsFrom]
  | cons x t ih =>
    intro k
    have : k + (t.length + 1) = k + 1 + t.length := by omega
    simp [custRowsFrom, ih (k + 1), this]

theorem custRowsFrom_congr (S S' : List SaleDoc) (emails : List String)
    (hf : ∀ em ∈ emails, firstCust S' em = firstCust S em) :
    ∀ (k : Nat), custRowsFrom S' k emails = custRowsFrom S k emails := by
  induction emails with
  | nil => intro k; rfl
  | cons em t ih =>
    intro k
    simp only [custRowsFrom]
    rw [hf em (List.mem_cons_self em t),
      ih (fun x hx => hf x (List.mem_cons_of_mem em hx)) (k + 1)]

theorem custRowsFrom_extend (S : List SaleDoc) (s : SaleDoc) (k : Nat) :
    custRowsFrom (S ++ [s]) k (emailsOf S) = custRowsFrom S k (emailsOf S) :=
  custRowsFrom_congr _ _ _
    (fun em hem => firstCust_append_left [s]
      ((firstCust_isSome_iff S em).mpr ((mem_emailsOf S em).mp hem))) k

theorem ensureCust_custStep (st : IngestSt) (S : List SaleDoc) (s : SaleDoc)
    (hcm : st.customers_map = idAssign (emailsOf S))
    (hnc : st.next_cust = (emailsOf S).length + 1)
    (hcr : st.db.customer = custRowsFrom S 1 (emailsOf S)) :
    (ensureCust st s.customer).customers_map = idAssign (emailsOf (S ++ [s])) ∧
    (ensureCust st s.customer).next_cust = (emailsOf (S ++ [s])).length + 1 ∧
    (ensureCust st s.customer).db.customer = custRowsFrom (S ++ [s]) 1 (emailsOf (S ++ [s])) ∧
    (ensureCust st s.customer).category_map = st.category_map ∧
    (ensureCust st s.customer).next_cat = st.next_cat ∧
    (ensureCust st s.customer).product_map = st.product_map ∧
    (ensureCust st s.customer).next_prod = st.next_prod ∧
    (ensureCust st s.customer).store_map = st.store_map ∧
    (ensureCust st s.customer).employee_map = st.employee_map ∧
    (ensureCust st s.customer).next_emp = st.next_emp ∧
    (ensureCust st s.customer).next_sale = st.next_sale ∧
    (ensureCust st s.customer).db.store = st.db.store ∧
    (ensureCust st s.customer).db.employee = st.db.employee ∧
    (ensureCust st s.customer).db.category = st.db.category ∧
    (ensureCust st s.customer).db.product = st.db.product ∧
    (ensureCust st s.customer).db.inventory = st.db.inventory ∧
    (ensureCust st s.customer).db.sale = st.db.sale ∧
    (ensureCust st s.customer).db.saleline = st.db.saleline := by
  by_cases hc : s.customer.email ∈ emailsOf S
  · rw [ensureCust_of_mem st _ (by rw [hcm]; exact (mget_idAssign_isSome_iff _ _).mpr hc),
      emailsOf_append_one, if_pos hc]
    refine ⟨hcm, hnc, ?_, rfl, rfl, rfl, rfl, rfl, rfl, rfl, rfl, rfl, rfl, rfl, rfl,
      rfl, rfl, rfl⟩
    rw [hcr, custRowsFrom_extend]
  · have hnone : mget st.customers_map s.customer.email = none := by
      rw [hcm]
      exact mget_idAssignFrom_of_not_mem _ _ hc 1
    have hnmap : s.customer.email ∉ S.map (fun x => x.customer.email) :=
      fun hx => hc ((mem_emailsOf S s.customer.email).mpr hx)
    rw [ensureCust_of_new st _ hnone, emailsOf_append_one, if_neg hc]
    refine ⟨?_, ?_, ?_, rfl, rfl, rfl, rfl, rfl, rfl, rfl, rfl, rfl, rfl, rfl, rfl,
      rfl, rfl, rfl⟩
    · show mset st.customers_map s.customer.email st.next_cust = _
      rw [hcm, hnc, mset_eq_append _ _ _ (by rw [hcm] at hnone; exact hnone)]
      show idAssignFrom 1 (emailsOf S) ++ [(s.customer.email, (emailsOf S).length + 1)] = _
      rw [show idAssign (emailsOf S ++ [s.customer.email]) =
        idAssignFrom 1 (emailsOf S) ++ idAssignFrom (1 + (emailsOf S).length) [s.customer.email]
        from idAssignFrom_append _ _ 1]
      rw [Nat.add_comm 1 (emailsOf S).length]
      rfl
    · show st.next_cust + 1 = _
      rw [hnc]
      simp
    · show st.db.customer ++ [[Value.n st.next_cust, Value.s s.customer.first_name,
        Value.s s.customer.last_name, Value.s s.customer.email]] = _
      rw [hcr, hnc, custRowsFrom_append, Nat.add_comm 1 (emailsOf S).length,
        custRowsFrom_extend, firstCust_append_right [s] hnmap, firstCust_singleton_self]
      rfl

theorem ingestLines_frames (sale_id : Nat) (lines : List LineDoc) :
    ∀ (st : IngestSt) (line_no : Nat),
      (ingestLines sale_id st line_no lines).category_map = st.category_map ∧
      (ingestLines sale_id st line_no lines).next_cat = st.next_cat ∧
      (ingestLines sale_id st line_no lines).product_map = st.product_map ∧
      (ingestLines sale_id st line_no lines).next_prod = st.next_prod ∧
      (ingestLines sale_id st line_no lines).store_map = st.store_map ∧
      (ingestLines sale_id st line_no lines).employee_map = st.employee_map ∧
      (ingestLines sale_id st line_no lines).next_emp = st.next_emp ∧
      (ingestLines sale_id st line_no lines).customers_map = st.customers_map ∧
      (ingestLines sale_id st line_no lines).next_cust = st.next_cust ∧
      (ingestLines sale_id st line_no lines).next_sale = st.next_sale ∧
      (ingestLines sale_id st line_no lines).db.store = st.db.store ∧
      (ingestLines sale_id st line_no lines).db.employee = st.db.employee ∧
      (ingestLines sale_id st line_no lines).db.category = st.db.category ∧
      (ingestLines sale_id st line_no lines).db.product = st.db.product ∧
      (ingestLines sale_id st line_no lines).db.inventory = st.db.inventory ∧
      (ingestLines sale_id st line_no lines).db.customer = st.db.customer ∧
      (ingestLines sale_id st line_no lines).db.sale = st.db.sale := by
  induction lines with
  | nil =>
    intro st line_no
    exact ⟨rfl, rfl, rfl, rfl, rfl, rfl, rfl, rfl, rfl, rfl, rfl, rfl, rfl, rfl, rfl,
      rfl, rfl⟩
  | cons ln rest ih =>
    intro st line_no
    unfold ingestLines
    cases hget : mget st.product_map ln.product.name with
    | none => exact ih st line_no
    | some prod_id => exact ih _ (line_no + 1)

theorem ingestSale_custInv {st st' : IngestSt} {s : SaleDoc} {S : List SaleDoc}
    (hrun : ingestSale st s = some st') (h : CustInv S st) :
    CustInv (S ++ [s]) st' ∧
    st'.category_map = st.category_map ∧ st'.next_cat = st.next_cat ∧
    st'.product_map = st.product_map ∧ st'.next_prod = st.next_prod ∧
    st'.store_map = st.store_map ∧ st'.employee_map = st.employee_map ∧
    st'.next_emp = st.next_emp ∧
    st'.db.store = st.db.store ∧ st'.db.employee = st.db.employee ∧
    st'.db.category = st.db.category ∧ st'.db.product = st.db.product ∧
    st'.db.inventory = st.db.inventory := by
  obtain ⟨hcm, hnc, hcr⟩ := h
  obtain ⟨u1, u2, u3, u4, u5, u6, u7, u8, u9, u10, u11, u12, u13, u14, u15, u16,
    u17, u18⟩ := ensureCust_custStep st S s hcm hnc hcr
  unfold ingestSale ingestSaleFrom at hrun
  split at hrun
  · cases hrun
  · split at hrun
    · cases hrun
    · split at hrun
      · cases hrun
      · cases hrun
        obtain ⟨l1, l2, l3, l4, l5, l6, l7, l8, l9, l10, l11, l12, l13, l14, l15,
          l16, l17⟩ := ingestLines_frames (ensureCust st s.customer).next_sale _
          { ensureCust st s.customer with
            next_sale := (ensureCust st s.customer).next_sale + 1,
            db := copy_rows (ensureCust st s.customer).db "sale"
              ["sale_id", "sale_timestamp", "customer_id", "store_id", "employee_id",
                "total_amount"] _ } 1
        refine ⟨⟨?_, ?_, ?_⟩, ?_, ?_, ?_, ?_, ?_, ?_, ?_, ?_, ?_, ?_, ?_, ?_⟩
        · exact l8.trans u1
        · exact l9.trans u2
        · exact l16.trans u3
        · exact l1.trans u4
        · exact l2.trans u5
        · exact l3.trans u6
        · exact l4.trans u7
        · exact l5.trans u8
        · exact l6.trans u9
        · exact l7.trans u10
        · exact l11.trans u12
        · exact l12.trans u13
        · exact l13.trans u14
        · exact l14.trans u15
        · exact l15.trans u16

theorem ingestSales_custInv (sales : List SaleDoc) :
    ∀ (S : List SaleDoc) (st st' : IngestSt), ingestSales st sales = some st' →
      CustInv S st →
      CustInv (S ++ sales) st' ∧
      st'.category_map = st.category_map ∧ st'.next_cat = st.next_cat ∧
      st'.product_map = st.product_map ∧ st'.next_prod = st.next_prod ∧
      st'.store_map = st.store_map ∧ st'.employee_map = st.employee_map ∧
      st'.next_emp = st.next_emp ∧
      st'.db.store = st.db.store ∧ st'.db.employee = st.db.employee ∧
      st'.db.category = st.db.category ∧ st'.db.product = st.db.product ∧
      st'.db.inventory = st.db.inventory := by
  induction sales with
  | nil =>
    intro S st st' hrun h
    cases hrun
    exact ⟨by simpa using h, rfl, rfl, rfl, rfl, rfl, rfl, rfl, rfl, rfl, rfl, rfl, rfl⟩
  | cons s rest ih =>
    intro S st st' hrun h
    unfold ingestSales at hrun
    split at hrun
    · cases hrun
    · next st1 heq =>
      obtain ⟨h1, a1, a2, a3, a4, a5, a6, a7, a8, a9, a10, a11, a12⟩ :=
        ingestSale_custInv heq h
      obtain ⟨h2, b1, b2, b3, b4, b5, b6, b7, b8, b9, b10, b11, b12⟩ :=
        ih (S ++ [s]) st1 st' hrun h1
      have hacc : (S ++ [s]) ++ rest = S ++ s :: rest := by simp
      rw [hacc] at h2
      exact ⟨h2, b1.trans a1, b2.trans a2, b3.trans a3, b4.trans a4, b5.trans a5,
        b6.trans a6, b7.trans a7, b8.trans a8, b9.trans a9, b10.trans a10,
        b11.trans a11, b12.trans a12⟩

/-! ## Full catalog characterization (store, employee, inventory rows) -/

/-- The store rows, one per document, with ids `k, k+1, …`. -/
def storeRowsFrom (k : Nat) : List StoreDoc → List Row
  | [] => []
  | d :: t => [Value.n k, Value.s d.store_name, Value.s d.address] :: storeRowsFrom (k + 1) t

/-- All employee documents paired with their store id, store `k` onwards. -/
def flatEmpsFrom (k : Nat) : List StoreDoc → List (EmpDoc × Nat)
  | [] => []
  | d :: t => d.employees.map (fun e => (e, k)) ++ flatEmpsFrom (k + 1) t

/-- The `employee_map` key of an employee-with-store pair. -/
def empKey (p : EmpDoc × Nat) : String × String × Nat :=
  (p.1.first_name, p.1.last_name, p.2)

/-- The employee rows with employee ids `j, j+1, …`. -/
def empRowsFrom (j : Nat) : List (EmpDoc × Nat) → List Row
  | [] => []
  | (e, sid) :: t =>
    [Value.n j, Value.s e.first_name, Value.s e.last_name, Value.s e.position,
      Value.n sid] :: empRowsFrom (j + 1) t

/-- All inventory documents paired with their store id, store `k` onwards. -/
def flatInvsFrom (k : Nat) : List StoreDoc → List (InvDoc × Nat)
  | [] => []
  | d :: t => d.inventory.map (fun v => (v, k)) ++ flatInvsFrom (k + 1) t

/-- The inventory rows of a catalog: one per entry, with the store id and the
first-encounter product id. -/
def invRowsOf (D : List StoreDoc) : List Row :=
  (flatInvsFrom 1 D).map (fun p =>
    [Value.n p.2, Value.n (posIn (namesOf (flatProds D)) p.1.product.name),
      Value.n p.1.quantity])

theorem flatProds_append (D D' : List StoreDoc) :
    flatProds (D ++ D') = flatProds D ++ flatProds D' := by
  induction D with
  | nil => rfl
  | cons d t ih => simp [flatProds, ih]

theorem storeRowsFrom_append (D D' : List StoreDoc) :
    ∀ (k : Nat), storeRowsFrom k (D ++ D') =
      storeRowsFrom k D ++ storeRowsFrom (k + D.length) D' := by
  induction D with
  | nil => intro k; simp [storeRowsFrom]
  | cons d t ih =>
    intro k
    have : k + (t.length + 1) = k + 1 + t.length := by omega
    simp [storeRowsFrom, ih (k + 1), this]

theorem flatEmpsFrom_append (D D' : List StoreDoc) :
    ∀ (k : Nat), flatEmpsFrom k (D ++ D') =
      flatEmpsFrom k D ++ flatEmpsFrom (k + D.length) D' := by
  induction D with
  | nil => intro k; simp [flatEmpsFrom]
  | cons d t ih =>
    intro k
    have : k + (t.length + 1) = k + 1 + t.length := by omega
    simp [flatEmpsFrom, ih (k + 1), this]

theorem flatInvsFrom_append (D D' : List StoreDoc) :
    ∀ (k : Nat), flatInvsFrom k (D ++ D') =
      flatInvsFrom k D ++ flatInvsFrom (k + D.length) D' := by
  induction D with
  | nil => intro k; simp [flatInvsFrom]
  | cons d t ih =>
    intro k
    have : k + (t.length + 1) = k + 1 + t.length := by omega
    simp [flatInvsFrom, ih (k + 1), this]

theorem empRowsFrom_append (l l' : List (EmpDoc × Nat)) :
    ∀ (j : Nat), empRowsFrom j (l ++ l') =
      empRowsFrom j l ++ empRowsFrom (j + l.length) l' := by
  induction l with
  | nil => intro j; simp [empRowsFrom]
  | cons p t ih =>
    intro j
    obtain ⟨e, sid⟩ := p
    have : j + (t.length + 1) = j + 1 + t.length := by omega
    simp [empRowsFrom, ih (j + 1), this]

theorem mem_flatInvsFrom_product (D : List StoreDoc) :
    ∀ (k : Nat) (p : InvDoc × Nat), p ∈ flatInvsFrom k D → p.1.product ∈ flatProds D := by
  induction D with
  | nil => intro k p hp; cases hp
  | cons d t ih =>
    intro k p hp
    rcases List.mem_append.mp hp with hp | hp
    · obtain ⟨v, hv, rfl⟩ := List.mem_map.mp hp
      exact List.mem_append.mpr (Or.inl (List.mem_map.mpr ⟨v, hv, rfl⟩))
    · exact List.mem_append.mpr (Or.inr (ih (k + 1) p hp))

theorem ingestEmps_spec (s_id : Nat) (es : List EmpDoc) : ∀ (st : IngestSt),
    (ingestEmps s_id st es).next_emp = st.next_emp + es.length ∧
    (ingestEmps s_id st es).db.employee =
      st.db.employee ++ empRowsFrom st.next_emp (es.map (fun e => (e, s_id))) ∧
    ∀ key, (mget (ingestEmps s_id st es).employee_map key).isSome ↔
      key ∈ (es.map (fun e => (e, s_id))).map empKey ∨
        (mget st.employee_map key).isSome := by
  induction es with
  | nil =>
    intro st
    refine ⟨rfl, by simp [ingestEmps, empRowsFrom], fun key => by simp [ingestEmps]⟩
  | cons e rest ih =>
    intro st
    obtain ⟨h1, h2, h3⟩ := ih (ingestEmp s_id st e)
    refine ⟨?_, ?_, ?_⟩
    · show (ingestEmps s_id (ingestEmp s_id st e) rest).next_emp = _
      rw [h1]
      show st.next_emp + 1 + rest.length = _
      simp only [List.length_cons]
      omega
    · show (ingestEmps s_id (ingestEmp s_id st e) rest).db.employee = _
      rw [h2]
      show (st.db.employee ++ [[Value.n st.next_emp, Value.s e.first_name,
          Value.s e.last_name, Value.s e.position, Value.n s_id]]) ++
          empRowsFrom (st.next_emp + 1) (rest.map (fun e => (e, s_id))) = _
      rw [List.append_assoc]
      rfl
    · intro key
      show (mget (ingestEmps s_id (ingestEmp s_id st e) rest).employee_map key).isSome ↔ _
      rw [h3 key]
      show _ ∨ (mget (mset st.employee_map (e.first_name, e.last_name, s_id)
        st.next_emp) key).isSome ↔ _
      rw [mget_isSome_mset]
      simp only [List.map_cons, List.mem_cons]
      constructor
      · rintro (h | h | h)
        · exact Or.inl (Or.inr h)
        · exact Or.inl (Or.inl h)
        · exact Or.inr h
      · rintro (( h | h) | h)
        · exact Or.inr (Or.inl h)
        · exact Or.inl h
        · exact Or.inr (Or.inr h)

/-- The full characterization of the catalog phase after the store documents
`D` (with pairwise distinct store names) have been processed. -/
structure CatalogInv (D : List StoreDoc) (st : IngestSt) : Prop where
  cat : CatInv (flatProds D) st
  smap : st.store_map = idAssign (D.map StoreDoc.store_name)
  srows : st.db.store = storeRowsFrom 1 D
  nemp : st.next_emp = (flatEmpsFrom 1 D).length + 1
  erows : st.db.employee = empRowsFrom 1 (flatEmpsFrom 1 D)
  ekeys : ∀ key, (mget st.employee_map key).isSome ↔ key ∈ (flatEmpsFrom 1 D).map empKey
  irows : st.db.inventory = invRowsOf D
  custm : st.customers_map = []
  ncust : st.next_cust = 1
  nsale : st.next_sale = 1
  dbcust : st.db.customer = []
  dbsale : st.db.sale = []
  dbsl : st.db.saleline = []

theorem ingestStoreDoc_catalogInv (D : List StoreDoc) (d : StoreDoc) (st : IngestSt)
    (h : CatalogInv D st) (hnew : d.store_name ∉ D.map StoreDoc.store_name) :
    ∃ st', ingestStoreDoc st d = some st' ∧ CatalogInv (D ++ [d]) st' := by
  have hsmlen : st.store_map.length = D.length := by
    rw [h.smap]
    show (idAssignFrom 1 _).length = _
    rw [length_idAssignFrom]
    simp
  have hflat : flatProds (D ++ [d]) = flatProds D ++ d.inventory.map InvDoc.product := by
    rw [flatProds_append]
    simp [flatProds]
  have hfemp : flatEmpsFrom 1 (D ++ [d]) =
      flatEmpsFrom 1 D ++ d.employees.map (fun e => (e, 1 + D.length)) := by
    rw [flatEmpsFrom_append]
    simp [flatEmpsFrom]
  have hfinv : flatInvsFrom 1 (D ++ [d]) =
      flatInvsFrom 1 D ++ d.inventory.map (fun v => (v, 1 + D.length)) := by
    rw [flatInvsFrom_append]
    simp [flatInvsFrom]
  unfold ingestStoreDoc
  obtain ⟨es1, es2, es3⟩ := ingestEmps_spec (st.store_map.length + 1) d.employees
    { st with
      store_map := mset st.store_map d.store_name (st.store_map.length + 1),
      db := copy_rows st.db "store" ["store_id", "name", "address"]
        [[Value.n (st.store_map.length + 1), Value.s d.store_name, Value.s d.address]] }
  obtain ⟨e1, e2, e3, e4, e5, e6, e7, e8, e9, e10, e11, e12, e13, e14, e15⟩ :=
    ingestEmps_frames (st.store_map.length + 1) d.employees
      { st with
        store_map := mset st.store_map d.store_name (st.store_map.length + 1),
        db := copy_rows st.db "store" ["store_id", "name", "address"]
          [[Value.n (st.store_map.length + 1), Value.s d.store_name, Value.s d.address]] }
  have hmid : CatInv (flatProds D) (ingestEmps (st.store_map.length + 1)
      { st with
        store_map := mset st.store_map d.store_name (st.store_map.length + 1),
        db := copy_rows st.db "store" ["store_id", "name", "address"]
          [[Value.n (st.store_map.length + 1), Value.s d.store_name, Value.s d.address]] }
      d.employees) :=
    ⟨e1.trans h.cat.cmap, e2.trans h.cat.ncat, e10.trans h.cat.crows,
      e3.trans h.cat.pmap, e4.trans h.cat.nprod, e11.trans h.cat.prows⟩
  obtain ⟨st', hrun, hinv, hrow, fsm, fem, fne, fcust, fncu, fns, fdbs, fdbe, fdbc,
    fdbsale, fdbsl⟩ := ingestInvs_catInv (st.store_map.length + 1) d.inventory
    (flatProds D) _ hmid
  refine ⟨st', hrun, ?_⟩
  have hmgetnone : mget st.store_map d.store_name = none := by
    rw [h.smap]
    exact mget_idAssignFrom_of_not_mem _ _ hnew 1
  refine ⟨?_, ?_, ?_, ?_, ?_, ?_, ?_, ?_, ?_, ?_, ?_, ?_, ?_⟩
  · rw [hflat]
    exact hinv
  · rw [fsm, e5]
    show mset st.store_map d.store_name (st.store_map.length + 1) = _
    rw [mset_eq_append _ _ _ hmgetnone, h.smap]
    have hlen : (idAssign (List.map StoreDoc.store_name D)).length = D.length := by
      show (idAssignFrom 1 _).length = _
      rw [length_idAssignFrom]
      simp
    rw [hlen, List.map_append]
    simp only [List.map_cons, List.map_nil]
    rw [show idAssign (D.map StoreDoc.store_name ++ [d.store_name]) =
      idAssignFrom 1 (D.map StoreDoc.store_name) ++
        idAssignFrom (1 + (D.map StoreDoc.store_name).length) [d.store_name]
      from idAssignFrom_append _ _ 1]
    simp only [List.length_map]
    rw [Nat.add_comm 1 D.length]
    rfl
  · rw [fdbs, e9]
    show st.db.store ++ [[Value.n (st.store_map.length + 1), Value.s d.store_name,
      Value.s d.address]] = _
    rw [h.srows, hsmlen, storeRowsFrom_append, Nat.add_comm 1 D.length]
    rfl
  · rw [fne, es1]
    show st.next_emp + d.employees.length = _
    rw [h.nemp, hfemp]
    simp only [List.length_append, List.length_map]
    omega
  · rw [fdbe, es2]
    show st.db.employee ++ empRowsFrom st.next_emp _ = _
    rw [h.erows, h.nemp, hfemp, empRowsFrom_append]
    congr 2
    · omega
    · rw [hsmlen, Nat.add_comm 1 D.length]
  · intro key
    rw [fem, es3 key]
    show key ∈ _ ∨ (mget st.employee_map key).isSome ↔ _
    rw [h.ekeys key, hfemp, List.map_append, List.mem_append]
    rw [hsmlen, Nat.add_comm 1 D.length]
    tauto
  · rw [hrow, e12]
    show st.db.inventory ++ _ = _
    rw [h.irows]
    unfold invRowsOf
    rw [hfinv, List.map_append, List.map_map]
    congr 1
    · apply List.map_congr_left
      intro p hp
      have hmem : p.1.product.name ∈ (flatProds D).map ProdDoc.name :=
        List.mem_map.mpr ⟨p.1.product, mem_flatInvsFrom_product D 1 p hp, rfl⟩
      rw [hflat, posIn_namesOf_stable _ hmem]
    · simp only [hsmlen, ← hflat, Nat.add_comm 1 D.length]
      rfl
  · rw [fcust, e6]
    exact h.custm
  · rw [fncu, e7]
    exact h.ncust
  · rw [fns, e8]
    exact h.nsale
  · rw [fdbc, e13]
    exact h.dbcust
  · rw [fdbsale, e14]
    exact h.dbsale
  · rw [fdbsl, e15]
    exact h.dbsl

theorem ingestCatalog_catalogInv (rest : List StoreDoc) :
    ∀ (D : List StoreDoc) (st : IngestSt), CatalogInv D st →
      ((D ++ rest).map StoreDoc.store_name).Nodup →
      ∃ st', ingestCatalog st rest = some st' ∧ CatalogInv (D ++ rest) st' := by
  induction rest with
  | nil =>
    intro D st h _
    refine ⟨st, rfl, ?_⟩
    rw [List.append_nil]
    exact h
  | cons d t ih =>
    intro D st h hnd
    have hnew : d.store_name ∉ D.map StoreDoc.store_name := by
      rw [List.map_append] at hnd
      have hdisj := (List.nodup_append.mp hnd).2.2
      intro hmem
      exact (hdisj hmem) (by simp)
    obtain ⟨st1, hrun1, h1⟩ := ingestStoreDoc_catalogInv D d st h hnew
    have hnd2 : (((D ++ [d]) ++ t).map StoreDoc.store_name).Nodup := by
      simpa using hnd
    obtain ⟨st', hrun2, h2⟩ := ih (D ++ [d]) st1 h1 hnd2
    refine ⟨st', ?_, ?_⟩
    · unfold ingestCatalog
      rw [hrun1]
      exact hrun2
    · have hx : (D ++ [d]) ++ t = D ++ d :: t := by simp
      rwa [hx] at h2

theorem catalogInv_initSt : CatalogInv [] initSt :=
  ⟨catInv_initSt, rfl, rfl, rfl, rfl, fun key => by simp [initSt, mget, flatEmpsFrom],
    rfl, rfl, rfl, rfl, rfl, rfl, rfl⟩

/-- C3 (amended): id assignment in `load_postgres_from_json` is by
first-encounter dictionary lookup.  On every run that completes, the k-th
distinct category name encountered receives `category_id` k, the k-th distinct
product name receives `product_id` k, and the k-th distinct customer email
receives `customer_id` k (the final maps are exactly the id assignment of the
first-encounter deduplicated key sequences, so no key is ever rebound);
provided that the catalog's store names are pairwise distinct, the k-th store
document likewise receives `store_id` k.  (Without that proviso the store
clause of the claim is false: `s_id = len(store_map) + 1` together with the
unguarded `store_map[name] = s_id` reassigns duplicated names and reuses ids;
see the counterexample.) -/
theorem c3_first_encounter_id_assignment (catalog : List StoreDoc)
    (sales_docs : List SaleDoc) (st : IngestSt)
    (h : loadState catalog sales_docs = some st) :
    st.category_map = idAssign (dedupFirst ((flatProds catalog).map ProdDoc.category)) ∧
    st.product_map = idAssign (dedupFirst ((flatProds catalog).map ProdDoc.name)) ∧
    st.customers_map = idAssign (dedupFirst (sales_docs.map (fun s => s.customer.email))) ∧
    ((catalog.map StoreDoc.store_name).Nodup →
      st.store_map = idAssign (catalog.map StoreDoc.store_name)) := by
  obtain ⟨stc, hc, hcat, f1, f2, f3, f4, f5, f6⟩ :=
    ingestCatalog_catInv catalog [] initSt catInv_initSt
  unfold loadState at h
  rw [hc] at h
  have hcust0 : CustInv [] stc := by
    refine ⟨?_, ?_, ?_⟩
    · rw [f1]; rfl
    · rw [f2]; rfl
    · rw [f4]; rfl
  obtain ⟨hcustInv, a1, a2, a3, a4, a5, a6, a7, a8, a9, a10, a11, a12⟩ :=
    ingestSales_custInv sales_docs [] stc st h hcust0
  refine ⟨?_, ?_, ?_, ?_⟩
  · rw [a1]
    exact hcat.cmap
  · rw [a3]
    exact hcat.pmap
  · exact hcustInv.cmap
  · intro hnodup
    obtain ⟨stc2, hc2, h2⟩ := ingestCatalog_catalogInv catalog [] initSt catalogInv_initSt
      (by simpa using hnodup)
    have hstc : stc2 = stc := by
      rw [hc] at hc2
      exact ((Option.some.injEq _ _).mp hc2).symm
    rw [a5, ← hstc]
    exact h2.smap

/-- Witness for the amended C3, at a one-store catalog with one inventory
entry and one sale; every hypothesis is discharged by computation. -/
theorem c3_first_encounter_id_assignment_witness :
    ∃ st, loadState
        [⟨"S1", "addr", [⟨"F", "L", "P"⟩], [⟨⟨"prodname", "catname", 5⟩, 3⟩]⟩]
        [⟨TsVal.str "t", "S1", "F", "L", ⟨"cf", "cl", "em"⟩,
          [⟨⟨"prodname", "catname", 5⟩, 2, 10⟩], 10⟩] = some st ∧
      st.category_map = idAssign (dedupFirst ((flatProds
        [⟨"S1", "addr", [⟨"F", "L", "P"⟩], [⟨⟨"prodname", "catname", 5⟩, 3⟩]⟩]).map
          ProdDoc.category)) ∧
      st.customers_map = idAssign (dedupFirst
        ([⟨TsVal.str "t", "S1", "F", "L", ⟨"cf", "cl", "em"⟩,
          [⟨⟨"prodname", "catname", 5⟩, 2, 10⟩], 10⟩].map
            (fun s : SaleDoc => s.customer.email))) := by
  have hrun : ∃ st, loadState
      [⟨"S1", "addr", [⟨"F", "L", "P"⟩], [⟨⟨"prodname", "catname", 5⟩, 3⟩]⟩]
      [⟨TsVal.str "t", "S1", "F", "L", ⟨"cf", "cl", "em"⟩,
        [⟨⟨"prodname", "catname", 5⟩, 2, 10⟩], 10⟩] = some st := by
    refine ⟨_, rfl⟩
  obtain ⟨st, hst⟩ := hrun
  refine ⟨st, hst, ?_, ?_⟩
  · exact (c3_first_encounter_id_assignment _ _ st hst).1
  · exact (c3_first_encounter_id_assignment _ _ st hst).2.2.1

/-- Counterexample to C3 as stated: with the catalog
`[A, A, B]` (duplicate store names) the third store document receives
`store_id` 2, not 3, and the key `A` is assigned a second id (first 1, then
2), as the store rows and the final `store_map` show. -/
theorem c3_store_id_counterexample :
    (loadState [⟨"A", "x", [], []⟩, ⟨"A", "y", [], []⟩, ⟨"B", "z", [], []⟩] []).map
        (fun st => (st.db.store, st.store_map)) =
      some ([[Value.n 1, Value.s "A", Value.s "x"],
             [Value.n 2, Value.s "A", Value.s "y"],
             [Value.n 2, Value.s "B", Value.s "z"]],
            [("A", 2), ("B", 2)]) := by decide

/-! ## Referential integrity of the JSON ingestion (C1, C4) -/

/-- Some row of `rows` has the given value in its first column (its id). -/
def refsRow (rows : List Row) (v : Option Value) : Prop :=
  ∃ p ∈ rows, p.get? 0 = v

theorem refsRow_append {rows : List Row} {v : Option Value} (more : List Row)
    (h : refsRow rows v) : refsRow (rows ++ more) v := by
  obtain ⟨p, hp, he⟩ := h
  exact ⟨p, List.mem_append_left _ hp, he⟩

theorem mget_mset_cases {K V : Type} [DecidableEq K] (m : List (K × V)) (k k' : K)
    (v w : V) (h : mget (mset m k v) k' = some w) :
    (k' = k ∧ w = v) ∨ mget m k' = some w := by
  by_cases hk : k' = k
  · subst hk
    rw [mget_mset_self] at h
    exact Or.inl ⟨rfl, ((Option.some.injEq _ _).mp h).symm⟩
  · rw [mget_mset_ne m k k' v hk] at h
    exact Or.inr h

/-- The referential-integrity invariant of `load_postgres_from_json`: every id
stored in one of the lookup dicts is the id of a row already copied into the
corresponding table, every `saleline` row references an existing `product` row
(column 2 of a saleline row is its `product_id`), and every `sale` row
references existing `customer`, `store` and `employee` rows (columns 2, 3, 4). -/
structure RefInv (st : IngestSt) : Prop where
  pmap : ∀ k pid, mget st.product_map k = some pid →
    refsRow st.db.product (some (Value.n pid))
  smap : ∀ k sid, mget st.store_map k = some sid →
    refsRow st.db.store (some (Value.n sid))
  emap : ∀ k eid, mget st.employee_map k = some eid →
    refsRow st.db.employee (some (Value.n eid))
  cmap : ∀ k cid, mget st.customers_map k = some cid →
    refsRow st.db.customer (some (Value.n cid))
  sl : ∀ r ∈ st.db.saleline, refsRow st.db.product (r.get? 2)
  salec : ∀ r ∈ st.db.sale, refsRow st.db.customer (r.get? 2)
  salest : ∀ r ∈ st.db.sale, refsRow st.db.store (r.get? 3)
  salee : ∀ r ∈ st.db.sale, refsRow st.db.employee (r.get? 4)

theorem refInv_initSt : RefInv initSt := by
  refine ⟨?_, ?_, ?_, ?_, ?_, ?_, ?_, ?_⟩
  · intro k v hk; simp [initSt, mget] at hk
  · intro k v hk; simp [initSt, mget] at hk
  · intro k v hk; simp [initSt, mget] at hk
  · intro k v hk; simp [initSt, mget] at hk
  · intro r hr; simp [initSt] at hr
  · intro r hr; simp [initSt] at hr
  · intro r hr; simp [initSt] at hr
  · intro r hr; simp [initSt] at hr

theorem ensureCat_refInv (st : IngestSt) (c : String) (h : RefInv st) :
    RefInv (ensureCat st c) := by
  by_cases hc : (mget st.category_map c).isSome
  · rw [ensureCat_of_mem st c hc]
    exact h
  · rw [ensureCat_of_new st c (Option.not_isSome_iff_eq_none.mp hc)]
    exact ⟨h.pmap, h.smap, h.emap, h.cmap, h.sl, h.salec, h.salest, h.salee⟩

theorem ensureProd_refInv {st st' : IngestSt} {p : ProdDoc}
    (hrun : ensureProd st p = some st') (h : RefInv st) : RefInv st' := by
  unfold ensureProd at hrun
  split at hrun
  · cases hrun
    exact h
  · split at hrun
    · cases hrun
    · cases hrun
      refine ⟨?_, h.smap, h.emap, h.cmap, ?_, h.salec, h.salest, h.salee⟩
      · intro k pid hk
        rcases mget_mset_cases _ _ _ _ _ hk with ⟨hkk, hpid⟩ | hold
        · subst hpid
          exact ⟨_, List.mem_append_right _ (List.Mem.head _), rfl⟩
        · exact refsRow_append _ (h.pmap k pid hold)
      · intro r hr
        exact refsRow_append _ (h.sl r hr)

theorem ingestInvProd_refInv {s_id : Nat} {st st' : IngestSt} {inv : InvDoc}
    (hrun : ingestInvProd s_id st inv = some st') (h : RefInv st) : RefInv st' := by
  unfold ingestInvProd at hrun
  split at hrun
  · cases hrun
  · next st2 heq =>
    split at hrun
    · cases hrun
    · cases hrun
      have h2 := ensureProd_refInv heq h
      exact ⟨h2.pmap, h2.smap, h2.emap, h2.cmap, h2.sl, h2.salec, h2.salest, h2.salee⟩

theorem ingestInv_refInv {s_id : Nat} {st st' : IngestSt} {inv : InvDoc}
    (hrun : ingestInv s_id st inv = some st') (h : RefInv st) : RefInv st' :=
  ingestInvProd_refInv hrun (ensureCat_refInv st inv.product.category h)

theorem ingestInvs_refInv {s_id : Nat} (invs : List InvDoc) :
    ∀ {st st' : IngestSt}, ingestInvs s_id st invs = some st' → RefInv st → RefInv st' := by
  induction invs with
  | nil =>
    intro st st' hrun h
    cases hrun
    exact h
  | cons inv rest ih =>
    intro st st' hrun h
    unfold ingestInvs at hrun
    split at hrun
    · cases hrun
    · next st1 heq => exact ih hrun (ingestInv_refInv heq h)

theorem ingestEmp_refInv (s_id : Nat) (st : IngestSt) (e : EmpDoc) (h : RefInv st) :
    RefInv (ingestEmp s_id st e) := by
  rw [ingestEmp_eq]
  refine ⟨h.pmap, h.smap, ?_, h.cmap, h.sl, h.salec, h.salest, ?_⟩
  · intro k eid hk
    rcases mget_mset_cases _ _ _ _ _ hk with ⟨hkk, heid⟩ | hold
    · subst heid
      exact ⟨_, List.mem_append_right _ (List.Mem.head _), rfl⟩
    · exact refsRow_append _ (h.emap k eid hold)
  · intro r hr
    exact refsRow_append _ (h.salee r hr)

theorem ingestEmps_refInv (s_id : Nat) (es : List EmpDoc) :
    ∀ (st : IngestSt), RefInv st → RefInv (ingestEmps s_id st es) := by
  induction es with
  | nil =>
    intro st h
    exact h
  | cons e rest ih =>
    intro st h
    exact ih _ (ingestEmp_refInv s_id st e h)

theorem ingestStoreDoc_refInv {st st' : IngestSt} {d : StoreDoc}
    (hrun : ingestStoreDoc st d = some st') (h : RefInv st) : RefInv st' := by
  unfold ingestStoreDoc at hrun
  refine ingestInvs_refInv d.inventory hrun (ingestEmps_refInv _ d.employees _ ?_)
  refine ⟨h.pmap, ?_, h.emap, h.cmap, h.sl, h.salec, ?_, h.salee⟩
  · intro k sid hk
    rcases mget_mset_cases _ _ _ _ _ hk with ⟨hkk, hsid⟩ | hold
    · subst hsid
      exact ⟨_, List.mem_append_right _ (List.Mem.head _), rfl⟩
    · exact refsRow_append _ (h.smap k sid hold)
  · intro r hr
    exact refsRow_append _ (h.salest r hr)

theorem ingestCatalog_refInv (docs : List StoreDoc) :
    ∀ {st st' : IngestSt}, ingestCatalog st docs = some st' → RefInv st → RefInv st' := by
  induction docs with
  | nil =>
    intro st st' hrun h
    cases hrun
    exact h
  | cons d rest ih =>
    intro st st' hrun h
    unfold ingestCatalog at hrun
    split at hrun
    · cases hrun
    · next st1 heq => exact ih hrun (ingestStoreDoc_refInv heq h)

theorem ensureCust_refInv (st : IngestSt) (c : CustDoc) (h : RefInv st) :
    RefInv (ensureCust st c) := by
  by_cases hc : (mget st.customers_map c.email).isSome
  · rw [ensureCust_of_mem st c hc]
    exact h
  · rw [ensureCust_of_new st c (Option.not_isSome_iff_eq_none.mp hc)]
    refine ⟨h.pmap, h.smap, h.emap, ?_, h.sl, ?_, h.salest, h.salee⟩
    · intro k cid hk
      rcases mget_mset_cases _ _ _ _ _ hk with ⟨hkk, hcid⟩ | hold
      · subst hcid
        exact ⟨_, List.mem_append_right _ (List.Mem.head _), rfl⟩
      · exact refsRow_append _ (h.cmap k cid hold)
    · intro r hr
      exact refsRow_append _ (h.salec r hr)

theorem ingestLines_refInv (sale_id : Nat) (lines : List LineDoc) :
    ∀ (st : IngestSt) (line_no : Nat), RefInv st →
      RefInv (ingestLines sale_id st line_no lines) := by
  induction lines with
  | nil =>
    intro st line_no h
    exact h
  | cons ln rest ih =>
    intro st line_no h
    unfold ingestLines
    cases hget : mget st.product_map ln.product.name with
    | none => exact ih st line_no h
    | some prod_id =>
      refine ih _ (line_no + 1) ?_
      refine ⟨h.pmap, h.smap, h.emap, h.cmap, ?_, h.salec, h.salest, h.salee⟩
      intro r hr
      rcases List.mem_append.mp hr with hold | hnew
      · exact h.sl r hold
      · rw [List.mem_singleton] at hnew
        subst hnew
        exact h.pmap _ _ hget

theorem ingestSaleFrom_refInv {st1 st' : IngestSt} {sale : SaleDoc}
    (hrun : ingestSaleFrom st1 sale = some st') (h : RefInv st1) : RefInv st' := by
  unfold ingestSaleFrom at hrun
  split at hrun
  · cases hrun
  · next store_id hst =>
    split at hrun
    · cases hrun
    · next employee_id hemp =>
      split at hrun
      · cases hrun
      · next cid hcid =>
        cases hrun
        refine ingestLines_refInv _ sale.lines _ 1 ?_
        refine ⟨h.pmap, h.smap, h.emap, h.cmap, ?_, ?_, ?_, ?_⟩
        · intro r hr
          exact h.sl r hr
        · intro r hr
          rcases List.mem_append.mp hr with hold | hnew
          · exact h.salec r hold
          · rw [List.mem_singleton] at hnew
            subst hnew
            exact h.cmap _ _ hcid
        · intro r hr
          rcases List.mem_append.mp hr with hold | hnew
          · exact h.salest r hold
          · rw [List.mem_singleton] at hnew
            subst hnew
            exact h.smap _ _ hst
        · intro r hr
          rcases List.mem_append.mp hr with hold | hnew
          · exact h.salee r hold
          · rw [List.mem_singleton] at hnew
            subst hnew
            exact h.emap _ _ hemp

theorem ingestSale_refInv {st st' : IngestSt} {s : SaleDoc}
    (hrun : ingestSale st s = some st') (h : RefInv st) : RefInv st' :=
  ingestSaleFrom_refInv hrun (ensureCust_refInv st s.customer h)

theorem ingestSales_refInv (sales : List SaleDoc) :
    ∀ {st st' : IngestSt}, ingestSales st sales = some st' → RefInv st → RefInv st' := by
  induction sales with
  | nil =>
    intro st st' hrun h
    cases hrun
    exact h
  | cons s rest ih =>
    intro st st' hrun h
    unfold ingestSales at hrun
    split at hrun
    · cases hrun
    · next st1 heq => exact ih hrun (ingestSale_refInv heq h)

theorem loadState_refInv {catalog : List StoreDoc} {sales_docs : List SaleDoc}
    {st' : IngestSt} (hrun : loadState catalog sales_docs = some st') : RefInv st' := by
  unfold loadState at hrun
  split at hrun
  · cases hrun
  · next st1 heq =>
    exact ingestSales_refInv _ hrun (ingestCatalog_refInv _ heq refInv_initSt)

theorem ingestLines_saleline_count (sale_id : Nat) (lines : List LineDoc) :
    ∀ (st : IngestSt) (line_no : Nat),
      (ingestLines sale_id st line_no lines).db.saleline.length =
        st.db.saleline.length +
          (lines.filter (fun ln => (mget st.product_map ln.product.name).isSome)).length := by
  induction lines with
  | nil =>
    intro st line_no
    simp [ingestLines]
  | cons ln rest ih =>
    intro st line_no
    unfold ingestLines
    cases hget : mget st.product_map ln.product.name with
    | none =>
      rw [ih st line_no]
      have hp : (mget st.product_map ln.product.name).isSome = false := by
        rw [hget]
        rfl
      simp [List.filter_cons, hp]
    | some prod_id =>
      have key := ih { st with db := (copy_rows st.db "saleline"
        ["sale_id", "line_number", "product_id", "quantity", "unit_price", "line_total"]
        [[Value.n sale_id, Value.n line_no, Value.n prod_id, Value.n ln.quantity,
          Value.q ln.product.price, Value.q ln.line_total]]) } (line_no + 1)
      rw [key]
      have hp : (mget st.product_map ln.product.name).isSome = true := by
        rw [hget]
        rfl
      have hlen : ({ st with db := (copy_rows st.db "saleline"
          ["sale_id", "line_number", "product_id", "quantity", "unit_price", "line_total"]
          [[Value.n sale_id, Value.n line_no, Value.n prod_id, Value.n ln.quantity,
            Value.q ln.product.price, Value.q ln.line_total]]) } : IngestSt).db.saleline.length
          = st.db.saleline.length + 1 := by
        show (st.db.saleline ++ [_]).length = _
        simp
      rw [hlen]
      have hpm : ({ st with db := (copy_rows st.db "saleline"
          ["sale_id", "line_number", "product_id", "quantity", "unit_price", "line_total"]
          [[Value.n sale_id, Value.n line_no, Value.n prod_id, Value.n ln.quantity,
            Value.q ln.product.price, Value.q ln.line_total]]) } : IngestSt).product_map
          = st.product_map := rfl
      rw [hpm]
      simp [List.filter_cons, hp]
      omega

theorem ensureCust_frame (st : IngestSt) (c : CustDoc) :
    (ensureCust st c).product_map = st.product_map ∧
    (ensureCust st c).db.saleline = st.db.saleline := by
  by_cases hc : (mget st.customers_map c.email).isSome
  · rw [ensureCust_of_mem st c hc]
    exact ⟨rfl, rfl⟩
  · rw [ensureCust_of_new st c (Option.not_isSome_iff_eq_none.mp hc)]
    exact ⟨rfl, rfl⟩

theorem ingestSaleFrom_count {st1 st' : IngestSt} {sale : SaleDoc}
    (hrun : ingestSaleFrom st1 sale = some st') :
    st'.db.saleline.length = st1.db.saleline.length +
      (sale.lines.filter (fun ln => (mget st1.product_map ln.product.name).isSome)).length ∧
    st'.product_map = st1.product_map := by
  unfold ingestSaleFrom at hrun
  split at hrun
  · cases hrun
  · next store_id hst =>
    split at hrun
    · cases hrun
    · next employee_id hemp =>
      split at hrun
      · cases hrun
      · next cid hcid =>
        cases hrun
        constructor
        · exact ingestLines_saleline_count st1.next_sale sale.lines _ 1
        · exact (ingestLines_frames st1.next_sale sale.lines _ 1).2.2.1

theorem ingestSale_count {st st' : IngestSt} {s : SaleDoc}
    (hrun : ingestSale st s = some st') :
    st'.db.saleline.length = st.db.saleline.length +
      (s.lines.filter (fun ln => (mget st.product_map ln.product.name).isSome)).length ∧
    st'.product_map = st.product_map := by
  have hf := ensureCust_frame st s.customer
  obtain ⟨h1, h2⟩ := ingestSaleFrom_count hrun
  constructor
  · rw [h1, hf.2, hf.1]
  · exact h2.trans hf.1

theorem ingestSales_count (sales : List SaleDoc) :
    ∀ {st st' : IngestSt}, ingestSales st sales = some st' →
      st'.db.saleline.length = st.db.saleline.length +
        (sales.map (fun s => (s.lines.filter
          (fun ln => (mget st.product_map ln.product.name).isSome)).length)).sum ∧
      st'.product_map = st.product_map := by
  induction sales with
  | nil =>
    intro st st' hrun
    cases hrun
    simp
  | cons s rest ih =>
    intro st st' hrun
    unfold ingestSales at hrun
    split at hrun
    · cases hrun
    · next st1 heq =>
      obtain ⟨c1, c2⟩ := ingestSale_count heq
      obtain ⟨d1, d2⟩ := ih hrun
      constructor
      · rw [d1, c2, c1]
        simp [List.sum_cons]
        omega
      · exact d2.trans c2

/-- C1: `load_postgres_from_json` maintains referential integrity.  On every
run that completes: every `saleline` row's `product_id` (column 2) is the id of
a `product` row of the same run, every `sale` row's `customer_id`, `store_id`
and `employee_id` (columns 2, 3, 4) are ids of `customer`, `store` and
`employee` rows of the same run (the invariant `RefInv` is established step by
step, so each referenced row exists already when the referencing row is
copied), and the number of `saleline` rows is exactly the number of sale lines
whose product name has an entry in `product_map` — a line with no entry is not
inserted at all. -/
theorem c1_referential_integrity (catalog : List StoreDoc) (sales_docs : List SaleDoc)
    (st : IngestSt) (h : loadState catalog sales_docs = some st) :
    (∀ r ∈ st.db.saleline, refsRow st.db.product (r.get? 2)) ∧
    (∀ r ∈ st.db.sale, refsRow st.db.customer (r.get? 2) ∧
      refsRow st.db.store (r.get? 3) ∧ refsRow st.db.employee (r.get? 4)) ∧
    st.db.saleline.length =
      (sales_docs.map (fun s => (s.lines.filter
        (fun ln => (mget st.product_map ln.product.name).isSome)).length)).sum := by
  have hi := loadState_refInv h
  refine ⟨hi.sl, fun r hr => ⟨hi.salec r hr, hi.salest r hr, hi.salee r hr⟩, ?_⟩
  unfold loadState at h
  split at h
  · cases h
  · next st1 heq =>
    obtain ⟨c1, c2⟩ := ingestSales_count sales_docs h
    obtain ⟨st1b, hrun1, hinv1, f1, f2, f3, f4, f5, f6⟩ :=
      ingestCatalog_catInv catalog [] initSt catInv_initSt
    rw [heq] at hrun1
    have hb : st1 = st1b := (Option.some.injEq _ _).mp hrun1
    have hsl : st1.db.saleline = [] := by
      rw [hb]
      exact f6.trans rfl
    rw [c1, c2, hsl]
    simp

/-- Witness for C1, at a one-store catalog with one inventory entry and one
sale with one line; the run hypothesis is discharged by computation. -/
theorem c1_referential_integrity_witness :
    ∃ st, loadState
        [⟨"S1", "addr", [⟨"F", "L", "P"⟩], [⟨⟨"pn", "cn", 5⟩, 3⟩]⟩]
        [⟨TsVal.str "t", "S1", "F", "L", ⟨"cf", "cl", "em"⟩,
          [⟨⟨"pn", "cn", 5⟩, 2, 10⟩], 10⟩] = some st ∧
      (∀ r ∈ st.db.saleline, refsRow st.db.product (r.get? 2)) ∧
      (∀ r ∈ st.db.sale, refsRow st.db.customer (r.get? 2) ∧
        refsRow st.db.store (r.get? 3) ∧ refsRow st.db.employee (r.get? 4)) ∧
      st.db.saleline.length =
        ([⟨TsVal.str "t", "S1", "F", "L", ⟨"cf", "cl", "em"⟩,
          [⟨⟨"pn", "cn", 5⟩, 2, 10⟩], 10⟩].map (fun s : SaleDoc => (s.lines.filter
            (fun ln => (mget st.product_map ln.product.name).isSome)).length)).sum := by
  have hrun : ∃ st, loadState
      [⟨"S1", "addr", [⟨"F", "L", "P"⟩], [⟨⟨"pn", "cn", 5⟩, 3⟩]⟩]
      [⟨TsVal.str "t", "S1", "F", "L", ⟨"cf", "cl", "em"⟩,
        [⟨⟨"pn", "cn", 5⟩, 2, 10⟩], 10⟩] = some st := ⟨_, rfl⟩
  obtain ⟨st, hst⟩ := hrun
  obtain ⟨p1, p2, p3⟩ := c1_referential_integrity _ _ st hst
  exact ⟨st, hst, p1, p2, p3⟩

theorem ensureCust_sale_frame (st : IngestSt) (c : CustDoc) :
    (ensureCust st c).db.sale = st.db.sale := by
  by_cases hc : (mget st.customers_map c.email).isSome
  · rw [ensureCust_of_mem st c hc]
  · rw [ensureCust_of_new st c (Option.not_isSome_iff_eq_none.mp hc)]

theorem ingestSaleFrom_sale_count {st1 st' : IngestSt} {sale : SaleDoc}
    (hrun : ingestSaleFrom st1 sale = some st') :
    st'.db.sale.length = st1.db.sale.length + 1 := by
  unfold ingestSaleFrom at hrun
  split at hrun
  · cases hrun
  · next store_id hst =>
    split at hrun
    · cases hrun
    · next employee_id hemp =>
      split at hrun
      · cases hrun
      · next cid hcid =>
        cases hrun
        obtain ⟨l1, l2, l3, l4, l5, l6, l7, l8, l9, l10, l11, l12, l13, l14, l15,
          l16, l17⟩ := ingestLines_frames st1.next_sale sale.lines _ 1
        rw [l17]
        show (st1.db.sale ++ [_]).length = _
        simp

theorem ingestSale_sale_count {st st' : IngestSt} {s : SaleDoc}
    (hrun : ingestSale st s = some st') :
    st'.db.sale.length = st.db.sale.length + 1 := by
  have h1 := ingestSaleFrom_sale_count hrun
  rw [h1, ensureCust_sale_frame]

theorem ingestSales_sale_count (sales : List SaleDoc) :
    ∀ {st st' : IngestSt}, ingestSales st sales = some st' →
      st'.db.sale.length = st.db.sale.length + sales.length := by
  induction sales with
  | nil =>
    intro st st' hrun
    cases hrun
    simp
  | cons s rest ih =>
    intro st st' hrun
    unfold ingestSales at hrun
    split at hrun
    · cases hrun
    · next st1 heq =>
      have c1 := ingestSale_sale_count heq
      have d1 := ih hrun
      rw [d1, c1]
      simp
      omega

/-- C4 (amended): the scripts install no recovery, retry or partial-failure
handler — a failed dictionary lookup (`KeyError`) or client-library error
aborts the whole run with nothing committed (`load_postgres_from_json` returns
an error exactly when its body does) — with one exception to "no input record
is ever silently dropped": the sale-lines loop reads `product_map.get(...)`
and `continue`s past a line whose product name is unknown, so such lines are
silently dropped while every sale document still yields exactly one `sale` row
and every other line yields exactly one `saleline` row. -/
theorem c4_errors_propagate_only_saleline_skip (catalog : List StoreDoc)
    (sales_docs : List SaleDoc) :
    (load_postgres_from_json catalog sales_docs = none ↔
      loadState catalog sales_docs = none) ∧
    (∀ db, load_postgres_from_json catalog sales_docs = some db →
      db.sale.length = sales_docs.length ∧
      ∃ st, loadState catalog sales_docs = some st ∧
        db.saleline.length = (sales_docs.map (fun s => (s.lines.filter
          (fun ln => (mget st.product_map ln.product.name).isSome)).length)).sum) := by
  constructor
  · unfold load_postgres_from_json
    cases hls : loadState catalog sales_docs with
    | none => simp
    | some st => simp
  · intro db hdb
    unfold load_postgres_from_json at hdb
    cases hls : loadState catalog sales_docs with
    | none =>
      rw [hls] at hdb
      cases hdb
    | some st =>
      rw [hls] at hdb
      have hdb' : { st.db with events := st.db.events ++ [Ev.commit] } = db :=
        (Option.some.injEq _ _).mp hdb
      obtain ⟨p1, p2, p3⟩ := c1_referential_integrity catalog sales_docs st hls
      have hsale : db.sale = st.db.sale := by rw [← hdb']
      have hsl : db.saleline = st.db.saleline := by rw [← hdb']
      constructor
      · rw [hsale]
        unfold loadState at hls
        split at hls
        · cases hls
        · next st1 heq =>
          have hc := ingestSales_sale_count sales_docs hls
          obtain ⟨st1b, hrun1, hinv1, f1, f2, f3, f4, f5, f6⟩ :=
            ingestCatalog_catInv catalog [] initSt catInv_initSt
          rw [heq] at hrun1
          have hb : st1 = st1b := (Option.some.injEq _ _).mp hrun1
          have hs0 : st1.db.sale = [] := by
            rw [hb]
            exact f5.trans rfl
          rw [hc, hs0]
          simp
      · exact ⟨st, rfl, by rw [hsl]; exact p3⟩

/-- Witness for the amended C4: at a catalog with no products and a sale whose
single line references the unknown product `ghost`, the run completes with one
sale row and zero saleline rows. -/
theorem c4_errors_propagate_only_saleline_skip_witness :
    ∃ db, load_postgres_from_json [⟨"S1", "addr", [⟨"F", "L", "P"⟩], []⟩]
        [⟨TsVal.str "t", "S1", "F", "L", ⟨"cf", "cl", "em"⟩,
          [⟨⟨"ghost", "cn", 5⟩, 2, 10⟩], 10⟩] = some db ∧
      db.sale.length = 1 ∧
      ∃ st, loadState [⟨"S1", "addr", [⟨"F", "L", "P"⟩], []⟩]
          [⟨TsVal.str "t", "S1", "F", "L", ⟨"cf", "cl", "em"⟩,
            [⟨⟨"ghost", "cn", 5⟩, 2, 10⟩], 10⟩] = some st ∧
        db.saleline.length =
          ([⟨TsVal.str "t", "S1", "F", "L", ⟨"cf", "cl", "em"⟩,
            [⟨⟨"ghost", "cn", 5⟩, 2, 10⟩], 10⟩].map (fun s : SaleDoc =>
              (s.lines.filter
                (fun ln => (mget st.product_map ln.product.name).isSome)).length)).sum := by
  have hdb : ∃ db, load_postgres_from_json [⟨"S1", "addr", [⟨"F", "L", "P"⟩], []⟩]
      [⟨TsVal.str "t", "S1", "F", "L", ⟨"cf", "cl", "em"⟩,
        [⟨⟨"ghost", "cn", 5⟩, 2, 10⟩], 10⟩] = some db := ⟨_, rfl⟩
  obtain ⟨db, hdb⟩ := hdb
  obtain ⟨hn, hs⟩ := c4_errors_propagate_only_saleline_skip
    [⟨"S1", "addr", [⟨"F", "L", "P"⟩], []⟩]
    [⟨TsVal.str "t", "S1", "F", "L", ⟨"cf", "cl", "em"⟩,
      [⟨⟨"ghost", "cn", 5⟩, 2, 10⟩], 10⟩]
  obtain ⟨hlen, st, hst, hcount⟩ := hs db hdb
  exact ⟨db, hdb, hlen, st, hst, hcount⟩

/-- Counterexample to C4 as stated: at a catalog with no products and a sale
whose single line references the unknown product `ghost`, the run completes
normally (no error reaches the process boundary) yet the line is silently
dropped: the saleline table stays empty while the sale row is inserted. -/
theorem c4_silent_drop_counterexample :
    (loadState [⟨"S1", "addr", [⟨"F", "L", "P"⟩], []⟩]
        [⟨TsVal.str "t", "S1", "F", "L", ⟨"cf", "cl", "em"⟩,
          [⟨⟨"ghost", "cn", 5⟩, 2, 10⟩], 10⟩]).map
      (fun st => (st.db.saleline, st.db.sale.length)) = some ([], 1) := by decide

/-! ## C2: the JSON document pipeline as a renormalization of the base data -/

theorem mapO_map {α β : Type} (f : α → Option β) (g : α → β) (l : List α)
    (h : ∀ a ∈ l, f a = some (g a)) : mapO f l = some (l.map g) := by
  induction l with
  | nil => rfl
  | cons a t ih =>
    unfold mapO
    rw [h a (List.mem_cons_self a t), ih (fun b hb => h b (List.mem_cons_of_mem a hb))]
    rfl

theorem mget_map_pairs {α K V : Type} [DecidableEq K] [BEq K] [LawfulBEq K]
    (f : α → K) (g : α → V) (l : List α) (k : K) :
    mget (l.map (fun a => (f a, g a))) k = (l.find? (fun a => f a == k)).map g := by
  induction l with
  | nil => rfl
  | cons a t ih =>
    show (if f a = k then some (g a) else mget (t.map _) k) = _
    by_cases h : f a = k
    · rw [if_pos h, List.find?_cons_of_pos _ (by simp [h])]
      rfl
    · rw [if_neg h, ih, List.find?_cons_of_neg _ (by simp [h])]

theorem foldl_mset_fresh {α K V : Type} [DecidableEq K] (f : α → K) (g : α → V)
    (l : List α) :
    ∀ (m : List (K × V)), (∀ a ∈ l, mget m (f a) = none) → (l.map f).Nodup →
      l.foldl (fun m a => mset m (f a) (g a)) m = m ++ l.map (fun a => (f a, g a)) := by
  induction l with
  | nil =>
    intro m _ _
    simp
  | cons a t ih =>
    intro m hfresh hnd
    rw [List.map_cons, List.nodup_cons] at hnd
    simp only [List.foldl_cons]
    rw [mset_eq_append _ _ _ (hfresh a (List.mem_cons_self a t))]
    have h1 : ∀ b ∈ t, mget (m ++ [(f a, g a)]) (f b) = none := by
      intro b hb
      rw [mget_append_of_none _ _ _ (hfresh b (List.mem_cons_of_mem a hb))]
      show (if f a = f b then some (g a) else none) = none
      rw [if_neg ?hne]
      case hne =>
        intro he
        exact hnd.1 (by rw [he]; exact List.mem_map_of_mem f hb)
    rw [ih (m ++ [(f a, g a)]) h1 hnd.2]
    simp

theorem mget_foldl_mset {α K V : Type} [DecidableEq K] [BEq K] [LawfulBEq K]
    (f : α → K) (g : α → V) (l : List α) (hnd : (l.map f).Nodup) (k : K) :
    mget (l.foldl (fun m a => mset m (f a) (g a)) []) k =
      (l.find? (fun a => f a == k)).map g := by
  rw [foldl_mset_fresh f g l [] (fun a _ => rfl) hnd]
  show mget (l.map _) k = _
  exact mget_map_pairs f g l k

theorem find?_key_self {α K : Type} [BEq K] [LawfulBEq K] (f : α → K) (l : List α)
    (hnd : (l.map f).Nodup) (a : α) (ha : a ∈ l) :
    l.find? (fun b => f b == f a) = some a := by
  induction l with
  | nil => cases ha
  | cons b t ih =>
    rw [List.map_cons, List.nodup_cons] at hnd
    by_cases h : f b = f a
    · rw [List.find?_cons_of_pos _ (by simp [h])]
      rcases List.mem_cons.mp ha with rfl | hat
      · rfl
      · exact absurd (by rw [h]; exact List.mem_map_of_mem f hat) hnd.1
    · rw [List.find?_cons_of_neg _ (by simp [h])]
      rcases List.mem_cons.mp ha with rfl | hat
      · exact absurd rfl h
      · exact ih hnd.2 hat

theorem dedupFirst_map_inj {α β : Type} [DecidableEq α] [DecidableEq β] (f : α → β)
    (l : List α) (hinj : ∀ a ∈ l, ∀ b ∈ l, f a = f b → a = b) :
    dedupFirst (l.map f) = (dedupFirst l).map f := by
  induction l using List.reverseRecOn with
  | nil => rfl
  | append_singleton t a ih =>
    have hmap : (t ++ [a]).map f = t.map f ++ [f a] := by simp
    have hinjt : ∀ x ∈ t, ∀ y ∈ t, f x = f y → x = y := fun x hx y hy =>
      hinj x (List.mem_append_left _ hx) y (List.mem_append_left _ hy)
    rw [hmap, dedupFirst_append_singleton, dedupFirst_append_singleton, ih hinjt]
    by_cases hm : a ∈ dedupFirst t
    · rw [if_pos hm, if_pos (List.mem_map_of_mem f hm)]
    · have hn : f a ∉ (dedupFirst t).map f := by
        intro hfa
        obtain ⟨b, hb, hfb⟩ := List.mem_map.mp hfa
        have hbt := (mem_dedupFirst t b).mp hb
        have hba : b = a := hinj b (List.mem_append_left _ hbt) a
          (List.mem_append_right _ (List.mem_singleton_self a)) hfb
        exact hm (hba ▸ hb)
      rw [if_neg hm, if_neg hn]
      simp

theorem count_flatMap_eq_sum {α K : Type} [DecidableEq α] (l : List K)
    (f : K → List α) (a : α) :
    (l.flatMap f).count a = (l.map (fun k => (f k).count a)).sum := by
  induction l with
  | nil => rfl
  | cons k t ih => simp [List.flatMap_cons, List.count_append, ih]

theorem sum_map_ite_mem {K : Type} [DecidableEq K] (ks : List K) (k : K) (c : Nat)
    (hnd : ks.Nodup) (hk : k ∈ ks) :
    (ks.map (fun x => if k = x then c else 0)).sum = c := by
  induction ks with
  | nil => cases hk
  | cons b t ih =>
    rw [List.nodup_cons] at hnd
    by_cases h : k = b
    · subst h
      have hz : (t.map (fun x => if k = x then c else 0)).sum = 0 := by
        have hc : t.map (fun x => if k = x then c else 0) = t.map (fun _ => 0) :=
          List.map_congr_left (fun x hx => if_neg (fun he => hnd.1 (by rw [he]; exact hx)))
        rw [hc]
        simp
      simp [hz]
    · rcases List.mem_cons.mp hk with rfl | hkt
      · exact absurd rfl h
      · simp [h, ih hnd.2 hkt]

theorem flatMap_filter_perm {α K : Type} [DecidableEq α] [DecidableEq K] [BEq K]
    [LawfulBEq K] (key : α → K) (ks : List K) (l : List α)
    (hnd : ks.Nodup) (hfk : ∀ a ∈ l, key a ∈ ks) :
    (ks.flatMap (fun k => l.filter (fun a => key a == k))).Perm l := by
  rw [List.perm_iff_count]
  intro a
  rw [count_flatMap_eq_sum]
  by_cases hal : a ∈ l
  · have hcf : ∀ k, (l.filter (fun x => key x == k)).count a =
        if key a = k then l.count a else 0 := by
      intro k
      by_cases h : key a = k
      · rw [if_pos h]
        exact List.count_filter (by simp [h])
      · rw [if_neg h, List.count_eq_zero]
        intro hm
        have h2 := List.of_mem_filter hm
        rw [beq_iff_eq] at h2
        exact h h2
    rw [List.map_congr_left (fun k _ => hcf k)]
    exact sum_map_ite_mem ks (key a) _ hnd (hfk a hal)
  · rw [List.count_eq_zero.mpr hal]
    have hz : ks.map (fun k => (l.filter (fun x => key x == k)).count a) =
        ks.map (fun _ => 0) :=
      List.map_congr_left (fun k _ =>
        List.count_eq_zero.mpr (fun hm => hal (List.mem_of_mem_filter hm)))
    rw [hz]
    simp

/-- The base product with a given id (total form of the `prod_by_id` lookup). -/
def prodAt (products : List Base.Product) (pid : Nat) : Base.Product :=
  (products.find? (fun p => p.product_id == pid)).getD ⟨0, "", 0, 0⟩

/-- The base category with a given id. -/
def catAt (categories : List Base.Category) (cid : Nat) : Base.Category :=
  (categories.find? (fun c => c.category_id == cid)).getD ⟨0, ""⟩

/-- The base store with a given id. -/
def storeAt (stores : List Base.Store) (sid : Nat) : Base.Store :=
  (stores.find? (fun s => s.store_id == sid)).getD ⟨0, "", ""⟩

/-- The base employee with a given id. -/
def empAt (employees : List Base.Employee) (eid : Nat) : Base.Employee :=
  (employees.find? (fun e => e.employee_id == eid)).getD ⟨0, "", "", "", 0⟩

/-- The base customer with a given id. -/
def custAt (customers : List Base.Customer) (cid : Nat) : Base.Customer :=
  (customers.find? (fun c => c.customer_id == cid)).getD ⟨0, "", "", ""⟩

/-- The inventory entries grouped by store, in store order. -/
def invSeq (stores : List Base.Store) (inventory : List Base.InvEntry) :
    List Base.InvEntry :=
  stores.flatMap (fun s => inventory.filter (fun i => i.store_id == s.store_id))

/-- The employees grouped by store, in store order. -/
def empSeq (stores : List Base.Store) (employees : List Base.Employee) :
    List Base.Employee :=
  stores.flatMap (fun s => employees.filter (fun e => e.store_id == s.store_id))

/-- The base products referenced by the inventory entries, in encounter order,
with multiplicity. -/
def invProds (products : List Base.Product) (stores : List Base.Store)
    (inventory : List Base.InvEntry) : List Base.Product :=
  (invSeq stores inventory).map (fun i => prodAt products i.product_id)

/-- The distinct products appearing in some inventory entry, in encounter
order. -/
def refProds (products : List Base.Product) (stores : List Base.Store)
    (inventory : List Base.InvEntry) : List Base.Product :=
  dedupFirst (invProds products stores inventory)

/-- The distinct categories referenced via some inventoried product, in
encounter order. -/
def refCats (categories : List Base.Category) (products : List Base.Product)
    (stores : List Base.Store) (inventory : List Base.InvEntry) :
    List Base.Category :=
  dedupFirst ((invProds products stores inventory).map
    (fun p => catAt categories p.category_id))

/-- The distinct customers appearing in some sale, in encounter order. -/
def refCusts (customers : List Base.Customer) (sales_hdr : List Base.SaleHdr) :
    List Base.Customer :=
  dedupFirst (sales_hdr.map (fun sh => custAt customers sh.customer_id))

/-- The embedded product object of a base product. -/
def toProdDoc (categories : List Base.Category) (p : Base.Product) : ProdDoc :=
  ⟨p.name, (catAt categories p.category_id).name, p.price⟩

/-- The embedded employee objects of a store. -/
def empDocsOf (employees : List Base.Employee) (s : Base.Store) : List EmpDoc :=
  (employees.filter (fun e => e.store_id == s.store_id)).map
    (fun e => ⟨e.first_name, e.last_name, e.position⟩)

/-- The embedded inventory objects of a store. -/
def invDocsOf (categories : List Base.Category) (products : List Base.Product)
    (inventory : List Base.InvEntry) (s : Base.Store) : List InvDoc :=
  (inventory.filter (fun i => i.store_id == s.store_id)).map
    (fun i => ⟨toProdDoc categories (prodAt products i.product_id), i.quantity⟩)

/-- The store document the generator builds for a base store. -/
def storeDocOf (categories : List Base.Category) (products : List Base.Product)
    (employees : List Base.Employee) (inventory : List Base.InvEntry)
    (s : Base.Store) : StoreDoc :=
  ⟨s.name, s.address, empDocsOf employees s,
    invDocsOf categories products inventory s⟩

/-- The embedded line object of a base sale line. -/
def lineDocOf (categories : List Base.Category) (products : List Base.Product)
    (ln : Base.SaleLineRec) : LineDoc :=
  ⟨toProdDoc categories (prodAt products ln.product_id), ln.quantity, ln.line_total⟩

/-- The sale document the generator builds for a base sale header. -/
def saleDocOf (categories : List Base.Category) (products : List Base.Product)
    (stores : List Base.Store) (employees : List Base.Employee)
    (customers : List Base.Customer) (sale_lines : List Base.SaleLineRec)
    (sh : Base.SaleHdr) : SaleDoc :=
  ⟨JsonGen.mongo_date sh.timestamp, (storeAt stores sh.store_id).name,
    (empAt employees sh.employee_id).first_name,
    (empAt employees sh.employee_id).last_name,
    ⟨(custAt customers sh.customer_id).first_name,
      (custAt customers sh.customer_id).last_name,
      (custAt customers sh.customer_id).email⟩,
    (sale_lines.filter (fun ln => ln.sale_id == sh.sale_id)).map
      (lineDocOf categories products),
    sh.total_amount⟩

theorem mget_prod_by_id (products : List Base.Product)
    (hpid : (products.map Base.Product.product_id).Nodup) (pid : Nat) :
    mget (JsonGen.prod_by_id products) pid =
      products.find? (fun p => p.product_id == pid) := by
  have h := mget_foldl_mset Base.Product.product_id (fun p => p) products hpid pid
  simpa [JsonGen.prod_by_id] using h

theorem mget_cat_by_id (categories : List Base.Category)
    (hcid : (categories.map Base.Category.category_id).Nodup) (cid : Nat) :
    mget (JsonGen.cat_by_id categories) cid =
      (categories.find? (fun c => c.category_id == cid)).map Base.Category.name := by
  have h := mget_foldl_mset Base.Category.category_id Base.Category.name categories hcid cid
  simpa [JsonGen.cat_by_id] using h

theorem mget_store_by_id (stores : List Base.Store)
    (hsid : (stores.map Base.Store.store_id).Nodup) (sid : Nat) :
    mget (JsonGen.store_by_id stores) sid =
      stores.find? (fun s => s.store_id == sid) := by
  have h := mget_foldl_mset Base.Store.store_id (fun s => s) stores hsid sid
  simpa [JsonGen.store_by_id] using h

theorem mget_emp_by_id (employees : List Base.Employee)
    (heid : (employees.map Base.Employee.employee_id).Nodup) (eid : Nat) :
    mget (JsonGen.emp_by_id employees) eid =
      employees.find? (fun e => e.employee_id == eid) := by
  have h := mget_foldl_mset Base.Employee.employee_id (fun e => e) employees heid eid
  simpa [JsonGen.emp_by_id] using h

theorem mget_cust_by_id (customers : List Base.Customer)
    (huid : (customers.map Base.Customer.customer_id).Nodup) (cid : Nat) :
    mget (JsonGen.cust_by_id customers) cid =
      customers.find? (fun c => c.customer_id == cid) := by
  have h := mget_foldl_mset Base.Customer.customer_id (fun c => c) customers huid cid
  simpa [JsonGen.cust_by_id] using h

theorem embedInv_eq (categories : List Base.Category) (products : List Base.Product)
    (hpid : (products.map Base.Product.product_id).Nodup)
    (hcid : (categories.map Base.Category.category_id).Nodup)
    (hfk_pc : ∀ p ∈ products, p.category_id ∈ categories.map Base.Category.category_id)
    (i : Base.InvEntry) (hip : i.product_id ∈ products.map Base.Product.product_id) :
    JsonGen.embedInv categories products i =
      some ⟨toProdDoc categories (prodAt products i.product_id), i.quantity⟩ := by
  obtain ⟨p, hp, hpe⟩ := List.mem_map.mp hip
  have hfp : products.find? (fun q => q.product_id == i.product_id) = some p := by
    rw [← hpe]
    exact find?_key_self Base.Product.product_id products hpid p hp
  obtain ⟨c, hc, hce⟩ := List.mem_map.mp (hfk_pc p hp)
  have hfc : categories.find? (fun c2 => c2.category_id == p.category_id) = some c := by
    rw [← hce]
    exact find?_key_self Base.Category.category_id categories hcid c hc
  have hpa : prodAt products i.product_id = p := by
    unfold prodAt
    rw [hfp]
    rfl
  have hca : catAt categories p.category_id = c := by
    unfold catAt
    rw [hfc]
    rfl
  unfold JsonGen.embedInv
  simp only [mget_prod_by_id products hpid, hfp, mget_cat_by_id categories hcid, hfc,
    hpa, toProdDoc, hca, Option.map_some']

theorem embedLine_eq (categories : List Base.Category) (products : List Base.Product)
    (hpid : (products.map Base.Product.product_id).Nodup)
    (hcid : (categories.map Base.Category.category_id).Nodup)
    (hfk_pc : ∀ p ∈ products, p.category_id ∈ categories.map Base.Category.category_id)
    (ln : Base.SaleLineRec)
    (hip : ln.product_id ∈ products.map Base.Product.product_id) :
    JsonGen.embedLine categories products ln =
      some (lineDocOf categories products ln) := by
  obtain ⟨p, hp, hpe⟩ := List.mem_map.mp hip
  have hfp : products.find? (fun q => q.product_id == ln.product_id) = some p := by
    rw [← hpe]
    exact find?_key_self Base.Product.product_id products hpid p hp
  obtain ⟨c, hc, hce⟩ := List.mem_map.mp (hfk_pc p hp)
  have hfc : categories.find? (fun c2 => c2.category_id == p.category_id) = some c := by
    rw [← hce]
    exact find?_key_self Base.Category.category_id categories hcid c hc
  have hpa : prodAt products ln.product_id = p := by
    unfold prodAt
    rw [hfp]
    rfl
  have hca : catAt categories p.category_id = c := by
    unfold catAt
    rw [hfc]
    rfl
  unfold JsonGen.embedLine lineDocOf
  simp only [mget_prod_by_id products hpid, hfp, mget_cat_by_id categories hcid, hfc,
    hpa, toProdDoc, hca, Option.map_some']

theorem buildStoreDoc_eq (categories : List Base.Category) (products : List Base.Product)
    (employees : List Base.Employee) (inventory : List Base.InvEntry)
    (hpid : (products.map Base.Product.product_id).Nodup)
    (hcid : (categories.map Base.Category.category_id).Nodup)
    (hfk_pc : ∀ p ∈ products, p.category_id ∈ categories.map Base.Category.category_id)
    (hfk_inv : ∀ i ∈ inventory, i.product_id ∈ products.map Base.Product.product_id)
    (s : Base.Store) :
    JsonGen.buildStoreDoc categories products employees inventory s =
      some (storeDocOf categories products employees inventory s) := by
  unfold JsonGen.buildStoreDoc
  rw [mapO_map (JsonGen.embedInv categories products)
    (fun i => ⟨toProdDoc categories (prodAt products i.product_id), i.quantity⟩)
    _ (fun i hi => embedInv_eq categories products hpid hcid hfk_pc i
        (hfk_inv i (List.mem_of_mem_filter hi)))]
  rfl

theorem store_docs_eq (categories : List Base.Category) (products : List Base.Product)
    (stores : List Base.Store) (employees : List Base.Employee)
    (inventory : List Base.InvEntry)
    (hpid : (products.map Base.Product.product_id).Nodup)
    (hcid : (categories.map Base.Category.category_id).Nodup)
    (hfk_pc : ∀ p ∈ products, p.category_id ∈ categories.map Base.Category.category_id)
    (hfk_inv : ∀ i ∈ inventory, i.product_id ∈ products.map Base.Product.product_id) :
    JsonGen.store_docs categories products stores employees inventory =
      some (stores.map (storeDocOf categories products employees inventory)) := by
  unfold JsonGen.store_docs
  exact mapO_map _ _ _ (fun s _ =>
    buildStoreDoc_eq categories products employees inventory hpid hcid hfk_pc hfk_inv s)

theorem lines_by_sale_eq (sale_lines : List Base.SaleLineRec) (sid : Nat)
    (h : ∃ ln ∈ sale_lines, ln.sale_id = sid) :
    JsonGen.lines_by_sale sale_lines sid =
      some (sale_lines.filter (fun ln => ln.sale_id == sid)) := by
  have hne : sale_lines.filter (fun ln => ln.sale_id == sid) ≠ [] := by
    intro hnil
    obtain ⟨ln, hln, he⟩ := h
    have hm : ln ∈ sale_lines.filter (fun l2 => l2.sale_id == sid) :=
      List.mem_filter.mpr ⟨hln, by simp [he]⟩
    rw [hnil] at hm
    cases hm
  unfold JsonGen.lines_by_sale
  rw [if_neg (by simpa [List.isEmpty_iff] using hne)]

theorem buildSaleDoc_eq (categories : List Base.Category) (products : List Base.Product)
    (stores : List Base.Store) (employees : List Base.Employee)
    (customers : List Base.Customer) (sale_lines : List Base.SaleLineRec)
    (hpid : (products.map Base.Product.product_id).Nodup)
    (hcid : (categories.map Base.Category.category_id).Nodup)
    (hsid : (stores.map Base.Store.store_id).Nodup)
    (heid : (employees.map Base.Employee.employee_id).Nodup)
    (huid : (customers.map Base.Customer.customer_id).Nodup)
    (hfk_pc : ∀ p ∈ products, p.category_id ∈ categories.map Base.Category.category_id)
    (hlp : ∀ ln ∈ sale_lines, ln.product_id ∈ products.map Base.Product.product_id)
    (sh : Base.SaleHdr)
    (hss : sh.store_id ∈ stores.map Base.Store.store_id)
    (hse : sh.employee_id ∈ employees.map Base.Employee.employee_id)
    (hsc : sh.customer_id ∈ customers.map Base.Customer.customer_id)
    (hlines : ∃ ln ∈ sale_lines, ln.sale_id = sh.sale_id) :
    JsonGen.buildSaleDoc categories products stores employees customers sale_lines sh =
      some (saleDocOf categories products stores employees customers sale_lines sh) := by
  obtain ⟨s0, hs0, hs0e⟩ := List.mem_map.mp hss
  have hfs : stores.find? (fun q => q.store_id == sh.store_id) = some s0 := by
    rw [← hs0e]
    exact find?_key_self Base.Store.store_id stores hsid s0 hs0
  obtain ⟨e0, he0, he0e⟩ := List.mem_map.mp hse
  have hfe : employees.find? (fun q => q.employee_id == sh.employee_id) = some e0 := by
    rw [← he0e]
    exact find?_key_self Base.Employee.employee_id employees heid e0 he0
  obtain ⟨c0, hc0, hc0e⟩ := List.mem_map.mp hsc
  have hfc : customers.find? (fun q => q.customer_id == sh.customer_id) = some c0 := by
    rw [← hc0e]
    exact find?_key_self Base.Customer.customer_id customers huid c0 hc0
  have hsa : storeAt stores sh.store_id = s0 := by
    unfold storeAt
    rw [hfs]
    rfl
  have hea : empAt employees sh.employee_id = e0 := by
    unfold empAt
    rw [hfe]
    rfl
  have hcu : custAt customers sh.customer_id = c0 := by
    unfold custAt
    rw [hfc]
    rfl
  unfold JsonGen.buildSaleDoc
  simp only [mget_store_by_id stores hsid, hfs, mget_emp_by_id employees heid, hfe,
    mget_cust_by_id customers huid, hfc,
    lines_by_sale_eq sale_lines sh.sale_id hlines,
    mapO_map (JsonGen.embedLine categories products) (lineDocOf categories products)
      _ (fun ln hl => embedLine_eq categories products hpid hcid hfk_pc ln
          (hlp ln (List.mem_of_mem_filter hl)))]
  simp [saleDocOf, hsa, hea, hcu]

theorem sale_docs_eq (categories : List Base.Category) (products : List Base.Product)
    (stores : List Base.Store) (employees : List Base.Employee)
    (customers : List Base.Customer) (sales_hdr : List Base.SaleHdr)
    (sale_lines : List Base.SaleLineRec)
    (hpid : (products.map Base.Product.product_id).Nodup)
    (hcid : (categories.map Base.Category.category_id).Nodup)
    (hsid : (stores.map Base.Store.store_id).Nodup)
    (heid : (employees.map Base.Employee.employee_id).Nodup)
    (huid : (customers.map Base.Customer.customer_id).Nodup)
    (hfk_pc : ∀ p ∈ products, p.category_id ∈ categories.map Base.Category.category_id)
    (hlp : ∀ ln ∈ sale_lines, ln.product_id ∈ products.map Base.Product.product_id)
    (hss : ∀ sh ∈ sales_hdr, sh.store_id ∈ stores.map Base.Store.store_id)
    (hse : ∀ sh ∈ sales_hdr, sh.employee_id ∈ employees.map Base.Employee.employee_id)
    (hsc : ∀ sh ∈ sales_hdr, sh.customer_id ∈ customers.map Base.Customer.customer_id)
    (hlines : ∀ sh ∈ sales_hdr, ∃ ln ∈ sale_lines, ln.sale_id = sh.sale_id) :
    JsonGen.sale_docs categories products stores employees customers sales_hdr sale_lines =
      some (sales_hdr.map
        (saleDocOf categories products stores employees customers sale_lines)) := by
  unfold JsonGen.sale_docs
  exact mapO_map _ _ _ (fun sh hsh =>
    buildSaleDoc_eq categories products stores employees customers sale_lines
      hpid hcid hsid heid huid hfk_pc hlp sh (hss sh hsh) (hse sh hsh) (hsc sh hsh)
      (hlines sh hsh))

theorem ensureCust_map_frame (st : IngestSt) (c : CustDoc) :
    (ensureCust st c).store_map = st.store_map ∧
    (ensureCust st c).employee_map = st.employee_map := by
  by_cases hc : (mget st.customers_map c.email).isSome
  · rw [ensureCust_of_mem st c hc]
    exact ⟨rfl, rfl⟩
  · rw [ensureCust_of_new st c (Option.not_isSome_iff_eq_none.mp hc)]
    exact ⟨rfl, rfl⟩

theorem mget_ensureCust_self (st : IngestSt) (c : CustDoc) :
    (mget (ensureCust st c).customers_map c.email).isSome := by
  by_cases hc : (mget st.customers_map c.email).isSome
  · rw [ensureCust_of_mem st c hc]
    exact hc
  · rw [ensureCust_of_new st c (Option.not_isSome_iff_eq_none.mp hc)]
    show (mget (mset st.customers_map c.email st.next_cust) c.email).isSome
    rw [mget_mset_self]
    rfl

theorem ingestSale_success (st : IngestSt) (s : SaleDoc)
    (hst : (mget st.store_map s.store_name).isSome)
    (hemp : ∀ sid, mget st.store_map s.store_name = some sid →
      (mget st.employee_map (s.emp_first, s.emp_last, sid)).isSome) :
    ∃ st', ingestSale st s = some st' := by
  obtain ⟨sid, hsid⟩ := Option.isSome_iff_exists.mp hst
  obtain ⟨eid, heid⟩ := Option.isSome_iff_exists.mp (hemp sid hsid)
  obtain ⟨cid, hcid⟩ := Option.isSome_iff_exists.mp (mget_ensureCust_self st s.customer)
  have hf := ensureCust_map_frame st s.customer
  unfold ingestSale ingestSaleFrom
  simp only [hf.1, hf.2, hsid, heid, hcid]
  exact ⟨_, rfl⟩

theorem ingestSale_map_frame {st st' : IngestSt} {s : SaleDoc}
    (hrun : ingestSale st s = some st') :
    st'.store_map = st.store_map ∧ st'.employee_map = st.employee_map := by
  unfold ingestSale ingestSaleFrom at hrun
  split at hrun
  · cases hrun
  · next sid hsid =>
    split at hrun
    · cases hrun
    · next eid heid =>
      split at hrun
      · cases hrun
      · next cid hcid =>
        cases hrun
        obtain ⟨l1, l2, l3, l4, l5, l6, l7, l8, l9, l10, l11, l12, l13, l14, l15,
          l16, l17⟩ := ingestLines_frames (ensureCust st s.customer).next_sale s.lines _ 1
        exact ⟨l5.trans (ensureCust_map_frame st s.customer).1,
          l6.trans (ensureCust_map_frame st s.customer).2⟩

theorem ingestSales_success (docs : List SaleDoc) : ∀ (st : IngestSt),
    (∀ s ∈ docs, (mget st.store_map s.store_name).isSome ∧
      ∀ sid, mget st.store_map s.store_name = some sid →
        (mget st.employee_map (s.emp_first, s.emp_last, sid)).isSome) →
    ∃ st', ingestSales st docs = some st' := by
  induction docs with
  | nil =>
    intro st _
    exact ⟨st, rfl⟩
  | cons s rest ih =>
    intro st h
    obtain ⟨st1, hst1⟩ := ingestSale_success st s (h s (List.mem_cons_self s rest)).1
      (h s (List.mem_cons_self s rest)).2
    obtain ⟨hm1, hm2⟩ := ingestSale_map_frame hst1
    obtain ⟨st', hst'⟩ := ih st1 (fun s2 hs2 => by
      rw [hm1, hm2]
      exact h s2 (List.mem_cons_of_mem _ hs2))
    refine ⟨st', ?_⟩
    unfold ingestSales
    rw [hst1]
    exact hst'

theorem find?_key_self_of_inj {α K : Type} [BEq K] [LawfulBEq K] (f : α → K)
    (l : List α) (hinj : ∀ x ∈ l, ∀ y ∈ l, f x = f y → x = y) (a : α) (ha : a ∈ l) :
    l.find? (fun b => f b == f a) = some a := by
  induction l with
  | nil => cases ha
  | cons b t ih =>
    by_cases h : f b = f a
    · rw [List.find?_cons_of_pos _ (by simp [h])]
      rw [hinj b (List.mem_cons_self b t) a ha h]
    · rw [List.find?_cons_of_neg _ (by simp [h])]
      rcases List.mem_cons.mp ha with rfl | hat
      · exact absurd rfl h
      · exact ih (fun x hx y hy => hinj x (List.mem_cons_of_mem b hx) y
          (List.mem_cons_of_mem b hy)) hat

theorem prodAt_mem (products : List Base.Product) (pid : Nat)
    (h : pid ∈ products.map Base.Product.product_id) :
    prodAt products pid ∈ products := by
  obtain ⟨p, hp, hpe⟩ := List.mem_map.mp h
  have hs : (products.find? (fun q => q.product_id == pid)).isSome :=
    List.find?_isSome.mpr ⟨p, hp, by simp [hpe]⟩
  obtain ⟨q, hq⟩ := Option.isSome_iff_exists.mp hs
  unfold prodAt
  rw [hq]
  exact List.mem_of_find?_eq_some hq

theorem catAt_mem (categories : List Base.Category) (cid : Nat)
    (h : cid ∈ categories.map Base.Category.category_id) :
    catAt categories cid ∈ categories := by
  obtain ⟨c, hc, hce⟩ := List.mem_map.mp h
  have hs : (categories.find? (fun q => q.category_id == cid)).isSome :=
    List.find?_isSome.mpr ⟨c, hc, by simp [hce]⟩
  obtain ⟨q, hq⟩ := Option.isSome_iff_exists.mp hs
  unfold catAt
  rw [hq]
  exact List.mem_of_find?_eq_some hq

theorem custAt_mem (customers : List Base.Customer) (cid : Nat)
    (h : cid ∈ customers.map Base.Customer.customer_id) :
    custAt customers cid ∈ customers := by
  obtain ⟨c, hc, hce⟩ := List.mem_map.mp h
  have hs : (customers.find? (fun q => q.customer_id == cid)).isSome :=
    List.find?_isSome.mpr ⟨c, hc, by simp [hce]⟩
  obtain ⟨q, hq⟩ := Option.isSome_iff_exists.mp hs
  unfold custAt
  rw [hq]
  exact List.mem_of_find?_eq_some hq

theorem mget_idAssignFrom_get {α : Type} [DecidableEq α] (l : List α) (hnd : l.Nodup) :
    ∀ (k j : Nat) (hj : j < l.length),
      mget (idAssignFrom k l) (l.get ⟨j, hj⟩) = some (k + j) := by
  induction l with
  | nil =>
    intro k j hj
    cases hj
  | cons x t ih =>
    intro k j hj
    rw [List.nodup_cons] at hnd
    cases j with
    | zero =>
      show (if x = x then some k else _) = some (k + 0)
      rw [if_pos rfl]
      rfl
    | succ j =>
      have hjt : j < t.length := by simpa using hj
      have hg : (x :: t).get ⟨j + 1, hj⟩ = t.get ⟨j, hjt⟩ := rfl
      rw [hg]
      show (if x = t.get ⟨j, hjt⟩ then some k
        else mget (idAssignFrom (k + 1) t) (t.get ⟨j, hjt⟩)) = _
      rw [if_neg (fun he => hnd.1 (by rw [he]; exact List.get_mem t j hjt))]
      rw [ih hnd.2 (k + 1) j hjt]
      have harith : k + 1 + j = k + (j + 1) := by omega
      rw [harith]

theorem emp_key_mem (D : List StoreDoc) :
    ∀ (k j : Nat) (hj : j < D.length) (ed : EmpDoc), ed ∈ (D.get ⟨j, hj⟩).employees →
      ((ed.first_name, ed.last_name, k + j) : String × String × Nat) ∈
        (flatEmpsFrom k D).map empKey := by
  induction D with
  | nil =>
    intro k j hj
    cases hj
  | cons d t ih =>
    intro k j hj ed hed
    show _ ∈ (d.employees.map (fun e => (e, k)) ++ flatEmpsFrom (k + 1) t).map empKey
    rw [List.map_append]
    cases j with
    | zero =>
      refine List.mem_append_left _ ?_
      rw [List.map_map]
      exact List.mem_map.mpr ⟨ed, hed, rfl⟩
    | succ j =>
      have hjt : j < t.length := by simpa using hj
      refine List.mem_append_right _ ?_
      have hx := ih (k + 1) j hjt ed hed
      have : k + 1 + j = k + (j + 1) := by omega
      rw [this] at hx
      exact hx

theorem storeRowsFrom_proj (D : List StoreDoc) :
    ∀ (k : Nat), (storeRowsFrom k D).map (fun r => (r.get? 1, r.get? 2)) =
      D.map (fun d => (some (Value.s d.store_name), some (Value.s d.address))) := by
  induction D with
  | nil => intro k; rfl
  | cons d t ih =>
    intro k
    show (some (Value.s d.store_name), some (Value.s d.address)) :: _ = _
    rw [ih (k + 1)]
    rfl

theorem empRowsFrom_proj (L : List (EmpDoc × Nat)) :
    ∀ (j : Nat), (empRowsFrom j L).map (fun r => (r.get? 1, r.get? 2, r.get? 3)) =
      L.map (fun p => (some (Value.s p.1.first_name), some (Value.s p.1.last_name),
        some (Value.s p.1.position))) := by
  induction L with
  | nil => intro j; rfl
  | cons p t ih =>
    intro j
    obtain ⟨e, sid⟩ := p
    show (some (Value.s e.first_name), some (Value.s e.last_name),
      some (Value.s e.position)) :: _ = _
    rw [ih (j + 1)]
    rfl

theorem catRowsFrom_proj (names : List String) :
    ∀ (k : Nat), (catRowsFrom k names).map (fun r => r.get? 1) =
      names.map (fun n => some (Value.s n)) := by
  induction names with
  | nil => intro k; rfl
  | cons n t ih =>
    intro k
    show some (Value.s n) :: _ = _
    rw [ih (k + 1)]
    rfl

theorem prodRowsFrom_proj (ps : List ProdDoc) (names : List String) :
    ∀ (k : Nat), (prodRowsFrom ps k names).map (fun r => (r.get? 1, r.get? 2)) =
      names.map (fun n => (some (Value.s n), some (Value.q (priceOf ps n)))) := by
  induction names with
  | nil => intro k; rfl
  | cons n t ih =>
    intro k
    show (some (Value.s n), some (Value.q (priceOf ps n))) :: _ = _
    rw [ih (k + 1)]
    rfl

theorem custRowsFrom_proj (S : List SaleDoc) (ems : List String) :
    ∀ (k : Nat), (custRowsFrom S k ems).map (fun r => (r.get? 1, r.get? 2, r.get? 3)) =
      ems.map (fun em => (some (Value.s (((firstCust S em).map CustDoc.first_name).getD "")),
        some (Value.s (((firstCust S em).map CustDoc.last_name).getD "")),
        some (Value.s em))) := by
  induction ems with
  | nil => intro k; rfl
  | cons em t ih =>
    intro k
    show (some (Value.s (((firstCust S em).map CustDoc.first_name).getD "")),
      some (Value.s (((firstCust S em).map CustDoc.last_name).getD "")),
      some (Value.s em)) :: _ = _
    rw [ih (k + 1)]
    rfl

theorem flatEmpsFrom_fst (D : List StoreDoc) :
    ∀ (k : Nat), (flatEmpsFrom k D).map Prod.fst = D.flatMap StoreDoc.employees := by
  induction D with
  | nil => intro k; rfl
  | cons d t ih =>
    intro k
    show (d.employees.map (fun e => (e, k)) ++ flatEmpsFrom (k + 1) t).map Prod.fst = _
    rw [List.map_append, List.map_map, ih (k + 1), List.flatMap_cons]
    rw [show (Prod.fst ∘ fun e : EmpDoc => (e, k)) = id from rfl, List.map_id]

theorem flatInvsFrom_fst (D : List StoreDoc) :
    ∀ (k : Nat), (flatInvsFrom k D).map Prod.fst = D.flatMap StoreDoc.inventory := by
  induction D with
  | nil => intro k; rfl
  | cons d t ih =>
    intro k
    show (d.inventory.map (fun v => (v, k)) ++ flatInvsFrom (k + 1) t).map Prod.fst = _
    rw [List.map_append, List.map_map, ih (k + 1), List.flatMap_cons]
    rw [show (Prod.fst ∘ fun v : InvDoc => (v, k)) = id from rfl, List.map_id]

theorem flatProds_docOf (categories : List Base.Category) (products : List Base.Product)
    (employees : List Base.Employee) (inventory : List Base.InvEntry)
    (stores : List Base.Store) :
    flatProds (stores.map (storeDocOf categories products employees inventory)) =
      (invProds products stores inventory).map (toProdDoc categories) := by
  induction stores with
  | nil => rfl
  | cons s t ih =>
    show (invDocsOf categories products inventory s).map InvDoc.product ++
      flatProds (t.map (storeDocOf categories products employees inventory)) = _
    rw [ih]
    unfold invDocsOf invProds invSeq
    rw [List.map_map, List.flatMap_cons, List.map_append, List.map_map]
    simp [Function.comp]

theorem invProds_mem (products : List Base.Product) (stores : List Base.Store)
    (inventory : List Base.InvEntry)
    (hfk_invp : ∀ i ∈ inventory, i.product_id ∈ products.map Base.Product.product_id) :
    ∀ p ∈ invProds products stores inventory, p ∈ products := by
  intro p hp
  obtain ⟨i, hi, rfl⟩ := List.mem_map.mp hp
  have hiinv : i ∈ inventory := by
    obtain ⟨s, hs, hfil⟩ := List.mem_flatMap.mp hi
    exact List.mem_of_mem_filter hfil
  exact prodAt_mem products i.product_id (hfk_invp i hiinv)

/-- C2 (amended): for relational base data — primary keys unique, foreign keys
valid, each sale's employee employed at the sale's store, every sale with at
least one line — in which store names, category names, product names, customer
emails, and per-store employee (first_name, last_name) pairs are pairwise
distinct, composing the document-building step of the JSON generator with
`load_postgres_from_json` succeeds and yields exactly one store row per store
(same name and address), one employee row per employee (same names and
position), one category row per category **referenced via some inventoried
product** (same name; a category no inventoried product references gets no
row — see the counterexample), one product row per product appearing in some
inventory (same name and price), one inventory row per inventory entry (same
quantity), and one customer row per customer appearing in some sale (same
names and email). -/
theorem c2_renormalization_roundtrip
    (categories : List Base.Category) (products : List Base.Product)
    (stores : List Base.Store) (employees : List Base.Employee)
    (customers : List Base.Customer) (inventory : List Base.InvEntry)
    (sales_hdr : List Base.SaleHdr) (sale_lines : List Base.SaleLineRec)
    (hsn : (stores.map Base.Store.name).Nodup)
    (hcn : (categories.map Base.Category.name).Nodup)
    (hpn : (products.map Base.Product.name).Nodup)
    (hem : (customers.map Base.Customer.email).Nodup)
    (hpair : ∀ s ∈ stores, ((employees.filter (fun e => e.store_id == s.store_id)).map
      (fun e => (e.first_name, e.last_name))).Nodup)
    (hsid : (stores.map Base.Store.store_id).Nodup)
    (hcid : (categories.map Base.Category.category_id).Nodup)
    (hpid : (products.map Base.Product.product_id).Nodup)
    (heid : (employees.map Base.Employee.employee_id).Nodup)
    (huid : (customers.map Base.Customer.customer_id).Nodup)
    (hfk_pc : ∀ p ∈ products, p.category_id ∈ categories.map Base.Category.category_id)
    (hfk_emp : ∀ e ∈ employees, e.store_id ∈ stores.map Base.Store.store_id)
    (hfk_invs : ∀ i ∈ inventory, i.store_id ∈ stores.map Base.Store.store_id)
    (hfk_invp : ∀ i ∈ inventory, i.product_id ∈ products.map Base.Product.product_id)
    (hfk_lp : ∀ ln ∈ sale_lines, ln.product_id ∈ products.map Base.Product.product_id)
    (hfk_ss : ∀ sh ∈ sales_hdr, sh.store_id ∈ stores.map Base.Store.store_id)
    (hfk_sc : ∀ sh ∈ sales_hdr, sh.customer_id ∈ customers.map Base.Customer.customer_id)
    (hfk_se : ∀ sh ∈ sales_hdr, ∃ e ∈ employees, e.employee_id = sh.employee_id ∧
      e.store_id = sh.store_id)
    (hlines : ∀ sh ∈ sales_hdr, ∃ ln ∈ sale_lines, ln.sale_id = sh.sale_id) :
    ∃ cat sd st,
      JsonGen.store_docs categories products stores employees inventory = some cat ∧
      JsonGen.sale_docs categories products stores employees customers sales_hdr
        sale_lines = some sd ∧
      loadState cat sd = some st ∧
      st.db.store.map (fun r => (r.get? 1, r.get? 2)) =
        stores.map (fun s => (some (Value.s s.name), some (Value.s s.address))) ∧
      st.db.employee.map (fun r => (r.get? 1, r.get? 2, r.get? 3)) =
        (empSeq stores employees).map (fun e => (some (Value.s e.first_name),
          some (Value.s e.last_name), some (Value.s e.position))) ∧
      (empSeq stores employees).Perm employees ∧
      st.db.category.map (fun r => r.get? 1) =
        (refCats categories products stores inventory).map
          (fun c => some (Value.s c.name)) ∧
      st.db.product.map (fun r => (r.get? 1, r.get? 2)) =
        (refProds products stores inventory).map
          (fun p => (some (Value.s p.name), some (Value.q p.price))) ∧
      st.db.inventory.map (fun r => r.get? 2) =
        (invSeq stores inventory).map (fun i => some (Value.n i.quantity)) ∧
      (invSeq stores inventory).Perm inventory ∧
      st.db.customer.map (fun r => (r.get? 1, r.get? 2, r.get? 3)) =
        (refCusts customers sales_hdr).map (fun c => (some (Value.s c.first_name),
          some (Value.s c.last_name), some (Value.s c.email))) := by
  have hcatdocs := store_docs_eq categories products stores employees inventory
    hpid hcid hfk_pc hfk_invp
  have hse2 : ∀ sh ∈ sales_hdr, sh.employee_id ∈ employees.map Base.Employee.employee_id := by
    intro sh hsh
    obtain ⟨e, he, he1, _⟩ := hfk_se sh hsh
    exact List.mem_map.mpr ⟨e, he, he1⟩
  have hsaledocs := sale_docs_eq categories products stores employees customers
    sales_hdr sale_lines hpid hcid hsid heid huid hfk_pc hfk_lp hfk_ss hse2 hfk_sc hlines
  have hDnames : ((stores.map (storeDocOf categories products employees
      inventory)).map StoreDoc.store_name) = stores.map Base.Store.name := by
    rw [List.map_map]
    exact List.map_congr_left (fun s _ => rfl)
  have hndD : (((stores.map (storeDocOf categories products employees
      inventory))).map StoreDoc.store_name).Nodup := by
    rw [hDnames]
    exact hsn
  obtain ⟨stc, hcatrun, hCI⟩ := ingestCatalog_catalogInv
    (stores.map (storeDocOf categories products employees inventory)) [] initSt
    catalogInv_initSt (by simpa using hndD)
  simp only [List.nil_append] at hCI
  have hDlen : (stores.map (storeDocOf categories products employees
      inventory)).length = stores.length := by simp
  have hcond : ∀ s ∈ sales_hdr.map (saleDocOf categories products stores employees
      customers sale_lines),
      (mget stc.store_map s.store_name).isSome ∧
      ∀ sid, mget stc.store_map s.store_name = some sid →
        (mget stc.employee_map (s.emp_first, s.emp_last, sid)).isSome := by
    intro s hs
    obtain ⟨sh, hsh, rfl⟩ := List.mem_map.mp hs
    obtain ⟨s0, hs0mem, hs0id⟩ := List.mem_map.mp (hfk_ss sh hsh)
    have hsa : storeAt stores sh.store_id = s0 := by
      unfold storeAt
      rw [← hs0id, find?_key_self Base.Store.store_id stores hsid s0 hs0mem]
      rfl
    obtain ⟨⟨j, hj⟩, hget⟩ := List.mem_iff_get.mp hs0mem
    have hj2 : j < (stores.map Base.Store.name).length := by simpa using hj
    have hnamej : (stores.map Base.Store.name).get ⟨j, hj2⟩ = s0.name := by
      have hg : (stores.map Base.Store.name).get ⟨j, hj2⟩ =
          Base.Store.name (stores.get ⟨j, hj⟩) := by simp
      rw [hg, hget]
    have hlookup : mget stc.store_map s0.name = some (1 + j) := by
      rw [hCI.smap, hDnames]
      have hx := mget_idAssignFrom_get (stores.map Base.Store.name) hsn 1 j hj2
      rw [hnamej] at hx
      exact hx
    have hsname : (saleDocOf categories products stores employees customers
        sale_lines sh).store_name = s0.name := by
      show (storeAt stores sh.store_id).name = s0.name
      rw [hsa]
    constructor
    · rw [hsname, hlookup]
      rfl
    · intro sid hsid2
      rw [hsname, hlookup] at hsid2
      have hsidval : sid = 1 + j := ((Option.some.injEq _ _).mp hsid2).symm
      subst hsidval
      obtain ⟨e0, he0mem, he0id, he0sid⟩ := hfk_se sh hsh
      have hea : empAt employees sh.employee_id = e0 := by
        unfold empAt
        rw [← he0id, find?_key_self Base.Employee.employee_id employees heid e0 he0mem]
        rfl
      rw [hCI.ekeys]
      have hjD : j < (stores.map (storeDocOf categories products employees
          inventory)).length := by
        rw [hDlen]
        exact hj
      have hDget : (stores.map (storeDocOf categories products employees
          inventory)).get ⟨j, hjD⟩ = storeDocOf categories products employees
            inventory s0 := by
        have hg : (stores.map (storeDocOf categories products employees
            inventory)).get ⟨j, hjD⟩ = storeDocOf categories products employees
              inventory (stores.get ⟨j, hj⟩) := by simp
        rw [hg, hget]
      have hed : (⟨e0.first_name, e0.last_name, e0.position⟩ : EmpDoc) ∈
          ((stores.map (storeDocOf categories products employees
            inventory)).get ⟨j, hjD⟩).employees := by
        rw [hDget]
        show _ ∈ empDocsOf employees s0
        refine List.mem_map.mpr ⟨e0, ?_, rfl⟩
        refine List.mem_filter.mpr ⟨he0mem, ?_⟩
        simp [he0sid, hs0id]
      have hkey := emp_key_mem (stores.map (storeDocOf categories products employees
        inventory)) 1 j hjD ⟨e0.first_name, e0.last_name, e0.position⟩ hed
      have hfst : (saleDocOf categories products stores employees customers
          sale_lines sh).emp_first = e0.first_name := by
        show (empAt employees sh.employee_id).first_name = _
        rw [hea]
      have hlst : (saleDocOf categories products stores employees customers
          sale_lines sh).emp_last = e0.last_name := by
        show (empAt employees sh.employee_id).last_name = _
        rw [hea]
      rw [hfst, hlst]
      exact hkey
  obtain ⟨st, hsalerun⟩ := ingestSales_success
    (sales_hdr.map (saleDocOf categories products stores employees customers
      sale_lines)) stc hcond
  have hCust0 : CustInv [] stc := by
    refine ⟨?_, ?_, ?_⟩
    · rw [hCI.custm]
      rfl
    · rw [hCI.ncust]
      rfl
    · rw [hCI.dbcust]
      rfl
  obtain ⟨hCustInv, a1, a2, a3, a4, a5, a6, a7, a8, a9, a10, a11, a12⟩ :=
    ingestSales_custInv _ [] stc st hsalerun hCust0
  simp only [List.nil_append] at hCustInv
  have hflat : flatProds (stores.map (storeDocOf categories products employees
      inventory)) = (invProds products stores inventory).map (toProdDoc categories) :=
    flatProds_docOf categories products employees inventory stores
  have hinjP : ∀ x ∈ invProds products stores inventory,
      ∀ y ∈ invProds products stores inventory, x.name = y.name → x = y := by
    intro x hx y hy hxy
    exact List.inj_on_of_nodup_map hpn
      (invProds_mem products stores inventory hfk_invp x hx)
      (invProds_mem products stores inventory hfk_invp y hy) hxy
  refine ⟨_, _, st, hcatdocs, hsaledocs, ?_, ?_, ?_, ?_, ?_, ?_, ?_, ?_, ?_⟩
  · unfold loadState
    rw [hcatrun]
    exact hsalerun
  · rw [a8, hCI.srows, storeRowsFrom_proj, List.map_map]
    exact List.map_congr_left (fun s _ => rfl)
  · rw [a9, hCI.erows, empRowsFrom_proj]
    rw [show (fun p : EmpDoc × Nat => (some (Value.s p.1.first_name),
        some (Value.s p.1.last_name), some (Value.s p.1.position))) =
      (fun ed : EmpDoc => (some (Value.s ed.first_name), some (Value.s ed.last_name),
        some (Value.s ed.position))) ∘ Prod.fst from rfl]
    rw [← List.map_map, flatEmpsFrom_fst]
    have he3 : (stores.map (storeDocOf categories products employees
        inventory)).flatMap StoreDoc.employees = (empSeq stores employees).map
          (fun e => (⟨e.first_name, e.last_name, e.position⟩ : EmpDoc)) := by
      unfold empSeq
      rw [List.flatMap_map, List.map_flatMap]
      rfl
    rw [he3, List.map_map]
    rfl
  · have hes : empSeq stores employees = (stores.map Base.Store.store_id).flatMap
        (fun k => employees.filter (fun e => e.store_id == k)) := by
      unfold empSeq
      rw [List.flatMap_map]
    rw [hes]
    exact flatMap_filter_perm Base.Employee.store_id _ _ hsid hfk_emp
  · rw [a10, hCI.cat.crows, catRowsFrom_proj]
    have hc2 : catsOf (flatProds (stores.map (storeDocOf categories products
        employees inventory))) = (refCats categories products stores inventory).map
          Base.Category.name := by
      unfold catsOf refCats
      rw [hflat, List.map_map]
      rw [show (invProds products stores inventory).map
          (ProdDoc.category ∘ toProdDoc categories) =
        ((invProds products stores inventory).map
          (fun p => catAt categories p.category_id)).map Base.Category.name from by
            rw [List.map_map]; rfl]
      refine dedupFirst_map_inj Base.Category.name _ ?_
      intro a ha b hb heq
      obtain ⟨p, hp, rfl⟩ := List.mem_map.mp ha
      obtain ⟨q, hq, rfl⟩ := List.mem_map.mp hb
      exact List.inj_on_of_nodup_map hcn
        (catAt_mem categories p.category_id
          (hfk_pc p (invProds_mem products stores inventory hfk_invp p hp)))
        (catAt_mem categories q.category_id
          (hfk_pc q (invProds_mem products stores inventory hfk_invp q hq))) heq
    rw [hc2, List.map_map]
    rfl
  · rw [a11, hCI.cat.prows, prodRowsFrom_proj]
    have hnames : namesOf (flatProds (stores.map (storeDocOf categories products
        employees inventory))) = (refProds products stores inventory).map
          Base.Product.name := by
      unfold namesOf refProds
      rw [hflat, List.map_map]
      rw [show (invProds products stores inventory).map
          (ProdDoc.name ∘ toProdDoc categories) =
        (invProds products stores inventory).map Base.Product.name from
          List.map_congr_left (fun p _ => rfl)]
      exact dedupFirst_map_inj Base.Product.name _ hinjP
    rw [hnames, List.map_map]
    refine List.map_congr_left ?_
    intro p hp
    have hpinv : p ∈ invProds products stores inventory := (mem_dedupFirst _ _).mp hp
    have h3 : List.find? ((fun pd : ProdDoc => pd.name == p.name) ∘
        toProdDoc categories) (invProds products stores inventory) = some p :=
      find?_key_self_of_inj Base.Product.name _ hinjP p hpinv
    have hfw : firstWith (flatProds (stores.map (storeDocOf categories products
        employees inventory))) p.name = some (toProdDoc categories p) := by
      unfold firstWith
      rw [hflat, List.find?_map, h3]
      rfl
    have hprice : priceOf (flatProds (stores.map (storeDocOf categories products
        employees inventory))) p.name = p.price := by
      unfold priceOf
      rw [hfw]
      rfl
    show (some (Value.s p.name), some (Value.q (priceOf _ p.name))) = _
    rw [hprice]
  · rw [a12, hCI.irows]
    unfold invRowsOf
    rw [List.map_map]
    rw [show ((fun r : Row => r.get? 2) ∘ (fun p : InvDoc × Nat =>
        [Value.n p.2, Value.n (posIn (namesOf (flatProds (stores.map (storeDocOf
          categories products employees inventory)))) p.1.product.name),
          Value.n p.1.quantity])) = (fun v : InvDoc => some (Value.n v.quantity)) ∘
            Prod.fst from rfl]
    rw [← List.map_map, flatInvsFrom_fst]
    have hDinv : (stores.map (storeDocOf categories products employees
        inventory)).flatMap StoreDoc.inventory = (invSeq stores inventory).map
          (fun i => (⟨toProdDoc categories (prodAt products i.product_id),
            i.quantity⟩ : InvDoc)) := by
      unfold invSeq
      rw [List.flatMap_map, List.map_flatMap]
      rfl
    rw [hDinv, List.map_map]
    rfl
  · have his : invSeq stores inventory = (stores.map Base.Store.store_id).flatMap
        (fun k => inventory.filter (fun i => i.store_id == k)) := by
      unfold invSeq
      rw [List.flatMap_map]
    rw [his]
    exact flatMap_filter_perm Base.InvEntry.store_id _ _ hsid hfk_invs
  · rw [hCustInv.crows, custRowsFrom_proj]
    have hinjC : ∀ x ∈ sales_hdr.map (fun sh => custAt customers sh.customer_id),
        ∀ y ∈ sales_hdr.map (fun sh => custAt customers sh.customer_id),
          x.email = y.email → x = y := by
      intro x hx y hy hxy
      obtain ⟨sh1, hsh1, rfl⟩ := List.mem_map.mp hx
      obtain ⟨sh2, hsh2, rfl⟩ := List.mem_map.mp hy
      exact List.inj_on_of_nodup_map hem
        (custAt_mem customers sh1.customer_id (hfk_sc sh1 hsh1))
        (custAt_mem customers sh2.customer_id (hfk_sc sh2 hsh2)) hxy
    have hems : emailsOf (sales_hdr.map (saleDocOf categories products stores
        employees customers sale_lines)) = (refCusts customers sales_hdr).map
          Base.Customer.email := by
      unfold emailsOf refCusts
      rw [List.map_map]
      rw [show sales_hdr.map ((fun s : SaleDoc => s.customer.email) ∘
          saleDocOf categories products stores employees customers sale_lines) =
        (sales_hdr.map (fun sh => custAt customers sh.customer_id)).map
          Base.Customer.email from by rw [List.map_map]; rfl]
      exact dedupFirst_map_inj Base.Customer.email _ hinjC
    rw [hems, List.map_map]
    refine List.map_congr_left ?_
    intro c hc
    have hcmem : c ∈ sales_hdr.map (fun sh => custAt customers sh.customer_id) :=
      (mem_dedupFirst _ _).mp hc
    obtain ⟨sh0, hsh0, hc0⟩ := List.mem_map.mp hcmem
    have hfc : firstCust (sales_hdr.map (saleDocOf categories products stores
        employees customers sale_lines)) c.email =
          some ⟨c.first_name, c.last_name, c.email⟩ := by
      unfold firstCust
      rw [List.find?_map]
      have hsome : (sales_hdr.find? ((fun s : SaleDoc => s.customer.email == c.email) ∘
          saleDocOf categories products stores employees customers sale_lines)).isSome := by
        refine List.find?_isSome.mpr ⟨sh0, hsh0, ?_⟩
        show ((custAt customers sh0.customer_id).email == c.email) = true
        rw [hc0]
        simp
      obtain ⟨sh1, hsh1⟩ := Option.isSome_iff_exists.mp hsome
      have hsh1mem : sh1 ∈ sales_hdr := List.mem_of_find?_eq_some hsh1
      have hpred := List.find?_some hsh1
      have hpe : (custAt customers sh1.customer_id).email = c.email := by
        have : ((custAt customers sh1.customer_id).email == c.email) = true := hpred
        exact beq_iff_eq.mp this
      have hceq : custAt customers sh1.customer_id = c :=
        hinjC _ (List.mem_map.mpr ⟨sh1, hsh1mem, rfl⟩) c hcmem hpe
      rw [hsh1]
      show some ((saleDocOf categories products stores employees customers
        sale_lines sh1).customer) = _
      show some (⟨(custAt customers sh1.customer_id).first_name,
        (custAt customers sh1.customer_id).last_name,
        (custAt customers sh1.customer_id).email⟩ : CustDoc) = _
      rw [hceq]
    show (some (Value.s (((firstCust _ c.email).map CustDoc.first_name).getD "")),
      some (Value.s (((firstCust _ c.email).map CustDoc.last_name).getD "")),
      some (Value.s c.email)) = _
    rw [hfc]
    rfl

/-- Counterexample to C2 as stated: the base data with one category `c1`, no
products, one store and nothing else satisfies every distinctness hypothesis of
the claim (checked in the first five conjuncts), and the composition of the
document-building step with the ingestion succeeds — but the category table
ends up empty, not with the one row per category the claim demands: a category
that no inventoried product references is never copied. -/
theorem c2_category_counterexample :
    ([(⟨1, "c1"⟩ : Base.Category)].map Base.Category.name).Nodup ∧
    (([] : List Base.Product).map Base.Product.name).Nodup ∧
    ([(⟨1, "S", "A"⟩ : Base.Store)].map Base.Store.name).Nodup ∧
    (([] : List Base.Customer).map Base.Customer.email).Nodup ∧
    (∀ s ∈ [(⟨1, "S", "A"⟩ : Base.Store)],
      ((([] : List Base.Employee).filter (fun e => e.store_id == s.store_id)).map
        (fun e => (e.first_name, e.last_name))).Nodup) ∧
    ¬ ((JsonGen.store_docs [⟨1, "c1"⟩] [] [⟨1, "S", "A"⟩] [] []).bind
        (fun cat => (JsonGen.sale_docs [⟨1, "c1"⟩] [] [⟨1, "S", "A"⟩] [] [] [] []).bind
          (fun sd => (loadState cat sd).map (fun st => st.db.category.length))) =
        some [(⟨1, "c1"⟩ : Base.Category)].length) := by decide

/-- Witness for the amended C2, at a one-row base in every table; each of the
nineteen hypotheses is discharged by computation. -/
theorem c2_renormalization_roundtrip_witness :
    ∃ cat sd st,
      JsonGen.store_docs [⟨1, "c1"⟩] [⟨1, "p1", 5, 1⟩] [⟨1, "S", "A"⟩]
        [⟨1, "F", "L", "P", 1⟩] [⟨1, 1, 7⟩] = some cat ∧
      JsonGen.sale_docs [⟨1, "c1"⟩] [⟨1, "p1", 5, 1⟩] [⟨1, "S", "A"⟩]
        [⟨1, "F", "L", "P", 1⟩] [⟨1, "cf", "cl", "em"⟩] [⟨1, "t", 1, 1, 1, 10⟩]
        [⟨1, 1, 1, 2, 5, 10⟩] = some sd ∧
      loadState cat sd = some st ∧
      st.db.store.map (fun r => (r.get? 1, r.get? 2)) =
        [(⟨1, "S", "A"⟩ : Base.Store)].map (fun s =>
          (some (Value.s s.name), some (Value.s s.address))) ∧
      st.db.customer.map (fun r => (r.get? 1, r.get? 2, r.get? 3)) =
        (refCusts [⟨1, "cf", "cl", "em"⟩] [⟨1, "t", 1, 1, 1, 10⟩]).map
          (fun c => (some (Value.s c.first_name), some (Value.s c.last_name),
            some (Value.s c.email))) := by
  obtain ⟨cat, sd, st, h1, h2, h3, h4, h5, h6, h7, h8, h9, h10, h11⟩ :=
    c2_renormalization_roundtrip [⟨1, "c1"⟩] [⟨1, "p1", 5, 1⟩] [⟨1, "S", "A"⟩]
      [⟨1, "F", "L", "P", 1⟩] [⟨1, "cf", "cl", "em"⟩] [⟨1, 1, 7⟩]
      [⟨1, "t", 1, 1, 1, 10⟩] [⟨1, 1, 1, 2, 5, 10⟩]
      (by decide) (by decide) (by decide) (by decide) (by decide) (by decide)
      (by decide) (by decide) (by decide) (by decide) (by decide) (by decide)
      (by decide) (by decide) (by decide) (by decide) (by decide) (by decide)
      (by decide)
  exact ⟨cat, sd, st, h1, h2, h3, h4, h11⟩
